import Mathlib

/-!
Verification of `networkx/algorithms/chordal/chordal.py`.

The Python module is embedded shallowly:

* a `networkx` graph becomes `PyGraph`: a node list, an undirected edge list
  (each edge stored once, normalised as `(min, max)`), and the two class flags
  the code queries (`is_directed()`, `is_multigraph()`).  Node and edge lists
  are kept sorted as a canonical representation of Python's unordered
  dictionaries;
* every place where the Python code draws from `random` or iterates over a
  set / dictionary in unspecified order is modelled by *collecting semantics*:
  the embedded function returns the list of all results that some sequence of
  choices can produce.  A claim of the form "the function returns X" is then
  read as "every possible outcome is X";
* exceptions (`NetworkXError` for directed/multigraph input and self loops,
  `NetworkXNonChordal`, `NetworkXTreewidthBoundExceeded`, and the `IndexError`
  / `KeyError` escapes of `random.choice` / `set.remove`) become the `Err`
  type, and a fallible result is a `Res`;
* Python integer oddities are modelled faithfully: the `None` sentinel of
  `_max_cardinality_node` and of `current_treewidth` (which in Python 2
  compares less than every integer) becomes `Option Nat` with `none < some k`,
  and the `sys.maxint` default of `treewidth_bound` becomes `none` in an
  `Option Nat` bound (no clique in a graph can have more than `sys.maxint`
  nodes, so the default bound can never be exceeded).
-/

namespace NetworkxChordal


/-- Shallow embedding of the `networkx` graphs consumed by `chordal.py`. -/
structure PyGraph where
  nodes : List Nat
  edges : List (Nat × Nat)
  directed : Bool
  multigraph : Bool

instance : DecidableEq PyGraph := fun a b =>
  match a, b with
  | ⟨a1, a2, a3, a4⟩, ⟨b1, b2, b3, b4⟩ =>
    decidable_of_iff (a1 = b1 ∧ a2 = b2 ∧ a3 = b3 ∧ a4 = b4)
      (Iff.of_eq (PyGraph.mk.injEq a1 a2 a3 a4 b1 b2 b3 b4).symm)

/-- The exceptions that can escape the functions of `chordal.py`. -/
inductive Err where
  | directedInput
  | multigraphInput
  | selfLoop
  | nonChordal
  | treewidthBoundExceeded
  | indexError
  | keyError
deriving DecidableEq

/-- Result of a fallible Python call: a value or a raised exception. -/
inductive Res (α : Type) where
  | ok : α → Res α
  | error : Err → Res α

instance {α : Type} [DecidableEq α] : DecidableEq (Res α) := fun a b =>
  match a, b with
  | .ok x, .ok y => decidable_of_iff (x = y) (Iff.of_eq (Res.ok.injEq x y).symm)
  | .ok x, .error f => isFalse fun h => Res.noConfusion h
  | .error e, .ok y => isFalse fun h => Res.noConfusion h
  | .error e, .error f =>
    decidable_of_iff (e = f) (Iff.of_eq (Res.error.injEq e f).symm)

/-- Undirected adjacency: the edge is stored in one of the two orientations. -/
def Adj (g : PyGraph) (u v : Nat) : Prop :=
  (u, v) ∈ g.edges ∨ (v, u) ∈ g.edges

instance (g : PyGraph) (u v : Nat) : Decidable (Adj g u v) := by
  unfold Adj; infer_instance

/-- Boolean membership in a node list, written with the primitive `Nat.beq`
so that concrete runs reduce fast. -/
def memB (x : Nat) : List Nat → Bool
  | [] => false
  | y :: l => cond (Nat.beq x y) true (memB x l)

/-- The neighbour list `G[v]` (the keys of the adjacency dictionary). -/
def nbrs (g : PyGraph) (v : Nat) : List Nat :=
  g.edges.filterMap fun e =>
    cond (Nat.beq e.1 v) (some e.2) (cond (Nat.beq e.2 v) (some e.1) none)

/-- Well-formedness of the canonical representation: node list without
duplicates, every edge stored once as `(min, max)` with distinct endpoints
that are listed nodes. -/
def WF (g : PyGraph) : Prop :=
  g.nodes.Nodup ∧ g.edges.Nodup ∧
    ∀ e ∈ g.edges, e.1 < e.2 ∧ e.1 ∈ g.nodes ∧ e.2 ∈ g.nodes

/-- Insert an edge into the sorted canonical edge list. -/
def insertEdge (x : Nat × Nat) : List (Nat × Nat) → List (Nat × Nat)
  | [] => [x]
  | y :: ys =>
    if x.1 < y.1 ∨ (x.1 = y.1 ∧ x.2 ≤ y.2) then x :: y :: ys else y :: insertEdge x ys

/-- `G.add_edge(u, v)`: add the two endpoints as nodes when absent and store
the normalised edge when it is not already present. -/
def addEdge (g : PyGraph) (u v : Nat) : PyGraph :=
  let ns1 := if u ∈ g.nodes then g.nodes else g.nodes.orderedInsert (· ≤ ·) u
  let ns2 := if v ∈ ns1 then ns1 else ns1.orderedInsert (· ≤ ·) v
  { nodes := ns2
    edges :=
      if (min u v, max u v) ∈ g.edges then g.edges
      else insertEdge (min u v, max u v) g.edges
    directed := g.directed
    multigraph := g.multigraph }

/-- `G.subgraph(s)`: the induced subgraph on the node subset `s` (given as a
canonical duplicate-free list). -/
def subgraphF (g : PyGraph) (s : List Nat) : PyGraph :=
  { nodes := g.nodes.filter fun x => memB x s
    edges := g.edges.filter fun e => (memB e.1 s).and (memB e.2 s)
    directed := g.directed
    multigraph := g.multigraph }

/-- `_is_complete_graph(G)`: raise `NetworkXError` on self loops, then compare
the edge count with `n*(n-1)/2`. -/
def is_complete_graph (g : PyGraph) : Res Bool :=
  if g.edges.any fun e => e.1 == e.2 then .error .selfLoop
  else if g.nodes.length < 2 then .ok true
  else .ok (g.edges.length == g.nodes.length * (g.nodes.length - 1) / 2)

/-- Specification-side meaning of completeness: all pairs of distinct listed
nodes are adjacent. -/
def CompleteOn (g : PyGraph) : Prop :=
  ∀ a ∈ g.nodes, ∀ b ∈ g.nodes, a ≠ b → Adj g a b

instance (g : PyGraph) : Decidable (CompleteOn g) := by
  unfold CompleteOn; infer_instance

/-- Collecting semantics of `_find_missing_edge`: over all dictionary
iteration orders and all `set.pop` choices, the possible results are exactly
the ordered pairs `(u, w)` of distinct non-adjacent nodes of `G`. -/
def find_missing_edge (g : PyGraph) : List (Nat × Nat) :=
  g.nodes.flatMap fun u =>
    (g.nodes.filter fun w => (memB w (u :: nbrs g u)).not).map fun w => (u, w)

/-- Ordered insertion into a sorted node list via the primitive `Nat.ble`. -/
def insNat (x : Nat) : List Nat → List Nat
  | [] => [x]
  | y :: l => cond (Nat.ble x y) (x :: y :: l) (y :: insNat x l)

/-- Canonical insertion into a duplicate-free sorted node list (the
representation of a Python set of nodes). -/
def sInsert (x : Nat) (l : List Nat) : List Nat :=
  cond (memB x l) l (insNat x l)

/-- `len([y for y in G[x] if y in wanna_connect])`. -/
def nbCount (g : PyGraph) (x : Nat) (wanna : List Nat) : Nat :=
  (nbrs g x).countP fun y => memB y wanna

/-- One iteration of the `for x in choices` loop of `_max_cardinality_node`,
acting on the state (`max_number`, `max_cardinality_node`).  `max_number`
starts out as Python's `None`, which in Python 2 compares less than every
integer, and `max_cardinality_node` starts out unassigned (`none`). -/
def mcnStep (g : PyGraph) (wanna : List Nat) (acc : Option Nat × Option Nat)
    (x : Nat) : Option Nat × Option Nat :=
  let number := nbCount g x wanna
  match acc.1 with
  | none => (some number, some x)
  | some m => if m < number then (some number, some x) else acc

/-- `_max_cardinality_node(G, choices, wanna_connect)` where the set `choices`
is iterated in the order given by `order`; the result is `none` exactly when
the loop never assigned the result variable (the `NameError` of the original
on an empty choice set). -/
def max_cardinality_node (g : PyGraph) (order : List Nat) (wanna : List Nat) :
    Option Nat :=
  (order.foldl (mcnStep g wanna) (none, none)).2

/-- The largest neighbour count among `choices`. -/
def cntMax (g : PyGraph) (choices wanna : List Nat) : Nat :=
  (choices.map fun y => nbCount g y wanna).foldr max 0

/-- The collecting semantics used by the traversals: the set of possible
results of `_max_cardinality_node` over all iteration orders, namely all
members of `choices` with the maximal neighbour count in `wanna_connect`
(justified by `max_cardinality_node_spec` and
`max_cardinality_node_achieves`). -/
def maxCardinalityOutcomes (g : PyGraph) (choices wanna : List Nat) : List Nat :=
  choices.filter fun x => Nat.beq (nbCount g x wanna) (cntMax g choices wanna)

/-- Deduplication through a Boolean equality test, keeping the last
occurrence of every element. -/
def dedupB {α : Type} (beq : α → α → Bool) : List α → List α
  | [] => []
  | x :: l => cond (l.any (beq x)) (dedupB beq l) (x :: dedupB beq l)

def beqBool (a b : Bool) : Bool := (a.and b).or (a.not.and b.not)

def beqON : Option Nat → Option Nat → Bool
  | none, none => true
  | some a, some b => Nat.beq a b
  | _, _ => false

def beqLN : List Nat → List Nat → Bool
  | [], [] => true
  | a :: as, b :: bs => (Nat.beq a b).and (beqLN as bs)
  | _, _ => false

def beqLNN : List (Nat × Nat) → List (Nat × Nat) → Bool
  | [], [] => true
  | (a, b) :: as, (c, d) :: bs => (Nat.beq a c).and ((Nat.beq b d).and (beqLNN as bs))
  | _, _ => false

def beqLLN : List (List Nat) → List (List Nat) → Bool
  | [], [] => true
  | a :: as, b :: bs => (beqLN a b).and (beqLLN as bs)
  | _, _ => false

def beqGraph (a b : PyGraph) : Bool :=
  (beqLN a.nodes b.nodes).and ((beqLNN a.edges b.edges).and
    ((beqBool a.directed b.directed).and (beqBool a.multigraph b.multigraph)))

def beqErr (a b : Err) : Bool :=
  match a, b with
  | .directedInput, .directedInput => true
  | .multigraphInput, .multigraphInput => true
  | .selfLoop, .selfLoop => true
  | .nonChordal, .nonChordal => true
  | .treewidthBoundExceeded, .treewidthBoundExceeded => true
  | .indexError, .indexError => true
  | .keyError, .keyError => true
  | _, _ => false

def beqTriple : Option (Nat × Nat × Nat) → Option (Nat × Nat × Nat) → Bool
  | none, none => true
  | some (x, y, z), some (x2, y2, z2) =>
    (Nat.beq x x2).and ((Nat.beq y y2).and (Nat.beq z z2))
  | _, _ => false

def beqRes {α : Type} (beqA : α → α → Bool) : Res α → Res α → Bool
  | .ok x, .ok y => beqA x y
  | .error e, .error f => beqErr e f
  | _, _ => false

def beqInt : Int → Int → Bool
  | .ofNat a, .ofNat b => Nat.beq a b
  | .negSucc a, .negSucc b => Nat.beq a b
  | _, _ => false

/-- The loop state of `_find_chordality_breaker`: the two working sets and
`current_treewidth` (initially Python's `None`). -/
structure BSt where
  unnumbered : List Nat
  numbered : List Nat
  tw : Option Nat

instance : DecidableEq BSt := fun a b =>
  match a, b with
  | ⟨a1, a2, a3⟩, ⟨b1, b2, b3⟩ =>
    decidable_of_iff (a1 = b1 ∧ a2 = b2 ∧ a3 = b3)
      (Iff.of_eq (BSt.mk.injEq a1 a2 a3 b1 b2 b3).symm)

/-- A live (`more`) or finished (`done`) branch of the breaker traversal. -/
inductive BNode where
  | more : BSt → BNode
  | done : Res (Option (Nat × Nat × Nat)) → BNode

instance : DecidableEq BNode := fun a b =>
  match a, b with
  | .more x, .more y => decidable_of_iff (x = y) (Iff.of_eq (BNode.more.injEq x y).symm)
  | .more _, .done _ => isFalse fun h => BNode.noConfusion h
  | .done _, .more _ => isFalse fun h => BNode.noConfusion h
  | .done r, .done q => decidable_of_iff (r = q) (Iff.of_eq (BNode.done.injEq r q).symm)

def beqBSt (a b : BSt) : Bool :=
  (beqLN a.unnumbered b.unnumbered).and
    ((beqLN a.numbered b.numbered).and (beqON a.tw b.tw))

def beqBNode (a b : BNode) : Bool :=
  match a, b with
  | .more x, .more y => beqBSt x y
  | .done r, .done q => beqRes beqTriple r q
  | _, _ => false

/-- `current_treewidth > treewidth_bound`, where a bound of `none` is the
never-exceeded `sys.maxint` default. -/
def boundLt (bound : Option Nat) (t : Nat) : Bool :=
  match bound with
  | some b => decide (b < t)
  | none => false

/-- The body of the while loop of `_find_chordality_breaker` once the next
node `v` has been selected: number `v`, take its numbered neighbours
`clique_wanna_be` (represented canonically as the sublist of the numbered
nodes adjacent to `v`), test completeness of the induced subgraph, and either
update `current_treewidth` (raising when the bound is exceeded) or return a
witness built from a missing edge.  `max (st.tw.getD 0) cwb.length` is
Python's `max(current_treewidth, len(clique_wanna_be))` (with `None` below
every integer). -/
def breakerBranch (g : PyGraph) (bound : Option Nat) (st : BSt) (v : Nat) :
    List BNode :=
  let un := st.unnumbered.erase v
  let num := sInsert v st.numbered
  let cwb := num.filter fun y => memB y (nbrs g v)
  match is_complete_graph (subgraphF g cwb) with
  | .error e => [.done (.error e)]
  | .ok true =>
    let tw2 := max (st.tw.getD 0) cwb.length
    if boundLt bound tw2 then [.done (.error .treewidthBoundExceeded)]
    else [.more ⟨un, num, some tw2⟩]
  | .ok false =>
    (find_missing_edge (subgraphF g cwb)).map fun p =>
      .done (.ok (some (p.1, v, p.2)))

/-- One iteration of the while loop of `_find_chordality_breaker`, branching
over all tie-breaks of `_max_cardinality_node`. -/
def breakerStep (g : PyGraph) (bound : Option Nat) (st : BSt) : List BNode :=
  if st.unnumbered = [] then [.done (.ok none)]
  else
    (maxCardinalityOutcomes g st.unnumbered st.numbered).flatMap
      (breakerBranch g bound st)

/-- Advance every live branch by one loop iteration; the list of reachable
branches is deduplicated, which does not change which outcomes are
possible. -/
def stepAll (g : PyGraph) (bound : Option Nat) (l : List BNode) : List BNode :=
  dedupB beqBNode (l.flatMap fun n =>
    match n with
    | .more st => breakerStep g bound st
    | .done r => [.done r])

/-- Branches after the prologue of `_find_chordality_breaker`: remove the
start node from `unnumbered` (a `KeyError` if absent), or draw it from
`random.choice` when no start is supplied (an `IndexError` on an empty
graph). -/
def breakerInit (g : PyGraph) (s : Option Nat) : List BNode :=
  match s with
  | some s0 =>
    if s0 ∈ g.nodes then [.more ⟨(dedupB Nat.beq g.nodes).erase s0, [s0], none⟩]
    else [.done (.error .keyError)]
  | none =>
    if g.nodes = [] then [.done (.error .indexError)]
    else (dedupB Nat.beq g.nodes).map fun s0 =>
      .more ⟨(dedupB Nat.beq g.nodes).erase s0, [s0], none⟩

/-- All branches of `_find_chordality_breaker(G, s, treewidth_bound)` after
enough loop iterations to finish every branch. -/
def breakerNodes (g : PyGraph) (s : Option Nat) (bound : Option Nat) : List BNode :=
  (stepAll g bound)^[g.nodes.length + 1] (breakerInit g s)

/-- Collecting semantics of `_find_chordality_breaker`: the possible results
over all random draws and tie-breaks.  `ok none` is the empty witness `()`,
`ok (some (u, v, w))` a witness triple. -/
def find_chordality_breaker (g : PyGraph) (s : Option Nat) (bound : Option Nat) :
    List (Res (Option (Nat × Nat × Nat))) :=
  dedupB (beqRes beqTriple) ((breakerNodes g s bound).filterMap fun n =>
    match n with
    | .done r => some r
    | .more _ => none)

/-- `is_chordal(G)`: the directed / multigraph guards, then one breaker run
from a random start with the default (unbounded) treewidth bound; the answer
is `len(result) == 0`. -/
def is_chordal (g : PyGraph) : List (Res Bool) :=
  if g.directed then [.error .directedInput]
  else if g.multigraph then [.error .multigraphInput]
  else
    dedupB (beqRes beqBool) ((find_chordality_breaker g none none).map fun r =>
      match r with
      | .ok none => Res.ok true
      | .ok (some _) => Res.ok false
      | .error e => Res.error e)

/-- `nx.Graph(G)`: a fresh undirected simple copy of the graph data. -/
def copyGraph (g : PyGraph) : PyGraph :=
  { nodes := g.nodes, edges := g.edges, directed := false, multigraph := false }

/-- The loop state of `induced_nodes`: the accumulated set `I` and the
private working copy `H`. -/
structure ISt where
  I : List Nat
  H : PyGraph

instance : DecidableEq ISt := fun a b =>
  match a, b with
  | ⟨a1, a2⟩, ⟨b1, b2⟩ =>
    decidable_of_iff (a1 = b1 ∧ a2 = b2) (Iff.of_eq (ISt.mk.injEq a1 a2 b1 b2).symm)

/-- A live or finished branch of the `induced_nodes` loop. -/
inductive INode where
  | more : ISt → INode
  | done : Res (List Nat × PyGraph) → INode

instance : DecidableEq (List Nat × PyGraph) := fun a b =>
  match a, b with
  | (a1, a2), (b1, b2) =>
    decidable_of_iff (a1 = b1 ∧ a2 = b2) (Iff.of_eq (Prod.mk.injEq a1 a2 b1 b2).symm)

instance : DecidableEq INode := fun a b =>
  match a, b with
  | .more x, .more y => decidable_of_iff (x = y) (Iff.of_eq (INode.more.injEq x y).symm)
  | .more _, .done _ => isFalse fun h => INode.noConfusion h
  | .done _, .more _ => isFalse fun h => INode.noConfusion h
  | .done r, .done q => decidable_of_iff (r = q) (Iff.of_eq (INode.done.injEq r q).symm)

def beqIG (a b : List Nat × PyGraph) : Bool :=
  (beqLN a.1 b.1).and (beqGraph a.2 b.2)

def beqISt (a b : ISt) : Bool :=
  (beqLN a.I b.I).and (beqGraph a.H b.H)

def beqINode (a b : INode) : Bool :=
  match a, b with
  | .more x, .more y => beqISt x y
  | .done r, .done q => beqRes beqIG r q
  | _, _ => false

/-- Post-processing after the while loop of `induced_nodes`: when `I` is
non-empty, add `t`, then add the first neighbour `u` of `s` in the *original*
graph `G` whose neighbourhood meets `I` in exactly two nodes (branching over
all iteration orders of `G[s]`). -/
def inducedPost (g : PyGraph) (s t : Nat) (st : ISt) : List INode :=
  if st.I = [] then [.done (.ok (st.I, st.H))]
  else
    let I2 := sInsert t st.I
    let cands := (nbrs g s).filter fun u =>
      Nat.beq (I2.filter fun y => memB y (nbrs g u)).length 2
    if cands = [] then [.done (.ok (I2, st.H))]
    else cands.map fun u => .done (.ok (sInsert u I2, st.H))

/-- One iteration of the while loop of `induced_nodes`: run the breaker on
`H` seeded at `s`; on a witness `(u, v, w)` extend `I` and connect `s` to the
witness nodes in `H`; on the empty witness leave the loop into
post-processing; exceptions propagate. -/
def inducedStep (g : PyGraph) (s t : Nat) (bound : Option Nat) (st : ISt) :
    List INode :=
  (find_chordality_breaker st.H (some s) bound).flatMap fun r =>
    match r with
    | .error e => [.done (.error e)]
    | .ok none => inducedPost g s t st
    | .ok (some (u, v, w)) =>
      let I2 := sInsert u (sInsert v (sInsert w st.I))
      let H2 := [u, v, w].foldl (fun h n => if n ≠ s then addEdge h s n else h) st.H
      [.more ⟨I2, H2⟩]

def inducedStepAll (g : PyGraph) (s t : Nat) (bound : Option Nat)
    (l : List INode) : List INode :=
  dedupB beqINode (l.flatMap fun n =>
    match n with
    | .more st => inducedStep g s t bound st
    | .done r => [.done r])

/-- The breadth-first unfolding of the `induced_nodes` loop, starting from
`H = nx.Graph(G)` plus the edge `(s, t)` and `I = ∅`.  The iteration budget
`(g.nodes.length + 3) ^ 2` bounds the loop iterations examined; branches
still running afterwards are not reported as outcomes. -/
def inducedNodesIter (g : PyGraph) (s t : Nat) (bound : Option Nat) : List INode :=
  (inducedStepAll g s t bound)^[(g.nodes.length + 3) ^ 2]
    [INode.more ⟨[], addEdge (copyGraph g) s t⟩]

/-- `induced_nodes(G, s, t, treewidth_bound)`: the chordality gate followed by
the breaker loop on the working copy. -/
def induced_nodes (g : PyGraph) (s t : Nat) (bound : Option Nat) :
    List (Res (List Nat × PyGraph)) :=
  dedupB (beqRes beqIG) ((is_chordal g).flatMap fun r =>
    match r with
    | .error e => [Res.error e]
    | .ok false => [Res.error .nonChordal]
    | .ok true =>
      (inducedNodesIter g s t bound).filterMap fun n =>
        match n with
        | INode.done r => some r
        | INode.more _ => none)

/-- One expansion step of the breadth-first closure used to model
`connected_component_subgraphs`. -/
def compExpand (g : PyGraph) (s : List Nat) : List Nat :=
  (s.flatMap fun v => nbrs g v).foldl (fun acc x => sInsert x acc) s

/-- The connected component of `v`: expand `{v}` as many times as there are
nodes. -/
def componentOf (g : PyGraph) (v : Nat) : List Nat :=
  (compExpand g)^[g.nodes.length] [v]

/-- `nx.connected.connected_component_subgraphs(G)`; the order of components
is irrelevant to the callers, which accumulate a set union. -/
def connected_component_subgraphs (g : PyGraph) : List PyGraph :=
  (dedupB beqLN (g.nodes.map fun v => componentOf g v)).map fun s => subgraphF g s

/-- Lexicographic comparison used to keep collections of cliques canonical. -/
def listLeB : List Nat → List Nat → Bool
  | [], _ => true
  | _ :: _, [] => false
  | a :: as, b :: bs => if a < b then true else if b < a then false else listLeB as bs

def insertCliqueAux (c : List Nat) : List (List Nat) → List (List Nat)
  | [] => [c]
  | d :: ds => if listLeB c d then c :: d :: ds else d :: insertCliqueAux c ds

/-- `cliques.add(frozenset(...))`: canonical insertion of a clique into the
accumulated set of cliques. -/
def insertClique (c : List Nat) (cs : List (List Nat)) : List (List Nat) :=
  if c ∈ cs then cs else insertCliqueAux c cs

/-- The loop state of `_connected_chordal_graph_cliques`. -/
structure CSt where
  unnumbered : List Nat
  numbered : List Nat
  cwb : List Nat
  cliques : List (List Nat)

instance : DecidableEq CSt := fun a b =>
  match a, b with
  | ⟨a1, a2, a3, a4⟩, ⟨b1, b2, b3, b4⟩ =>
    decidable_of_iff (a1 = b1 ∧ a2 = b2 ∧ a3 = b3 ∧ a4 = b4)
      (Iff.of_eq (CSt.mk.injEq a1 a2 a3 a4 b1 b2 b3 b4).symm)

/-- A live or finished branch of the clique-accumulating traversal. -/
inductive CNode where
  | more : CSt → CNode
  | done : Res (List (List Nat)) → CNode

instance : DecidableEq CNode := fun a b =>
  match a, b with
  | .more x, .more y => decidable_of_iff (x = y) (Iff.of_eq (CNode.more.injEq x y).symm)
  | .more _, .done _ => isFalse fun h => CNode.noConfusion h
  | .done _, .more _ => isFalse fun h => CNode.noConfusion h
  | .done r, .done q => decidable_of_iff (r = q) (Iff.of_eq (CNode.done.injEq r q).symm)

def beqCSt (a b : CSt) : Bool :=
  (beqLN a.unnumbered b.unnumbered).and ((beqLN a.numbered b.numbered).and
    ((beqLN a.cwb b.cwb).and (beqLLN a.cliques b.cliques)))

def beqCNode (a b : CNode) : Bool :=
  match a, b with
  | .more x, .more y => beqCSt x y
  | .done r, .done q => beqRes beqLLN r q
  | _, _ => false

/-- The loop body of `_connected_chordal_graph_cliques` once `v` is selected:
check completeness of the induced subgraph over the *current*
`clique_wanna_be`; if complete, flush it unless the new set (with `v` added)
is a superset, and continue with the new set; otherwise raise
`NetworkXNonChordal`. -/
def cliqueBranch (g : PyGraph) (st : CSt) (v : Nat) : List CNode :=
  let un := st.unnumbered.erase v
  let num := sInsert v st.numbered
  let newCwb := sInsert v (num.filter fun y => memB y (nbrs g v))
  match is_complete_graph (subgraphF g st.cwb) with
  | .error e => [.done (.error e)]
  | .ok true =>
    let cliques2 :=
      if st.cwb.all fun y => memB y newCwb then st.cliques
      else insertClique st.cwb st.cliques
    [.more ⟨un, num, newCwb, cliques2⟩]
  | .ok false => [.done (.error .nonChordal)]

def cliqueStep (g : PyGraph) (st : CSt) : List CNode :=
  if st.unnumbered = [] then [.done (.ok (insertClique st.cwb st.cliques))]
  else (maxCardinalityOutcomes g st.unnumbered st.numbered).flatMap (cliqueBranch g st)

def cliqueStepAll (g : PyGraph) (l : List CNode) : List CNode :=
  dedupB beqCNode (l.flatMap fun n =>
    match n with
    | .more st => cliqueStep g st
    | .done r => [.done r])

/-- `_connected_chordal_graph_cliques(C)` as collecting semantics: single
nodes short-circuit, otherwise a clique-accumulating traversal from a random
start. -/
def connected_chordal_graph_cliques (g : PyGraph) : List (Res (List (List Nat))) :=
  if g.nodes.length = 1 then [.ok [dedupB Nat.beq g.nodes]]
  else if g.nodes = [] then [.error .indexError]
  else
    dedupB (beqRes beqLLN) (((cliqueStepAll g)^[g.nodes.length + 1]
      ((dedupB Nat.beq g.nodes).map fun v =>
        CNode.more ⟨(dedupB Nat.beq g.nodes).erase v, [v], [v], []⟩)).filterMap fun n =>
      match n with
      | CNode.done r => some r
      | CNode.more _ => none)

/-- `chordal_graph_cliques(G)`: the chordality gate, then the union of the
per-component clique sets. -/
def chordal_graph_cliques (g : PyGraph) : List (Res (List (List Nat))) :=
  dedupB (beqRes beqLLN) ((is_chordal g).flatMap fun r =>
    match r with
    | .error e => [Res.error e]
    | .ok false => [Res.error .nonChordal]
    | .ok true =>
      (connected_component_subgraphs g).foldl
        (fun acc c =>
          dedupB (beqRes beqLLN) (acc.flatMap fun ra =>
            match ra with
            | .error e => [Res.error e]
            | .ok cs =>
              (connected_chordal_graph_cliques c).map fun rc =>
                match rc with
                | .error e => Res.error e
                | .ok cs2 => Res.ok (cs2.foldl (fun a cl => insertClique cl a) cs)))
        [Res.ok []])

/-- `chordal_graph_treewidth(G)`: the chordality gate, then the fold
`max_clique = max(max_clique, len(clique))` over the cliques starting from
`-1`, returning `max_clique - 1`. -/
def chordal_graph_treewidth (g : PyGraph) : List (Res Int) :=
  dedupB (beqRes beqInt) ((is_chordal g).flatMap fun r =>
    match r with
    | .error e => [Res.error e]
    | .ok false => [Res.error .nonChordal]
    | .ok true =>
      (chordal_graph_cliques g).map fun rc =>
        match rc with
        | .error e => Res.error e
        | .ok cs => Res.ok (cs.foldl (fun m c => max m (c.length : Int)) (-1) - 1))

/-! ### Specification-side graph theory: cycles, chords, chordality -/

/-- `|N(y) ∩ P|`: the number of neighbours of `y` inside the vertex set `P`. -/
def cnt (g : PyGraph) (y : Nat) (P : Finset Nat) : Nat :=
  (P.filter fun x => Adj g y x).card

/-- A cycle of length at least 4 in the sense of the specification: at least
four pairwise-distinct vertices, cyclically adjacent. -/
def IsCycle (g : PyGraph) (c : List Nat) : Prop :=
  4 ≤ c.length ∧ c.Nodup ∧
    ∀ i < c.length, Adj g (c.getD i 0) (c.getD ((i + 1) % c.length) 0)

/-- A chord of the cycle `c`: an edge between two cyclically non-consecutive
vertices of `c`. -/
def HasChord (g : PyGraph) (c : List Nat) : Prop :=
  ∃ i < c.length, ∃ j < c.length, i ≠ j ∧
    j ≠ (i + 1) % c.length ∧ i ≠ (j + 1) % c.length ∧
    Adj g (c.getD i 0) (c.getD j 0)

/-- The specification-side notion used by claim C1: every cycle of length at
least four has a chord. -/
def IsChordal (g : PyGraph) : Prop :=
  ∀ c, IsCycle g c → HasChord g c

/-- The Tarjan–Yannakakis success condition along a numbering order: at every
position the earlier neighbours of the current vertex are pairwise
adjacent. -/
def CleanAt (g : PyGraph) (σ : List Nat) : Prop :=
  ∀ k, k < σ.length → ∀ x ∈ σ.take k, ∀ y ∈ σ.take k,
    x ≠ y → Adj g x (σ.getD k 0) → Adj g y (σ.getD k 0) → Adj g x y

/-- `z` is numbered after `w` (or not yet numbered) in the order `σ`. -/
def Later (σ : List Nat) (w z : Nat) : Prop :=
  z ∉ σ ∨ σ.indexOf w < σ.indexOf z

/-- Maximum-cardinality-search condition along `σ`: each entry has at least as
many neighbours among the earlier entries as any node outside those entries. -/
def MCSAt (g : PyGraph) (σ : List Nat) : Prop :=
  ∀ k, k < σ.length → ∀ y ∈ g.nodes, y ∉ σ.take k →
    cnt g y (σ.take k).toFinset ≤ cnt g (σ.getD k 0) (σ.take k).toFinset

/-- A fill path towards `w`: consecutive vertices adjacent, every vertex other
than the first one and `w` numbered after `w` or unnumbered. -/
def FillP (g : PyGraph) (σ : List Nat) (w : Nat) (p : List Nat) : Prop :=
  2 ≤ p.length ∧ List.Chain' (Adj g) p ∧
    ∀ z ∈ p, z ≠ p.getD 0 0 → z ≠ w → Later σ w z

/-- A fill pair: two non-adjacent numbered vertices joined by a path whose
interior is numbered later than both (or unnumbered) — the obstruction at the
heart of the Tarjan–Yannakakis argument. -/
def FillPair (g : PyGraph) (σ : List Nat) (u w : Nat) : Prop :=
  u ∈ σ ∧ w ∈ σ ∧ σ.indexOf u < σ.indexOf w ∧ ¬ Adj g u w ∧
    ∃ p, p.getD 0 0 = u ∧ p.getD (p.length - 1) 0 = w ∧ FillP g σ w p

/-- The reachability invariant of the breaker traversal: the two working sets
partition the nodes, and the numbered set is the set of entries of some
maximum-cardinality-search order all of whose completeness checks have
passed. -/
def BInv (g : PyGraph) (st : BSt) : Prop :=
  st.unnumbered.Nodup ∧
  (∀ x, x ∈ st.unnumbered ↔ x ∈ g.nodes ∧ x ∉ st.numbered) ∧
  ∃ σ : List Nat, σ.Nodup ∧ (∀ x, x ∈ σ ↔ x ∈ st.numbered) ∧
    (∀ x ∈ σ, x ∈ g.nodes) ∧ MCSAt g σ ∧ CleanAt g σ

/-- Pairwise adjacency: the node list induces a complete subgraph. -/
def IsCliqueList (g : PyGraph) (c : List Nat) : Prop :=
  ∀ a ∈ c, ∀ b ∈ c, a ≠ b → Adj g a b

/-- The reachability invariant of the clique-collecting traversal on a
chordal graph: the working sets partition the nodes along an MCS order, the
current `clique_wanna_be` is a nonempty clique, and everything flushed so far
is a nonempty clique. -/
def CInv (g : PyGraph) (st : CSt) : Prop :=
  st.unnumbered.Nodup ∧
  (∀ x, x ∈ st.unnumbered ↔ x ∈ g.nodes ∧ x ∉ st.numbered) ∧
  IsCliqueList g st.cwb ∧ st.cwb ≠ [] ∧
  (∀ c ∈ st.cliques, IsCliqueList g c ∧ c ≠ []) ∧
  ∃ σ : List Nat, σ.Nodup ∧ (∀ x, x ∈ σ ↔ x ∈ st.numbered) ∧
    (∀ x ∈ σ, x ∈ g.nodes) ∧ MCSAt g σ

/-- One step of the per-component union fold of `chordal_graph_cliques`. -/
def cliqueFoldStep (g : PyGraph) (acc : List (Res (List (List Nat))))
    (c : PyGraph) : List (Res (List (List Nat))) :=
  dedupB (beqRes beqLLN) (acc.flatMap fun ra =>
    match ra with
    | Res.error e => [Res.error e]
    | Res.ok cs =>
      (connected_chordal_graph_cliques c).map fun rc =>
        match rc with
        | Res.error e => Res.error e
        | Res.ok cs2 => Res.ok (cs2.foldl (fun a cl => insertClique cl a) cs))

/-- Concrete graph constructor for the test scenarios of the spec. -/
def mkGraph (ns : List Nat) (es : List (Nat × Nat)) : PyGraph :=
  ⟨ns, es, false, false⟩

/-- The 10-node path graph of the spec scenarios. -/
def path10 : PyGraph := mkGraph [0,1,2,3,4,5,6,7,8,9]
  [(0,1),(1,2),(2,3),(3,4),(4,5),(5,6),(6,7),(7,8),(8,9)]

/-- The working copy returned by the path-10 scenario of `induced_nodes`:
the path edges plus `(0, 1)` replaced view — the path graph plus the edge
`(1, 9)` and the fan from node 1 to nodes 3..8. -/
def starH : PyGraph := mkGraph [0,1,2,3,4,5,6,7,8,9]
  [(0,1),(1,2),(1,3),(1,4),(1,5),(1,6),(1,7),(1,8),(1,9),(2,3),(3,4),(4,5),(5,6),(6,7),(7,8),(8,9)]

/-- The working copy returned by the path-4 scenario of `induced_nodes`. -/
def hp4 : PyGraph := mkGraph [0,1,2,3] [(0,1),(0,2),(0,3),(1,2),(2,3)]

/-- The 4-node path graph. -/
def path4 : PyGraph := mkGraph [0,1,2,3] [(0,1),(1,2),(2,3)]

/-- The triangle graph. -/
def triangleG : PyGraph := mkGraph [0,1,2] [(0,1),(0,2),(1,2)]

/-- The complete graph on 4 nodes. -/
def k4 : PyGraph := mkGraph [0,1,2,3] [(0,1),(0,2),(0,3),(1,2),(1,3),(2,3)]

/-- The graph with no nodes. -/
def emptyG : PyGraph := mkGraph [] []

/-- The 4-cycle graph (the smallest non-chordal graph). -/
def cyc4 : PyGraph := mkGraph [0,1,2,3] [(0,1),(1,2),(2,3),(0,3)]

/-- A directed input. -/
def dirG : PyGraph := ⟨[0], [], true, false⟩

/-- A multigraph input. -/
def multiG : PyGraph := ⟨[0], [], false, true⟩

/-- The loop invariant of `induced_nodes`: the working copy `H` holds every
edge of `G` and the edge `(s, t)`, and `s` is connected in `H` to every node
of `I` other than `s` itself. -/
def IInv (g : PyGraph) (s t : Nat) (st : ISt) : Prop :=
  (∀ e ∈ g.edges, e ∈ st.H.edges) ∧
  (min s t, max s t) ∈ st.H.edges ∧
  (∀ x ∈ st.I, x ≠ s → Adj st.H s x)

/-- The invariant carried by every node of the `induced_nodes` unfolding. -/
def INodeInv (g : PyGraph) (s t : Nat) (n : INode) : Prop :=
  match n with
  | INode.more st => IInv g s t st
  | INode.done (Res.ok (I, H)) =>
    (∀ e ∈ g.edges, e ∈ H.edges) ∧
    (min s t, max s t) ∈ H.edges ∧
    (∀ x ∈ I, x ≠ s → Adj H s x)
  | INode.done (Res.error _) => True

/-- The nodes of the 10-node path, shared by the scenario states. -/
def ns10 : List Nat := [0,1,2,3,4,5,6,7,8,9]

/-- The tail edges of the 10-node path, shared by the scenario states. -/
def pTail : List (Nat × Nat) := [(2,3),(3,4),(4,5),(5,6),(6,7),(7,8),(8,9)]

/-- Strict inclusion of one node list in another, as sets. -/
def StrictSubL (c1 c2 : List Nat) : Prop :=
  (∀ a ∈ c1, a ∈ c2) ∧ ∃ b ∈ c2, b ∉ c1

/-- The antichain-tracking invariant of the clique traversal: the working
sets partition the nodes along an MCS order whose last entry generated the
current `clique_wanna_be`, and every flushed clique is a nonempty clique of
numbered nodes that no node of the graph extends (it is maximal) and that is
not contained in the current `clique_wanna_be`. -/
def CInvA (g : PyGraph) (st : CSt) : Prop :=
  st.unnumbered.Nodup ∧
  (∀ z, z ∈ st.unnumbered ↔ z ∈ g.nodes ∧ z ∉ st.numbered) ∧
  IsCliqueList g st.cwb ∧
  (∀ Q ∈ st.cliques,
    Q ≠ [] ∧ (∀ q ∈ Q, q ∈ st.numbered) ∧ IsCliqueList g Q ∧
    (∀ x ∈ g.nodes, x ∉ Q → ¬ ∀ q ∈ Q, Adj g q x) ∧
    ¬ (∀ q ∈ Q, q ∈ st.cwb)) ∧
  ∃ σ vl, σ.Nodup ∧ (∀ z, z ∈ σ ↔ z ∈ st.numbered) ∧ (∀ z ∈ σ, z ∈ g.nodes) ∧
    MCSAt g σ ∧ 0 < σ.length ∧ σ.getD (σ.length - 1) 0 = vl ∧
    (∀ c, c ∈ st.cwb ↔ (c = vl ∨ (c ∈ st.numbered ∧ c ≠ vl ∧ Adj g c vl)))

theorem Adj.symm {g : PyGraph} {u v : Nat} (h : Adj g u v) : Adj g v u :=
  h.elim .inr .inl

theorem natBeq_iff {a b : Nat} : Nat.beq a b = true ↔ a = b :=
  ⟨Nat.eq_of_beq_eq_true, fun h => h ▸ Nat.beq_refl a⟩

theorem memB_eq {x : Nat} {l : List Nat} : memB x l = true ↔ x ∈ l := by
  induction l with
  | nil => simp [memB]
  | cons y l ih =>
    unfold memB
    cases hb : Nat.beq x y with
    | true =>
      rw [cond_true]
      simp [natBeq_iff.mp hb]
    | false =>
      rw [cond_false, ih, List.mem_cons]
      have : ¬ x = y := fun h => by rw [h, Nat.beq_refl] at hb; cases hb
      tauto

theorem mem_nbrs {g : PyGraph} {v y : Nat} : y ∈ nbrs g v ↔ Adj g v y := by
  unfold nbrs Adj
  simp only [List.mem_filterMap]
  constructor
  · rintro ⟨⟨a, b⟩, hmem, hif⟩
    dsimp only at hif
    cases h1 : Nat.beq a v with
    | true =>
      rw [h1, cond_true] at hif
      rw [natBeq_iff.mp h1] at hmem
      cases hif
      exact Or.inl hmem
    | false =>
      rw [h1, cond_false] at hif
      cases h2 : Nat.beq b v with
      | true =>
        rw [h2, cond_true] at hif
        rw [natBeq_iff.mp h2] at hmem
        cases hif
        exact Or.inr hmem
      | false =>
        rw [h2, cond_false] at hif
        cases hif
  · rintro (h | h)
    · refine ⟨(v, y), h, ?_⟩
      dsimp only
      rw [Nat.beq_refl, cond_true]
    · refine ⟨(y, v), h, ?_⟩
      dsimp only
      cases hyv : Nat.beq y v with
      | true =>
        rw [cond_true, natBeq_iff.mp hyv]
      | false =>
        rw [cond_false, Nat.beq_refl, cond_true]

theorem wf_no_self_adj {g : PyGraph} (hg : WF g) (v : Nat) : ¬ Adj g v v := by
  rintro (h | h) <;> exact absurd (hg.2.2 _ h).1 (lt_irrefl v)

theorem adj_mem_nodes {g : PyGraph} (hg : WF g) {u v : Nat} (h : Adj g u v) :
    u ∈ g.nodes ∧ v ∈ g.nodes := by
  rcases h with h | h
  · exact ⟨(hg.2.2 _ h).2.1, (hg.2.2 _ h).2.2⟩
  · exact ⟨(hg.2.2 _ h).2.2, (hg.2.2 _ h).2.1⟩

theorem insertEdge_perm (x : Nat × Nat) (l : List (Nat × Nat)) :
    List.Perm (insertEdge x l) (x :: l) := by
  induction l with
  | nil => exact List.Perm.refl _
  | cons y ys ih =>
    unfold insertEdge
    by_cases h : x.1 < y.1 ∨ (x.1 = y.1 ∧ x.2 ≤ y.2)
    · rw [if_pos h]
    · rw [if_neg h]
      exact (ih.cons y).trans (List.Perm.swap x y ys)

theorem mem_insertEdge {x a : Nat × Nat} {l : List (Nat × Nat)} :
    a ∈ insertEdge x l ↔ a = x ∨ a ∈ l := by
  rw [(insertEdge_perm x l).mem_iff, List.mem_cons]

theorem mem_condInsert {l : List Nat} {u x : Nat} :
    x ∈ (if u ∈ l then l else l.orderedInsert (· ≤ ·) u) ↔ x ∈ l ∨ x = u := by
  by_cases h : u ∈ l
  · rw [if_pos h]
    constructor
    · exact Or.inl
    · rintro (hx | rfl)
      · exact hx
      · exact h
  · rw [if_neg h, List.mem_orderedInsert]
    tauto

theorem mem_nodes_addEdge {g : PyGraph} {u v x : Nat} :
    x ∈ (addEdge g u v).nodes ↔ x ∈ g.nodes ∨ x = u ∨ x = v := by
  unfold addEdge
  dsimp only
  rw [mem_condInsert, mem_condInsert]
  tauto

theorem mem_edges_addEdge {g : PyGraph} {u v : Nat} {e : Nat × Nat} :
    e ∈ (addEdge g u v).edges ↔ e ∈ g.edges ∨ e = (min u v, max u v) := by
  unfold addEdge
  dsimp only
  by_cases h : (min u v, max u v) ∈ g.edges
  · rw [if_pos h]
    constructor
    · exact Or.inl
    · rintro (he | rfl)
      · exact he
      · exact h
  · rw [if_neg h, mem_insertEdge]
    tauto

theorem adj_addEdge {g : PyGraph} {u v a b : Nat} :
    Adj (addEdge g u v) a b ↔
      Adj g a b ∨ ((a = u ∧ b = v) ∨ (a = v ∧ b = u)) := by
  unfold Adj
  rw [mem_edges_addEdge, mem_edges_addEdge]
  constructor
  · rintro ((h | h) | (h | h))
    · exact Or.inl (Or.inl h)
    · rw [Prod.ext_iff] at h
      rcases Nat.le_total u v with hle | hle
      · exact Or.inr (Or.inl ⟨by omega, by omega⟩)
      · exact Or.inr (Or.inr ⟨by omega, by omega⟩)
    · exact Or.inl (Or.inr h)
    · rw [Prod.ext_iff] at h
      rcases Nat.le_total u v with hle | hle
      · exact Or.inr (Or.inr ⟨by omega, by omega⟩)
      · exact Or.inr (Or.inl ⟨by omega, by omega⟩)
  · rintro ((h | h) | (⟨rfl, rfl⟩ | ⟨rfl, rfl⟩))
    · exact Or.inl (Or.inl h)
    · exact Or.inr (Or.inl h)
    · rcases Nat.le_total a b with hle | hle
      · exact Or.inl (Or.inr (by rw [Prod.ext_iff]; constructor <;> dsimp <;> omega))
      · exact Or.inr (Or.inr (by rw [Prod.ext_iff]; constructor <;> dsimp <;> omega))
    · rcases Nat.le_total a b with hle | hle
      · exact Or.inl (Or.inr (by rw [Prod.ext_iff]; constructor <;> dsimp <;> omega))
      · exact Or.inr (Or.inr (by rw [Prod.ext_iff]; constructor <;> dsimp <;> omega))

theorem wf_addEdge {g : PyGraph} (hg : WF g) {u v : Nat} (huv : u ≠ v) :
    WF (addEdge g u v) := by
  obtain ⟨hn, he, hee⟩ := hg
  refine ⟨?_, ?_, ?_⟩
  · unfold addEdge
    dsimp only
    by_cases h1 : u ∈ g.nodes
    · rw [if_pos h1]
      by_cases h2 : v ∈ g.nodes
      · rw [if_pos h2]; exact hn
      · rw [if_neg h2]
        exact ((List.perm_orderedInsert _ _ _).nodup_iff).mpr
          (List.nodup_cons.mpr ⟨h2, hn⟩)
    · rw [if_neg h1]
      have hn1 : (g.nodes.orderedInsert (· ≤ ·) u).Nodup :=
        ((List.perm_orderedInsert _ _ _).nodup_iff).mpr (List.nodup_cons.mpr ⟨h1, hn⟩)
      by_cases h2 : v ∈ g.nodes.orderedInsert (· ≤ ·) u
      · rw [if_pos h2]; exact hn1
      · rw [if_neg h2]
        exact ((List.perm_orderedInsert _ _ _).nodup_iff).mpr
          (List.nodup_cons.mpr ⟨h2, hn1⟩)
  · unfold addEdge
    dsimp only
    by_cases h : (min u v, max u v) ∈ g.edges
    · rw [if_pos h]; exact he
    · rw [if_neg h]
      exact ((insertEdge_perm _ _).nodup_iff).mpr (List.nodup_cons.mpr ⟨h, he⟩)
  · intro e hmem
    rw [mem_edges_addEdge] at hmem
    rcases hmem with hmem | rfl
    · obtain ⟨h1, h2, h3⟩ := hee e hmem
      exact ⟨h1, mem_nodes_addEdge.mpr (Or.inl h2), mem_nodes_addEdge.mpr (Or.inl h3)⟩
    · refine ⟨by dsimp only; omega, ?_, ?_⟩
      · rcases Nat.le_total u v with hle | hle
        · exact mem_nodes_addEdge.mpr (Or.inr (Or.inl (by dsimp only; omega)))
        · exact mem_nodes_addEdge.mpr (Or.inr (Or.inr (by dsimp only; omega)))
      · rcases Nat.le_total u v with hle | hle
        · exact mem_nodes_addEdge.mpr (Or.inr (Or.inr (by dsimp only; omega)))
        · exact mem_nodes_addEdge.mpr (Or.inr (Or.inl (by dsimp only; omega)))

theorem mem_nodes_subgraphF {g : PyGraph} {s : List Nat} {x : Nat} :
    x ∈ (subgraphF g s).nodes ↔ x ∈ g.nodes ∧ x ∈ s := by
  unfold subgraphF
  dsimp only
  rw [List.mem_filter, memB_eq]

theorem wf_subgraphF {g : PyGraph} (hg : WF g) (s : List Nat) : WF (subgraphF g s) := by
  obtain ⟨hn, he, hee⟩ := hg
  refine ⟨hn.filter _, he.filter _, ?_⟩
  intro e hmem
  unfold subgraphF at hmem
  dsimp only at hmem
  rw [List.mem_filter] at hmem
  obtain ⟨hor, hcond⟩ := hmem
  obtain ⟨h1, h2, h3⟩ := hee e hor
  simp only [Bool.and_eq_true, memB_eq] at hcond
  exact ⟨h1, mem_nodes_subgraphF.mpr ⟨h2, hcond.1⟩,
    mem_nodes_subgraphF.mpr ⟨h3, hcond.2⟩⟩

theorem adj_subgraphF {g : PyGraph} {s : List Nat} {a b : Nat} :
    Adj (subgraphF g s) a b ↔ Adj g a b ∧ a ∈ s ∧ b ∈ s := by
  unfold Adj subgraphF
  dsimp only
  constructor
  · rintro (h | h) <;> rw [List.mem_filter] at h <;>
      simp only [Bool.and_eq_true, memB_eq] at h
    · exact ⟨Or.inl h.1, h.2.1, h.2.2⟩
    · exact ⟨Or.inr h.1, h.2.2, h.2.1⟩
  · rintro ⟨h | h, ha, hb⟩
    · exact Or.inl (List.mem_filter.mpr ⟨h, by
        simp only [Bool.and_eq_true, memB_eq]; exact ⟨ha, hb⟩⟩)
    · exact Or.inr (List.mem_filter.mpr ⟨h, by
        simp only [Bool.and_eq_true, memB_eq]; exact ⟨hb, ha⟩⟩)

theorem card_strictPairs (s : Finset Nat) :
    ((s ×ˢ s).filter fun p => p.1 < p.2).card = s.card * (s.card - 1) / 2 := by
  rw [← Nat.choose_two_right, ← Finset.card_powersetCard 2 s]
  apply Finset.card_bij (fun p _ => ({p.1, p.2} : Finset Nat))
  · intro p hp
    obtain ⟨hmem, hlt⟩ := Finset.mem_filter.mp hp
    obtain ⟨h1, h2⟩ := Finset.mem_product.mp hmem
    rw [Finset.mem_powersetCard]
    constructor
    · intro x hx
      rcases Finset.mem_insert.mp hx with rfl | hx
      · exact h1
      · rw [Finset.mem_singleton.mp hx]; exact h2
    · rw [Finset.card_insert_of_not_mem (by simp; omega), Finset.card_singleton]
  · intro p hp q hq heq
    obtain ⟨_, hltp⟩ := Finset.mem_filter.mp hp
    obtain ⟨_, hltq⟩ := Finset.mem_filter.mp hq
    have h1 : p.1 ∈ ({q.1, q.2} : Finset Nat) := by
      rw [← heq]; simp
    have h2 : p.2 ∈ ({q.1, q.2} : Finset Nat) := by
      rw [← heq]; simp
    have h3 : q.1 ∈ ({p.1, p.2} : Finset Nat) := by
      rw [heq]; simp
    simp only [Finset.mem_insert, Finset.mem_singleton] at h1 h2 h3
    rw [Prod.ext_iff]
    omega
  · intro t ht
    rw [Finset.mem_powersetCard] at ht
    obtain ⟨hsub, hcard⟩ := ht
    obtain ⟨x, y, hxy, rfl⟩ := Finset.card_eq_two.mp hcard
    have hx : x ∈ s := hsub (by simp)
    have hy : y ∈ s := hsub (by simp)
    rcases lt_or_gt_of_ne hxy with hlt | hlt
    · exact ⟨(x, y), Finset.mem_filter.mpr ⟨Finset.mem_product.mpr ⟨hx, hy⟩, hlt⟩, rfl⟩
    · exact ⟨(y, x), Finset.mem_filter.mpr ⟨Finset.mem_product.mpr ⟨hy, hx⟩, hlt⟩,
        Finset.pair_comm y x⟩

theorem no_selfloop_guard {g : PyGraph} (hg : WF g) :
    (g.edges.any fun e => e.1 == e.2) = false := by
  rw [List.any_eq_false]
  intro e he
  have h1 := (hg.2.2 e he).1
  have h2 : e.1 ≠ e.2 := Nat.ne_of_lt h1
  simp [h2]

theorem edges_length_iff_complete {g : PyGraph} (hg : WF g) :
    g.edges.length = g.nodes.length * (g.nodes.length - 1) / 2 ↔ CompleteOn g := by
  obtain ⟨hn, he, hee⟩ := hg
  have hcs : g.nodes.toFinset.card = g.nodes.length := List.toFinset_card_of_nodup hn
  have hPcard : ((g.nodes.toFinset ×ˢ g.nodes.toFinset).filter
      fun p => p.1 < p.2).card = g.nodes.length * (g.nodes.length - 1) / 2 := by
    rw [card_strictPairs, hcs]
  have hsub : g.edges.toFinset ⊆
      (g.nodes.toFinset ×ˢ g.nodes.toFinset).filter fun p => p.1 < p.2 := by
    intro e hme
    rw [List.mem_toFinset] at hme
    obtain ⟨h1, h2, h3⟩ := hee e hme
    exact Finset.mem_filter.mpr ⟨Finset.mem_product.mpr
      ⟨List.mem_toFinset.mpr h2, List.mem_toFinset.mpr h3⟩, h1⟩
  have hecard : g.edges.toFinset.card = g.edges.length := List.toFinset_card_of_nodup he
  constructor
  · intro hlen a ha b hb hab
    have heq : g.edges.toFinset =
        (g.nodes.toFinset ×ˢ g.nodes.toFinset).filter fun p => p.1 < p.2 :=
      Finset.eq_of_subset_of_card_le hsub (by rw [hecard, hlen, hPcard])
    rcases Nat.lt_or_ge a b with hlt | hge
    · have hmp : (a, b) ∈ (g.nodes.toFinset ×ˢ g.nodes.toFinset).filter
          fun p => p.1 < p.2 :=
        Finset.mem_filter.mpr ⟨Finset.mem_product.mpr
          ⟨List.mem_toFinset.mpr ha, List.mem_toFinset.mpr hb⟩, hlt⟩
      rw [← heq, List.mem_toFinset] at hmp
      exact Or.inl hmp
    · have hlt : b < a := by omega
      have hmp : (b, a) ∈ (g.nodes.toFinset ×ˢ g.nodes.toFinset).filter
          fun p => p.1 < p.2 :=
        Finset.mem_filter.mpr ⟨Finset.mem_product.mpr
          ⟨List.mem_toFinset.mpr hb, List.mem_toFinset.mpr ha⟩, hlt⟩
      rw [← heq, List.mem_toFinset] at hmp
      exact Or.inr hmp
  · intro hC
    have hsup : ((g.nodes.toFinset ×ˢ g.nodes.toFinset).filter
        fun p => p.1 < p.2) ⊆ g.edges.toFinset := by
      intro p hp
      obtain ⟨hmm, hlt⟩ := Finset.mem_filter.mp hp
      obtain ⟨h1, h2⟩ := Finset.mem_product.mp hmm
      rw [List.mem_toFinset] at h1 h2
      have hadj := hC p.1 h1 p.2 h2 (by omega)
      rw [List.mem_toFinset]
      rcases hadj with h | h
      · simpa using h
      · exact absurd (hee _ h).1 (by omega)
    have heq : g.edges.toFinset =
        (g.nodes.toFinset ×ˢ g.nodes.toFinset).filter fun p => p.1 < p.2 :=
      Finset.Subset.antisymm hsub hsup
    rw [← hecard, heq, hPcard]

theorem is_complete_graph_eq {g : PyGraph} (hg : WF g) :
    is_complete_graph g = .ok (decide (CompleteOn g)) := by
  unfold is_complete_graph
  rw [no_selfloop_guard hg, if_neg (by simp)]
  by_cases hlt : g.nodes.length < 2
  · rw [if_pos hlt]
    have hC : CompleteOn g := by
      intro a ha b hb hab
      exfalso
      have hsub : ({a, b} : Finset Nat) ⊆ g.nodes.toFinset := by
        intro x hx
        rcases Finset.mem_insert.mp hx with rfl | hx
        · exact List.mem_toFinset.mpr ha
        · rw [Finset.mem_singleton.mp hx]; exact List.mem_toFinset.mpr hb
      have h2 : 2 ≤ g.nodes.toFinset.card := by
        have hcard := Finset.card_le_card hsub
        rw [Finset.card_insert_of_not_mem (by simp [hab]), Finset.card_singleton] at hcard
        exact hcard
      have h3 := List.toFinset_card_le g.nodes
      omega
    simp [hC]
  · rw [if_neg hlt]
    by_cases hC : CompleteOn g
    · have hlen : g.edges.length = g.nodes.length * (g.nodes.length - 1) / 2 :=
        (edges_length_iff_complete hg).mpr hC
      simp [hC, hlen]
    · have hlen : g.edges.length ≠ g.nodes.length * (g.nodes.length - 1) / 2 :=
        fun h => hC ((edges_length_iff_complete hg).mp h)
      simp [hC, hlen]

theorem mem_find_missing_edge {g : PyGraph} {p : Nat × Nat} :
    p ∈ find_missing_edge g ↔
      p.1 ∈ g.nodes ∧ p.2 ∈ g.nodes ∧ p.2 ≠ p.1 ∧ ¬ Adj g p.1 p.2 := by
  unfold find_missing_edge
  rw [List.mem_flatMap]
  constructor
  · rintro ⟨u, hu, hmem⟩
    rw [List.mem_map] at hmem
    obtain ⟨w, hw, rfl⟩ := hmem
    rw [List.mem_filter, Bool.not_eq_eq_eq_not, Bool.not_true,
      ← Bool.not_eq_true, memB_eq, List.mem_cons] at hw
    push_neg at hw
    exact ⟨hu, hw.1, hw.2.1, fun ha => hw.2.2 (mem_nbrs.mpr ha)⟩
  · rintro ⟨h1, h2, h3, h4⟩
    refine ⟨p.1, h1, ?_⟩
    rw [List.mem_map]
    refine ⟨p.2, ?_, rfl⟩
    rw [List.mem_filter, Bool.not_eq_eq_eq_not, Bool.not_true,
      ← Bool.not_eq_true, memB_eq, List.mem_cons]
    push_neg
    exact ⟨h2, h3, fun hm => h4 (mem_nbrs.mp hm)⟩

theorem find_missing_edge_ne_nil {g : PyGraph} (h : ¬ CompleteOn g) :
    find_missing_edge g ≠ [] := by
  unfold CompleteOn at h
  push_neg at h
  obtain ⟨a, ha, b, hb, hne, hnadj⟩ := h
  intro hnil
  have hm : (a, b) ∈ find_missing_edge g :=
    mem_find_missing_edge.mpr ⟨ha, hb, Ne.symm hne, hnadj⟩
  rw [hnil] at hm
  exact absurd hm (List.not_mem_nil _)

theorem insNat_perm (x : Nat) (l : List Nat) : List.Perm (insNat x l) (x :: l) := by
  induction l with
  | nil => exact List.Perm.refl _
  | cons y l ih =>
    unfold insNat
    cases Nat.ble x y with
    | true => rw [cond_true]
    | false =>
      rw [cond_false]
      exact (ih.cons y).trans (List.Perm.swap x y l)

theorem mem_sInsert {x y : Nat} {l : List Nat} :
    y ∈ sInsert x l ↔ y = x ∨ y ∈ l := by
  unfold sInsert
  cases h : memB x l with
  | true =>
    rw [cond_true]
    constructor
    · exact Or.inr
    · rintro (rfl | hy)
      · exact memB_eq.mp h
      · exact hy
  | false =>
    rw [cond_false, (insNat_perm x l).mem_iff, List.mem_cons]

theorem sInsert_nodup {x : Nat} {l : List Nat} (hl : l.Nodup) :
    (sInsert x l).Nodup := by
  unfold sInsert
  cases h : memB x l with
  | true => rw [cond_true]; exact hl
  | false =>
    rw [cond_false]
    have hx : x ∉ l := fun hm => by rw [memB_eq.mpr hm] at h; cases h
    exact ((insNat_perm x l).nodup_iff).mpr (List.nodup_cons.mpr ⟨hx, hl⟩)

theorem mcn_foldl_invariant (g : PyGraph) (wanna : List Nat) (l : List Nat)
    (m r : Nat) (hmr : m = nbCount g r wanna) :
    ∃ m2 r2, l.foldl (mcnStep g wanna) (some m, some r) = (some m2, some r2) ∧
      m2 = nbCount g r2 wanna ∧ (r2 = r ∨ r2 ∈ l) ∧ m ≤ m2 ∧
      ∀ y ∈ l, nbCount g y wanna ≤ m2 := by
  induction l generalizing m r with
  | nil => exact ⟨m, r, rfl, hmr, Or.inl rfl, le_refl m, by simp⟩
  | cons x xs ih =>
    rw [List.foldl_cons]
    by_cases hx : m < nbCount g x wanna
    · have hstep : mcnStep g wanna (some m, some r) x =
          (some (nbCount g x wanna), some x) := by
        unfold mcnStep
        simp [hx]
      rw [hstep]
      obtain ⟨m2, r2, heq, hc, hmem, hle, hall⟩ := ih (nbCount g x wanna) x rfl
      refine ⟨m2, r2, heq, hc, ?_, by omega, ?_⟩
      · rcases hmem with rfl | h
        · exact Or.inr (List.mem_cons_self _ _)
        · exact Or.inr (List.mem_cons_of_mem _ h)
      · intro y hy
        rcases List.mem_cons.mp hy with rfl | hy
        · omega
        · exact hall y hy
    · have hstep : mcnStep g wanna (some m, some r) x = (some m, some r) := by
        unfold mcnStep
        simp [hx]
      rw [hstep]
      obtain ⟨m2, r2, heq, hc, hmem, hle, hall⟩ := ih m r hmr
      refine ⟨m2, r2, heq, hc, ?_, hle, ?_⟩
      · rcases hmem with rfl | h
        · exact Or.inl rfl
        · exact Or.inr (List.mem_cons_of_mem _ h)
      · intro y hy
        rcases List.mem_cons.mp hy with rfl | hy
        · omega
        · exact hall y hy

theorem max_cardinality_node_spec (g : PyGraph) (wanna : List Nat)
    (order : List Nat) (hne : order ≠ []) :
    ∃ x, max_cardinality_node g order wanna = some x ∧ x ∈ order ∧
      ∀ y ∈ order, nbCount g y wanna ≤ nbCount g x wanna := by
  obtain ⟨a, l, rfl⟩ := List.exists_cons_of_ne_nil hne
  unfold max_cardinality_node
  rw [List.foldl_cons]
  have hstep : mcnStep g wanna (none, none) a = (some (nbCount g a wanna), some a) := rfl
  rw [hstep]
  obtain ⟨m2, r2, heq, hc, hmem, hle, hall⟩ :=
    mcn_foldl_invariant g wanna l (nbCount g a wanna) a rfl
  refine ⟨r2, by rw [heq], ?_, ?_⟩
  · rcases hmem with rfl | h
    · exact List.mem_cons_self _ _
    · exact List.mem_cons_of_mem _ h
  · intro y hy
    rcases List.mem_cons.mp hy with rfl | hy
    · omega
    · have := hall y hy
      omega

theorem mcn_foldl_stable (g : PyGraph) (wanna : List Nat) (l : List Nat)
    (m r : Nat) (hall : ∀ y ∈ l, nbCount g y wanna ≤ m) :
    l.foldl (mcnStep g wanna) (some m, some r) = (some m, some r) := by
  induction l with
  | nil => rfl
  | cons x xs ih =>
    rw [List.foldl_cons]
    have hstep : mcnStep g wanna (some m, some r) x = (some m, some r) := by
      unfold mcnStep
      have := hall x (List.mem_cons_self _ _)
      simp [Nat.not_lt.mpr this]
    rw [hstep]
    exact ih fun y hy => hall y (List.mem_cons_of_mem _ hy)

/-- Any maximiser is an actual outcome of `_max_cardinality_node` for a
suitable iteration order: put it first. -/
theorem max_cardinality_node_achieves (g : PyGraph) (wanna : List Nat)
    (l : List Nat) (x : Nat) (hx : x ∈ l)
    (hmax : ∀ y ∈ l, nbCount g y wanna ≤ nbCount g x wanna) :
    ∃ order, List.Perm order l ∧ max_cardinality_node g order wanna = some x := by
  refine ⟨x :: l.erase x, (List.perm_cons_erase hx).symm, ?_⟩
  unfold max_cardinality_node
  rw [List.foldl_cons]
  have hstep : mcnStep g wanna (none, none) x = (some (nbCount g x wanna), some x) := rfl
  rw [hstep, mcn_foldl_stable]
  intro y hy
  exact hmax y (List.mem_of_mem_erase hy)

theorem le_cntMax (g : PyGraph) (wanna : List Nat) :
    ∀ choices : List Nat, ∀ y ∈ choices,
      nbCount g y wanna ≤ cntMax g choices wanna := by
  intro choices
  induction choices with
  | nil =>
    intro y hy
    cases hy
  | cons a l ih =>
    intro y hy
    unfold cntMax
    rw [List.map_cons, List.foldr_cons]
    rcases List.mem_cons.mp hy with rfl | hy
    · exact le_max_left _ _
    · exact le_trans (ih y hy) (le_max_right _ _)

theorem cntMax_attained (g : PyGraph) (wanna : List Nat) :
    ∀ choices : List Nat, choices ≠ [] →
      ∃ x ∈ choices, nbCount g x wanna = cntMax g choices wanna := by
  intro choices
  induction choices with
  | nil =>
    intro h
    exact absurd rfl h
  | cons a l ih =>
    intro _
    unfold cntMax
    rw [List.map_cons, List.foldr_cons]
    by_cases hl : l = []
    · subst hl
      exact ⟨a, List.mem_cons_self _ _, by simp⟩
    · obtain ⟨x, hx, hax⟩ := ih hl
      unfold cntMax at hax
      rcases Nat.le_total (nbCount g a wanna)
          ((l.map fun y => nbCount g y wanna).foldr max 0) with hle | hle
      · refine ⟨x, List.mem_cons_of_mem _ hx, ?_⟩
        rw [hax]
        omega
      · exact ⟨a, List.mem_cons_self _ _, by omega⟩

theorem mem_maxCardinalityOutcomes {g : PyGraph} {choices wanna : List Nat}
    {x : Nat} :
    x ∈ maxCardinalityOutcomes g choices wanna ↔
      x ∈ choices ∧ ∀ y ∈ choices, nbCount g y wanna ≤ nbCount g x wanna := by
  unfold maxCardinalityOutcomes
  rw [List.mem_filter, natBeq_iff]
  constructor
  · rintro ⟨h1, h2⟩
    exact ⟨h1, fun y hy => h2 ▸ le_cntMax g wanna choices y hy⟩
  · rintro ⟨h1, h2⟩
    refine ⟨h1, le_antisymm (le_cntMax g wanna choices x h1) ?_⟩
    obtain ⟨z, hz, hze⟩ := cntMax_attained g wanna choices (List.ne_nil_of_mem h1)
    rw [← hze]
    exact h2 z hz

theorem maxCardinalityOutcomes_ne_nil {g : PyGraph} {choices wanna : List Nat}
    (hne : choices ≠ []) : maxCardinalityOutcomes g choices wanna ≠ [] := by
  obtain ⟨x, hx, hmax⟩ := cntMax_attained g wanna choices hne
  intro hnil
  have hm : x ∈ maxCardinalityOutcomes g choices wanna := by
    unfold maxCardinalityOutcomes
    rw [List.mem_filter, natBeq_iff]
    exact ⟨hx, hmax⟩
  rw [hnil] at hm
  exact absurd hm (List.not_mem_nil _)

theorem mem_dedupB {α : Type} {beq : α → α → Bool}
    (hbeq : ∀ a b, beq a b = true ↔ a = b) :
    ∀ {l : List α} {x : α}, x ∈ dedupB beq l ↔ x ∈ l := by
  intro l
  induction l with
  | nil => intro x; exact Iff.rfl
  | cons y l ih =>
    intro x
    unfold dedupB
    cases hany : l.any (beq y) with
    | true =>
      rw [cond_true, ih, List.mem_cons]
      obtain ⟨z, hz, hbz⟩ := List.any_eq_true.mp hany
      rw [hbeq] at hbz
      subst hbz
      constructor
      · exact Or.inr
      · rintro (rfl | h)
        · exact hz
        · exact h
    | false =>
      rw [cond_false, List.mem_cons, ih, List.mem_cons]

theorem dedupB_sublist {α : Type} (beq : α → α → Bool) :
    ∀ l : List α, List.Sublist (dedupB beq l) l := by
  intro l
  induction l with
  | nil => exact List.Sublist.refl _
  | cons y l ih =>
    unfold dedupB
    cases l.any (beq y) with
    | true => rw [cond_true]; exact ih.cons y
    | false => rw [cond_false]; exact ih.cons₂ y

theorem dedupB_ne_nil {α : Type} {beq : α → α → Bool}
    (hbeq : ∀ a b, beq a b = true ↔ a = b) {l : List α} (hl : l ≠ []) :
    dedupB beq l ≠ [] := by
  obtain ⟨x, hx⟩ := List.exists_mem_of_ne_nil l hl
  intro hcon
  have hm := (mem_dedupB hbeq).mpr hx
  rw [hcon] at hm
  exact absurd hm (List.not_mem_nil _)

theorem beqBool_iff : ∀ a b : Bool, beqBool a b = true ↔ a = b := by decide

theorem beqON_iff : ∀ a b : Option Nat, beqON a b = true ↔ a = b := by
  intro a b
  cases a <;> cases b <;> simp [beqON, natBeq_iff]

theorem beqLN_iff : ∀ a b : List Nat, beqLN a b = true ↔ a = b := by
  intro a
  induction a with
  | nil => intro b; cases b <;> simp [beqLN]
  | cons x xs ih =>
    intro b
    cases b with
    | nil => simp [beqLN]
    | cons y ys => simp [beqLN, Bool.and_eq_true, natBeq_iff, ih]

theorem beqLNN_iff : ∀ a b : List (Nat × Nat), beqLNN a b = true ↔ a = b := by
  intro a
  induction a with
  | nil => intro b; cases b <;> simp [beqLNN]
  | cons x xs ih =>
    intro b
    cases b with
    | nil => simp [beqLNN]
    | cons y ys =>
      obtain ⟨x1, x2⟩ := x
      obtain ⟨y1, y2⟩ := y
      simp [beqLNN, Bool.and_eq_true, natBeq_iff, ih, Prod.ext_iff, and_assoc]

theorem beqLLN_iff : ∀ a b : List (List Nat), beqLLN a b = true ↔ a = b := by
  intro a
  induction a with
  | nil => intro b; cases b <;> simp [beqLLN]
  | cons x xs ih =>
    intro b
    cases b with
    | nil => simp [beqLLN]
    | cons y ys => simp [beqLLN, Bool.and_eq_true, beqLN_iff, ih]

theorem beqGraph_iff : ∀ a b : PyGraph, beqGraph a b = true ↔ a = b := by
  intro a b
  obtain ⟨a1, a2, a3, a4⟩ := a
  obtain ⟨b1, b2, b3, b4⟩ := b
  simp [beqGraph, Bool.and_eq_true, beqLN_iff, beqLNN_iff, beqBool_iff]

theorem beqErr_iff : ∀ a b : Err, beqErr a b = true ↔ a = b := by
  intro a b
  cases a <;> cases b <;> simp [beqErr]

theorem beqTriple_iff : ∀ a b, beqTriple a b = true ↔ a = b := by
  intro a b
  match a, b with
  | none, none => simp [beqTriple]
  | none, some (x, y, z) => simp [beqTriple]
  | some (x, y, z), none => simp [beqTriple]
  | some (x, y, z), some (x2, y2, z2) =>
    simp [beqTriple, Bool.and_eq_true, natBeq_iff, Prod.ext_iff]

theorem beqRes_iff {α : Type} {beqA : α → α → Bool}
    (hA : ∀ a b, beqA a b = true ↔ a = b) :
    ∀ a b : Res α, beqRes beqA a b = true ↔ a = b := by
  intro a b
  match a, b with
  | .ok x, .ok y => simp [beqRes, hA]
  | .ok x, .error f => simp [beqRes]
  | .error e, .ok y => simp [beqRes]
  | .error e, .error f => simp [beqRes, beqErr_iff]

theorem natBeqA : ∀ a b : Nat, Nat.beq a b = true ↔ a = b := fun a b => natBeq_iff

theorem beqInt_iff : ∀ a b : Int, beqInt a b = true ↔ a = b := by
  intro a b
  cases a <;> cases b <;> simp [beqInt, natBeq_iff]

theorem beqBSt_iff : ∀ a b : BSt, beqBSt a b = true ↔ a = b := by
  intro a b
  obtain ⟨a1, a2, a3⟩ := a
  obtain ⟨b1, b2, b3⟩ := b
  simp [beqBSt, Bool.and_eq_true, beqLN_iff, beqON_iff]

theorem beqBNode_iff : ∀ a b : BNode, beqBNode a b = true ↔ a = b := by
  intro a b
  match a, b with
  | .more x, .more y => simp [beqBNode, beqBSt_iff]
  | .more x, .done q => simp [beqBNode]
  | .done r, .more y => simp [beqBNode]
  | .done r, .done q => simp [beqBNode, beqRes_iff beqTriple_iff]

theorem mem_stepAll {g : PyGraph} {bound : Option Nat} {l : List BNode} {n : BNode} :
    n ∈ stepAll g bound l ↔ ∃ m ∈ l,
      n ∈ (match m with
        | BNode.more st => breakerStep g bound st
        | BNode.done r => [BNode.done r]) := by
  unfold stepAll
  rw [mem_dedupB beqBNode_iff, List.mem_flatMap]

/-- Induction principle over the breadth-first unfolding of the breaker. -/
theorem breaker_invariant (g : PyGraph) (s : Option Nat) (bound : Option Nat)
    (P : BNode → Prop)
    (hinit : ∀ n ∈ breakerInit g s, P n)
    (hstep : ∀ st, P (.more st) → ∀ n ∈ breakerStep g bound st, P n) :
    ∀ k, ∀ n ∈ (stepAll g bound)^[k] (breakerInit g s), P n := by
  intro k
  induction k with
  | zero => exact hinit
  | succ k ih =>
    intro n hn
    rw [Function.iterate_succ_apply', mem_stepAll] at hn
    obtain ⟨m, hm, hn⟩ := hn
    match m with
    | BNode.more st => exact hstep st (ih _ hm) n hn
    | BNode.done r =>
      rw [List.mem_singleton] at hn
      subst hn
      exact ih _ hm

theorem breakerStep_cases {g : PyGraph} {bound : Option Nat} {st : BSt} {n : BNode}
    (hn : n ∈ breakerStep g bound st) :
    (st.unnumbered = [] ∧ n = .done (.ok none)) ∨
    ∃ v, v ∈ st.unnumbered ∧
      (∀ y ∈ st.unnumbered, nbCount g y st.numbered ≤ nbCount g v st.numbered) ∧
      ((is_complete_graph (subgraphF g
          ((sInsert v st.numbered).filter fun y => memB y (nbrs g v))) = .ok true ∧
         ((boundLt bound (max (st.tw.getD 0)
              ((sInsert v st.numbered).filter fun y =>
                memB y (nbrs g v)).length) = false ∧
            n = .more ⟨st.unnumbered.erase v, sInsert v st.numbered,
              some (max (st.tw.getD 0)
                ((sInsert v st.numbered).filter fun y =>
                  memB y (nbrs g v)).length)⟩) ∨
          (boundLt bound (max (st.tw.getD 0)
              ((sInsert v st.numbered).filter fun y =>
                memB y (nbrs g v)).length) = true ∧
            n = .done (.error .treewidthBoundExceeded)))) ∨
       (is_complete_graph (subgraphF g
          ((sInsert v st.numbered).filter fun y => memB y (nbrs g v))) = .ok false ∧
         ∃ p, p ∈ find_missing_edge (subgraphF g
            ((sInsert v st.numbered).filter fun y => memB y (nbrs g v))) ∧
           n = .done (.ok (some (p.1, v, p.2)))) ∨
       (∃ e, is_complete_graph (subgraphF g
          ((sInsert v st.numbered).filter fun y => memB y (nbrs g v))) = .error e ∧
         n = .done (.error e))) := by
  unfold breakerStep at hn
  by_cases hemp : st.unnumbered = []
  · rw [if_pos hemp, List.mem_singleton] at hn
    exact Or.inl ⟨hemp, hn⟩
  · rw [if_neg hemp, List.mem_flatMap] at hn
    obtain ⟨v, hv, hn⟩ := hn
    obtain ⟨hv1, hv2⟩ := mem_maxCardinalityOutcomes.mp hv
    refine Or.inr ⟨v, hv1, hv2, ?_⟩
    unfold breakerBranch at hn
    dsimp only at hn
    cases hic : is_complete_graph (subgraphF g
        ((sInsert v st.numbered).filter fun y => memB y (nbrs g v))) with
    | ok b =>
      rw [hic] at hn
      cases b with
      | true =>
        dsimp only at hn
        cases hb : boundLt bound (max (st.tw.getD 0)
            ((sInsert v st.numbered).filter fun y => memB y (nbrs g v)).length) with
        | false =>
          rw [hb] at hn
          rw [if_neg (by simp)] at hn
          rw [List.mem_singleton] at hn
          exact Or.inl ⟨rfl, Or.inl ⟨rfl, hn⟩⟩
        | true =>
          rw [hb] at hn
          rw [if_pos rfl, List.mem_singleton] at hn
          exact Or.inl ⟨rfl, Or.inr ⟨rfl, hn⟩⟩
      | false =>
        dsimp only at hn
        rw [List.mem_map] at hn
        obtain ⟨p, hp, rfl⟩ := hn
        exact Or.inr (Or.inl ⟨rfl, p, hp, rfl⟩)
    | error e =>
      rw [hic] at hn
      dsimp only at hn
      rw [List.mem_singleton] at hn
      exact Or.inr (Or.inr ⟨e, rfl, hn⟩)

theorem breaker_more_card (g : PyGraph) (s : Option Nat) (bound : Option Nat) :
    ∀ k st, BNode.more st ∈ (stepAll g bound)^[k] (breakerInit g s) →
      st.unnumbered.length + k ≤ g.nodes.length := by
  intro k
  induction k with
  | zero =>
    intro st hst
    rw [Function.iterate_zero_apply] at hst
    have hcle : (dedupB Nat.beq g.nodes).length ≤ g.nodes.length :=
      (dedupB_sublist Nat.beq g.nodes).length_le
    match s with
    | some s0 =>
      unfold breakerInit at hst
      dsimp only at hst
      by_cases hs0 : s0 ∈ g.nodes
      · rw [if_pos hs0, List.mem_singleton] at hst
        cases hst
        have hlen := List.length_erase_of_mem ((mem_dedupB natBeqA).mpr hs0)
        dsimp only
        omega
      · rw [if_neg hs0, List.mem_singleton] at hst
        cases hst
    | none =>
      unfold breakerInit at hst
      dsimp only at hst
      by_cases hnil : g.nodes = []
      · rw [if_pos hnil, List.mem_singleton] at hst
        cases hst
      · rw [if_neg hnil, List.mem_map] at hst
        obtain ⟨s0, hs0, heq⟩ := hst
        cases heq
        have hlen := List.length_erase_of_mem hs0
        dsimp only
        omega
  | succ k ih =>
    intro st hst
    rw [Function.iterate_succ_apply', mem_stepAll] at hst
    obtain ⟨m, hm, hmem⟩ := hst
    match m with
    | BNode.done r =>
      rw [List.mem_singleton] at hmem
      cases hmem
    | BNode.more st1 =>
      have h1 := ih st1 hm
      rcases breakerStep_cases hmem with ⟨_, heq⟩ | ⟨v, hv, _, hcase⟩
      · cases heq
      · have hvc : 1 ≤ st1.unnumbered.length := by
          cases hu : st1.unnumbered with
          | nil => rw [hu] at hv; cases hv
          | cons a l => simp [hu]
        rcases hcase with ⟨_, (⟨_, heq⟩ | ⟨_, heq⟩)⟩ | ⟨_, p, _, heq⟩ | ⟨e, _, heq⟩ <;>
          cases heq
        have hlen := List.length_erase_of_mem hv
        dsimp only at hlen ⊢
        omega

theorem breakerNodes_done (g : PyGraph) (s : Option Nat) (bound : Option Nat) :
    ∀ n ∈ breakerNodes g s bound, ∃ r, n = .done r := by
  intro n hn
  match n with
  | BNode.done r => exact ⟨r, rfl⟩
  | BNode.more st =>
    have := breaker_more_card g s bound (g.nodes.length + 1) st hn
    omega

theorem breakerBranch_ne_nil {g : PyGraph} (hg : WF g) (bound : Option Nat)
    (st : BSt) (v : Nat) : breakerBranch g bound st v ≠ [] := by
  unfold breakerBranch
  dsimp only
  have hwf := wf_subgraphF hg ((sInsert v st.numbered).filter fun y => memB y (nbrs g v))
  rw [is_complete_graph_eq hwf]
  by_cases hC : CompleteOn (subgraphF g
      ((sInsert v st.numbered).filter fun y => memB y (nbrs g v)))
  · have hd : decide (CompleteOn (subgraphF g
        ((sInsert v st.numbered).filter fun y => memB y (nbrs g v)))) = true := by
      rw [decide_eq_true_eq]; exact hC
    rw [hd]
    by_cases hb : boundLt bound (max (st.tw.getD 0)
        ((sInsert v st.numbered).filter fun y => memB y (nbrs g v)).length) = true
    · rw [if_pos hb]; simp
    · rw [if_neg hb]; simp
  · have hd : decide (CompleteOn (subgraphF g
        ((sInsert v st.numbered).filter fun y => memB y (nbrs g v)))) = false := by
      rw [decide_eq_false_iff_not]; exact hC
    rw [hd]
    intro hcon
    rw [List.map_eq_nil_iff] at hcon
    exact find_missing_edge_ne_nil hC hcon

theorem breakerStep_ne_nil {g : PyGraph} (hg : WF g) (bound : Option Nat) (st : BSt) :
    breakerStep g bound st ≠ [] := by
  unfold breakerStep
  by_cases hemp : st.unnumbered = []
  · rw [if_pos hemp]
    simp
  · rw [if_neg hemp]
    intro hcon
    obtain ⟨x, hx⟩ := List.exists_mem_of_ne_nil _
      (@maxCardinalityOutcomes_ne_nil g st.unnumbered st.numbered hemp)
    obtain ⟨y, hy⟩ := List.exists_mem_of_ne_nil _ (breakerBranch_ne_nil hg bound st x)
    have hmem : y ∈ (maxCardinalityOutcomes g st.unnumbered st.numbered).flatMap
        (breakerBranch g bound st) := List.mem_flatMap.mpr ⟨x, hx, hy⟩
    rw [hcon] at hmem
    exact absurd hmem (List.not_mem_nil _)

theorem stepAll_ne_nil {g : PyGraph} (hg : WF g) (bound : Option Nat)
    {l : List BNode} (hl : l ≠ []) : stepAll g bound l ≠ [] := by
  obtain ⟨n, hn⟩ := List.exists_mem_of_ne_nil l hl
  intro hcon
  have hex : ∃ y, y ∈ stepAll g bound l := by
    match n with
    | BNode.done r =>
      exact ⟨BNode.done r, mem_stepAll.mpr ⟨BNode.done r, hn, List.mem_singleton_self _⟩⟩
    | BNode.more st =>
      obtain ⟨y, hy⟩ := List.exists_mem_of_ne_nil _ (breakerStep_ne_nil hg bound st)
      exact ⟨y, mem_stepAll.mpr ⟨BNode.more st, hn, hy⟩⟩
  obtain ⟨y, hy⟩ := hex
  rw [hcon] at hy
  exact absurd hy (List.not_mem_nil _)

theorem breakerInit_ne_nil (g : PyGraph) (s : Option Nat) : breakerInit g s ≠ [] := by
  match s with
  | some s0 =>
    unfold breakerInit
    dsimp only
    by_cases h : s0 ∈ g.nodes
    · rw [if_pos h]; simp
    · rw [if_neg h]; simp
  | none =>
    unfold breakerInit
    dsimp only
    by_cases h : g.nodes = []
    · rw [if_pos h]; simp
    · rw [if_neg h]
      intro hcon
      rw [List.map_eq_nil_iff] at hcon
      exact dedupB_ne_nil natBeqA h hcon

theorem breakerNodes_ne_nil {g : PyGraph} (hg : WF g) (s : Option Nat)
    (bound : Option Nat) : breakerNodes g s bound ≠ [] := by
  unfold breakerNodes
  generalize g.nodes.length + 1 = k
  induction k with
  | zero => exact breakerInit_ne_nil g s
  | succ k ih =>
    rw [Function.iterate_succ_apply']
    exact stepAll_ne_nil hg bound ih

theorem find_chordality_breaker_ne_nil {g : PyGraph} (hg : WF g) (s : Option Nat)
    (bound : Option Nat) : find_chordality_breaker g s bound ≠ [] := by
  obtain ⟨n, hn⟩ := List.exists_mem_of_ne_nil _ (breakerNodes_ne_nil hg s bound)
  obtain ⟨r, rfl⟩ := breakerNodes_done g s bound n hn
  intro hcon
  have hm : r ∈ find_chordality_breaker g s bound := by
    unfold find_chordality_breaker
    rw [mem_dedupB (beqRes_iff beqTriple_iff), List.mem_filterMap]
    exact ⟨BNode.done r, hn, rfl⟩
  rw [hcon] at hm
  exact absurd hm (List.not_mem_nil _)

theorem mem_find_chordality_breaker {g : PyGraph} {s bound : Option Nat}
    {r : Res (Option (Nat × Nat × Nat))} :
    r ∈ find_chordality_breaker g s bound ↔ BNode.done r ∈ breakerNodes g s bound := by
  unfold find_chordality_breaker
  rw [mem_dedupB (beqRes_iff beqTriple_iff), List.mem_filterMap]
  constructor
  · rintro ⟨n, hn, hr⟩
    match n with
    | BNode.done r0 =>
      cases hr
      exact hn
    | BNode.more st => cases hr
  · intro hn
    exact ⟨BNode.done r, hn, rfl⟩

theorem beqIG_iff : ∀ a b : List Nat × PyGraph, beqIG a b = true ↔ a = b := by
  intro a b
  obtain ⟨a1, a2⟩ := a
  obtain ⟨b1, b2⟩ := b
  simp [beqIG, Bool.and_eq_true, beqLN_iff, beqGraph_iff, Prod.ext_iff]

theorem beqISt_iff : ∀ a b : ISt, beqISt a b = true ↔ a = b := by
  intro a b
  obtain ⟨a1, a2⟩ := a
  obtain ⟨b1, b2⟩ := b
  simp [beqISt, Bool.and_eq_true, beqLN_iff, beqGraph_iff]

theorem beqINode_iff : ∀ a b : INode, beqINode a b = true ↔ a = b := by
  intro a b
  match a, b with
  | .more x, .more y => simp [beqINode, beqISt_iff]
  | .more x, .done q => simp [beqINode]
  | .done r, .more y => simp [beqINode]
  | .done r, .done q => simp [beqINode, beqRes_iff beqIG_iff]

theorem insertCliqueAux_perm (c : List Nat) (cs : List (List Nat)) :
    List.Perm (insertCliqueAux c cs) (c :: cs) := by
  induction cs with
  | nil => exact List.Perm.refl _
  | cons d ds ih =>
    unfold insertCliqueAux
    by_cases h : listLeB c d = true
    · rw [if_pos h]
    · rw [if_neg h]
      exact (ih.cons d).trans (List.Perm.swap c d ds)

theorem mem_insertClique {c d : List Nat} {cs : List (List Nat)} :
    d ∈ insertClique c cs ↔ d = c ∨ d ∈ cs := by
  unfold insertClique
  by_cases h : c ∈ cs
  · rw [if_pos h]
    constructor
    · exact Or.inr
    · rintro (rfl | hd)
      · exact h
      · exact hd
  · rw [if_neg h, (insertCliqueAux_perm c cs).mem_iff, List.mem_cons]

theorem beqCSt_iff : ∀ a b : CSt, beqCSt a b = true ↔ a = b := by
  intro a b
  obtain ⟨a1, a2, a3, a4⟩ := a
  obtain ⟨b1, b2, b3, b4⟩ := b
  simp [beqCSt, Bool.and_eq_true, beqLN_iff, beqLLN_iff]

theorem beqCNode_iff : ∀ a b : CNode, beqCNode a b = true ↔ a = b := by
  intro a b
  match a, b with
  | .more x, .more y => simp [beqCNode, beqCSt_iff]
  | .more x, .done q => simp [beqCNode]
  | .done r, .more y => simp [beqCNode]
  | .done r, .done q => simp [beqCNode, beqRes_iff beqLLN_iff]

theorem nbrs_nodup {g : PyGraph} (hg : WF g) (v : Nat) : (nbrs g v).Nodup := by
  unfold nbrs
  obtain ⟨-, he, hee⟩ := hg
  have hememit : ∀ (e : Nat × Nat) (y : Nat),
      (cond (Nat.beq e.1 v) (some e.2) (cond (Nat.beq e.2 v) (some e.1) none)) = some y ↔
        ((e.1 = v ∧ e.2 = y) ∨ (e.1 ≠ v ∧ e.2 = v ∧ e.1 = y)) := by
    intro e y
    cases h1 : Nat.beq e.1 v with
    | true =>
      rw [cond_true]
      have h1e := natBeq_iff.mp h1
      constructor
      · intro h
        cases h
        exact Or.inl ⟨h1e, rfl⟩
      · rintro (⟨-, rfl⟩ | ⟨hne, -, -⟩)
        · rfl
        · exact absurd h1e hne
    | false =>
      rw [cond_false]
      have h1e : e.1 ≠ v := fun h => by rw [h, Nat.beq_refl] at h1; cases h1
      cases h2 : Nat.beq e.2 v with
      | true =>
        rw [cond_true]
        have h2e := natBeq_iff.mp h2
        constructor
        · intro h
          cases h
          exact Or.inr ⟨h1e, h2e, rfl⟩
        · rintro (⟨h1v, -⟩ | ⟨-, -, rfl⟩)
          · exact absurd h1v h1e
          · rfl
      | false =>
        rw [cond_false]
        have h2e : e.2 ≠ v := fun h => by rw [h, Nat.beq_refl] at h2; cases h2
        constructor
        · intro h
          cases h
        · rintro (⟨h1v, -⟩ | ⟨-, h2v, -⟩)
          · exact absurd h1v h1e
          · exact absurd h2v h2e
  have aux : ∀ (L : List (Nat × Nat)), L.Nodup → (∀ e ∈ L, e.1 < e.2) →
      (L.filterMap fun e =>
        cond (Nat.beq e.1 v) (some e.2) (cond (Nat.beq e.2 v) (some e.1) none)).Nodup := by
    intro L
    induction L with
    | nil =>
      intro _ _
      exact List.nodup_nil
    | cons e L ih =>
      intro hnd hlt
      rw [List.filterMap_cons]
      obtain ⟨hhead, htail⟩ := List.nodup_cons.mp hnd
      cases hemit : cond (Nat.beq e.1 v) (some e.2) (cond (Nat.beq e.2 v) (some e.1) none) with
      | none => exact ih htail fun x hx => hlt x (List.mem_cons_of_mem _ hx)
      | some y =>
        rw [List.nodup_cons]
        refine ⟨?_, ih htail fun x hx => hlt x (List.mem_cons_of_mem _ hx)⟩
        intro hy
        rw [List.mem_filterMap] at hy
        obtain ⟨f, hf, hfy⟩ := hy
        rw [hememit] at hemit hfy
        have hel := hlt e (List.mem_cons_self _ _)
        have hfl := hlt f (List.mem_cons_of_mem _ hf)
        have hef : e = f := by
          rcases hemit with ⟨h1, h2⟩ | ⟨h1, h2, h3⟩ <;>
            rcases hfy with ⟨g1, g2⟩ | ⟨g1, g2, g3⟩
          · rw [Prod.ext_iff]
            omega
          · omega
          · omega
          · rw [Prod.ext_iff]
            omega
        rw [hef] at hhead
        exact hhead hf
  exact aux g.edges he fun e hme => (hee e hme).1

theorem nbCount_eq_cnt {g : PyGraph} (hg : WF g) (y : Nat) (wanna : List Nat) :
    nbCount g y wanna = cnt g y wanna.toFinset := by
  unfold nbCount cnt
  rw [List.countP_eq_length_filter]
  have hnd : ((nbrs g y).filter fun x => memB x wanna).Nodup :=
    (nbrs_nodup hg y).filter _
  rw [← List.toFinset_card_of_nodup hnd]
  congr 1
  ext x
  rw [List.mem_toFinset, List.mem_filter, memB_eq, Finset.mem_filter, List.mem_toFinset,
    mem_nbrs]
  tauto

theorem isChordal_subgraphF {g : PyGraph} (h : IsChordal g) (s : List Nat) :
    IsChordal (subgraphF g s) := by
  intro c hc
  obtain ⟨hlen, hnd, hadj⟩ := hc
  have hmem : ∀ i < c.length, c.getD i 0 ∈ s := by
    intro i hi
    exact (adj_subgraphF.mp (hadj i hi)).2.1
  have hcy : IsCycle g c :=
    ⟨hlen, hnd, fun i hi => (adj_subgraphF.mp (hadj i hi)).1⟩
  obtain ⟨i, hi, j, hj, hij, hj1, hi1, hadj2⟩ := h c hcy
  exact ⟨i, hi, j, hj, hij, hj1, hi1,
    adj_subgraphF.mpr ⟨hadj2, hmem i hi, hmem j hj⟩⟩

theorem exists_argmax (f : Nat → Nat) (n : Nat) (hn : 0 < n) :
    ∃ i, i < n ∧ ∀ j < n, f j ≤ f i := by
  induction n with
  | zero => omega
  | succ m ih =>
    by_cases hm : 0 < m
    · obtain ⟨i, hi, hmax⟩ := ih hm
      by_cases hfi : f m ≤ f i
      · refine ⟨i, by omega, fun j hj => ?_⟩
        rcases Nat.lt_succ_iff_lt_or_eq.mp hj with h | rfl
        · exact hmax j h
        · exact hfi
      · refine ⟨m, by omega, fun j hj => ?_⟩
        rcases Nat.lt_succ_iff_lt_or_eq.mp hj with h | rfl
        · exact le_trans (hmax j h) (by omega)
        · exact le_refl _
    · have hz : m = 0 := by omega
      subst hz
      refine ⟨0, by omega, fun j hj => ?_⟩
      have hz : j = 0 := by omega
      subst hz
      exact le_refl _

/-- Easy direction of the Tarjan–Yannakakis theorem: if some numbering of all
nodes satisfies the prior-neighbours-clique condition at every step, the graph
is chordal.  (The σ-largest vertex of any cycle certifies a chord between its
two cycle neighbours.) -/
theorem clean_order_chordal {g : PyGraph} (hg : WF g) {σ : List Nat}
    (hnd : σ.Nodup) (hcov : ∀ x, x ∈ g.nodes → x ∈ σ) (hcl : CleanAt g σ) :
    IsChordal g := by
  rintro c ⟨hlen, hcnd, hadj⟩
  set n := c.length with hn
  have hnpos : 0 < n := by omega
  have hcmem : ∀ i, i < n → c.getD i 0 ∈ σ := by
    intro i hi
    exact hcov _ (adj_mem_nodes hg (hadj i hi)).1
  obtain ⟨i0, hi0, hmax⟩ := exists_argmax (fun i => σ.indexOf (c.getD i 0)) n hnpos
  set j1 := if i0 = 0 then n - 1 else i0 - 1 with hj1
  set j2 := (i0 + 1) % n with hj2
  have hj1lt : j1 < n := by
    rw [hj1]; split <;> omega
  have hj2lt : j2 < n := Nat.mod_lt _ hnpos
  have hj11 : (j1 + 1) % n = i0 := by
    rw [hj1]
    by_cases h0 : i0 = 0
    · rw [if_pos h0, Nat.sub_add_cancel (by omega), Nat.mod_self, h0]
    · rw [if_neg h0, Nat.sub_add_cancel (by omega), Nat.mod_eq_of_lt hi0]
  have hadj1 : Adj g (c.getD j1 0) (c.getD i0 0) := by
    have h := hadj j1 hj1lt
    rw [hj11] at h
    exact h
  have hadj2 : Adj g (c.getD i0 0) (c.getD j2 0) := hadj i0 hi0
  have hj1ne : j1 ≠ i0 := by
    rw [hj1]; split <;> omega
  have hj2ne : j2 ≠ i0 := by
    rw [hj2]
    rcases Nat.lt_or_ge (i0 + 1) n with h | h
    · rw [Nat.mod_eq_of_lt h]; omega
    · have he : i0 + 1 = n := by omega
      rw [he, Nat.mod_self]
      omega
  have hj12 : j1 ≠ j2 := by
    rw [hj1, hj2]
    by_cases h0 : i0 = 0
    · rw [if_pos h0, h0, Nat.mod_eq_of_lt (by omega)]
      omega
    · rw [if_neg h0]
      rcases Nat.lt_or_ge (i0 + 1) n with h | h
      · rw [Nat.mod_eq_of_lt h]; omega
      · have he : i0 + 1 = n := by omega
        rw [he, Nat.mod_self]
        omega
  have hgetne : ∀ i j, i < n → j < n → i ≠ j → c.getD i 0 ≠ c.getD j 0 := by
    intro i j hi hj hij
    rw [List.getD_eq_getElem c 0 hi, List.getD_eq_getElem c 0 hj]
    intro h
    exact hij (hcnd.getElem_inj_iff.mp h)
  have hposlt : ∀ j, j < n → j ≠ i0 →
      σ.indexOf (c.getD j 0) < σ.indexOf (c.getD i0 0) := by
    intro j hj hne
    have hle := hmax j hj
    have hne2 : c.getD j 0 ≠ c.getD i0 0 := hgetne j i0 hj hi0 hne
    rcases Nat.eq_or_lt_of_le hle with he | h
    · exfalso
      apply hne2
      have h1 : σ.indexOf (c.getD j 0) < σ.length :=
        List.indexOf_lt_length.mpr (hcmem j hj)
      have h2 : σ.indexOf (c.getD i0 0) < σ.length :=
        List.indexOf_lt_length.mpr (hcmem i0 hi0)
      calc c.getD j 0 = σ[σ.indexOf (c.getD j 0)] := (List.getElem_indexOf h1).symm
        _ = σ[σ.indexOf (c.getD i0 0)] := by simp only [he]
        _ = c.getD i0 0 := List.getElem_indexOf h2
    · exact h
  have htake : ∀ j, j < n → j ≠ i0 →
      c.getD j 0 ∈ σ.take (σ.indexOf (c.getD i0 0)) := by
    intro j hj hne
    have hlt := hposlt j hj hne
    have hidx : σ.indexOf (c.getD j 0) < σ.length :=
      List.indexOf_lt_length.mpr (hcmem j hj)
    have heq : c.getD j 0 = σ[σ.indexOf (c.getD j 0)] :=
      (List.getElem_indexOf hidx).symm
    have hlen2 : σ.indexOf (c.getD j 0) <
        (σ.take (σ.indexOf (c.getD i0 0))).length := by
      rw [List.length_take]
      omega
    have hm := List.getElem_mem hlen2
    rw [List.getElem_take] at hm
    rw [heq]
    exact hm
  set K := σ.indexOf (c.getD i0 0) with hK
  have hKlt : K < σ.length := List.indexOf_lt_length.mpr (hcmem i0 hi0)
  have hσK : σ.getD K 0 = c.getD i0 0 := by
    rw [List.getD_eq_getElem σ 0 hKlt]
    exact List.getElem_indexOf hKlt
  have hx := htake j1 hj1lt hj1ne
  have hy := htake j2 hj2lt hj2ne
  have hxyne : c.getD j1 0 ≠ c.getD j2 0 := hgetne _ _ hj1lt hj2lt hj12
  have hchord : Adj g (c.getD j1 0) (c.getD j2 0) := by
    apply hcl K hKlt _ hx _ hy hxyne
    · rw [hσK]; exact hadj1
    · rw [hσK]; exact hadj2.symm
  refine ⟨j1, hj1lt, j2, hj2lt, hj12, ?_, ?_, hchord⟩
  · rw [hj11]
    exact hj2ne
  · rw [hj1, hj2]
    by_cases h0 : i0 = 0
    · rw [if_pos h0, h0]
      have e1 : (0 + 1) % n = 1 := Nat.mod_eq_of_lt (by omega)
      rw [e1]
      have e2 : (1 + 1) % n = 2 := Nat.mod_eq_of_lt (by omega)
      rw [e2]
      omega
    · rw [if_neg h0]
      rcases Nat.lt_or_ge (i0 + 1) n with h | h
      · rw [Nat.mod_eq_of_lt h]
        rcases Nat.lt_or_ge (i0 + 2) n with h2 | h2
        · have e3 : (i0 + 1 + 1) % n = i0 + 1 + 1 := Nat.mod_eq_of_lt (by omega)
          rw [e3]
          omega
        · have he : i0 + 1 + 1 = n := by omega
          rw [he, Nat.mod_self]
          omega
      · have he : i0 + 1 = n := by omega
        rw [he, Nat.mod_self, Nat.mod_eq_of_lt (by omega)]
        omega

theorem later_mono {σ : List Nat} {w w' z : Nat}
    (hw : σ.indexOf w' < σ.indexOf w) (h : Later σ w z) : Later σ w' z := by
  rcases h with h | h
  · exact Or.inl h
  · exact Or.inr (by omega)

theorem mem_take_iff_indexOf {σ : List Nat} (hnd : σ.Nodup) {x k : Nat} :
    x ∈ σ.take k ↔ x ∈ σ ∧ σ.indexOf x < k := by
  constructor
  · intro hx
    refine ⟨List.mem_of_mem_take hx, ?_⟩
    obtain ⟨i, hi, heq⟩ := List.mem_iff_getElem.mp hx
    rw [List.getElem_take] at heq
    have hik : i < k ∧ i < σ.length := by
      rw [List.length_take] at hi
      omega
    rw [← heq, List.indexOf_getElem hnd i hik.2]
    exact hik.1
  · rintro ⟨hx, hlt⟩
    have hi : σ.indexOf x < σ.length := List.indexOf_lt_length.mpr hx
    have heq : σ[σ.indexOf x] = x := List.getElem_indexOf hi
    have h2 : σ.indexOf x < (σ.take k).length := by
      rw [List.length_take]
      omega
    have hm := List.getElem_mem h2
    rw [List.getElem_take] at hm
    rw [heq] at hm
    exact hm

theorem chain'_adj_reverse {g : PyGraph} {p : List Nat}
    (h : List.Chain' (Adj g) p) : List.Chain' (Adj g) p.reverse := by
  rw [List.chain'_reverse]
  exact h.imp fun a b hab => hab.symm

theorem getD_take {p : List Nat} {k i : Nat} (h : i < k) (h2 : i < p.length) :
    (p.take k).getD i 0 = p.getD i 0 := by
  rw [List.getD_eq_getElem _ 0 (by rw [List.length_take]; omega),
    List.getD_eq_getElem _ 0 h2]
  exact List.getElem_take _

theorem getD_append_left {l₁ l₂ : List Nat} {i : Nat} (h : i < l₁.length) :
    (l₁ ++ l₂).getD i 0 = l₁.getD i 0 :=
  List.getD_append _ _ _ _ h

theorem getD_append_last {l₁ : List Nat} {d2 : Nat} :
    (l₁ ++ [d2]).getD l₁.length 0 = d2 := by
  have hlen : l₁.length < (l₁ ++ [d2]).length := by
    rw [List.length_append]
    simp
  rw [List.getD_eq_getElem _ 0 hlen, List.getElem_append_right (le_refl _)]
  simp

theorem exists_extra_nbr {g : PyGraph} {P : Finset Nat} {w m u : Nat}
    (hcard : cnt g m P ≤ cnt g w P) (hu : u ∈ P) (hadjm : Adj g m u)
    (hnadjw : ¬ Adj g w u) : ∃ d ∈ P, Adj g w d ∧ ¬ Adj g m d := by
  by_contra hcon
  push_neg at hcon
  have hsub : P.filter (fun x => Adj g w x) ⊆ (P.filter fun x => Adj g m x).erase u := by
    intro d hd
    obtain ⟨hdP, hdw⟩ := Finset.mem_filter.mp hd
    refine Finset.mem_erase.mpr ⟨?_, Finset.mem_filter.mpr ⟨hdP, hcon d hdP hdw⟩⟩
    rintro rfl
    exact hnadjw hdw
  have h1 : cnt g w P ≤ (P.filter fun x => Adj g m x).card - 1 := by
    have hc := Finset.card_le_card hsub
    rw [Finset.card_erase_of_mem (Finset.mem_filter.mpr ⟨hu, hadjm⟩)] at hc
    exact hc
  have h2 : 0 < (P.filter fun x => Adj g m x).card :=
    Finset.card_pos.mpr ⟨u, Finset.mem_filter.mpr ⟨hu, hadjm⟩⟩
  unfold cnt at hcard h1
  omega

theorem isCycle_of_chain {g : PyGraph} {q : List Nat} (hlen : 4 ≤ q.length)
    (hnd : q.Nodup) (hchain : List.Chain' (Adj g) q)
    (hclose : Adj g (q.getD (q.length - 1) 0) (q.getD 0 0)) : IsCycle g q := by
  refine ⟨hlen, hnd, ?_⟩
  intro i hi
  rcases Nat.lt_or_ge i (q.length - 1) with h | h
  · rw [Nat.mod_eq_of_lt (by omega)]
    have hstep := List.chain'_iff_get.mp hchain i (by omega)
    rw [List.getD_eq_getElem _ 0 hi, List.getD_eq_getElem _ 0 (by omega)]
    exact hstep
  · have he : i = q.length - 1 := by omega
    subst he
    have he2 : (q.length - 1 + 1) % q.length = 0 := by
      rw [Nat.sub_add_cancel (by omega), Nat.mod_self]
    rw [he2]
    exact hclose

theorem getLast?_take_succ {l : List Nat} {i : Nat} (h : i < l.length) :
    (l.take (i + 1)).getLast? = some l[i] := by
  have hlen : (l.take (i + 1)).length = i + 1 := by
    rw [List.length_take]
    omega
  have h2 : i < (l.take (i + 1)).length := by omega
  rw [List.getLast?_eq_getElem?, hlen, Nat.add_sub_cancel,
    List.getElem?_eq_getElem h2, List.getElem_take]

theorem getD_last_append {A B : List Nat} (hB : B ≠ []) :
    (A ++ B).getD ((A ++ B).length - 1) 0 = B.getD (B.length - 1) 0 := by
  have hBlen : 0 < B.length := List.length_pos.mpr hB
  have h1 : (A ++ B).length - 1 < (A ++ B).length := by
    rw [List.length_append]
    omega
  have h2 : B.length - 1 < B.length := by omega
  rw [List.getD_eq_getElem _ 0 h1, List.getD_eq_getElem _ 0 h2,
    List.getElem_append_right (by rw [List.length_append]; omega)]
  congr 1
  rw [List.length_append]
  omega

theorem nat_min_of_exists {P : Nat → Prop} (h : ∃ n, P n) :
    ∃ n, P n ∧ ∀ m, P m → n ≤ m := by
  by_contra hcon
  push_neg at hcon
  obtain ⟨n0, hn0⟩ := h
  suffices hs : ∀ n, ¬ P n from hs n0 hn0
  intro n
  induction n using Nat.strong_induction_on with
  | _ n IH =>
    intro hPn
    obtain ⟨m, hPm, hmlt⟩ := hcon n hPn
    exact IH m hmlt hPm

theorem exists_min_fillpath {g : PyGraph} {σ : List Nat} {u w : Nat}
    (hfp : FillPair g σ u w) :
    ∃ p, p.getD 0 0 = u ∧ p.getD (p.length - 1) 0 = w ∧ FillP g σ w p ∧
      ∀ q : List Nat, q.getD 0 0 = u → q.getD (q.length - 1) 0 = w →
        FillP g σ w q → p.length ≤ q.length := by
  obtain ⟨-, -, -, -, p0, h1, h2, h3⟩ := hfp
  obtain ⟨n, ⟨p, hplen, hh, hl, hf⟩, hmin⟩ := nat_min_of_exists
    (P := fun n => ∃ p : List Nat, p.length = n ∧ p.getD 0 0 = u ∧
      p.getD (p.length - 1) 0 = w ∧ FillP g σ w p)
    ⟨p0.length, p0, rfl, h1, h2, h3⟩
  refine ⟨p, hh, hl, hf, fun q hq1 hq2 hq3 => ?_⟩
  have hq := hmin q.length ⟨q, rfl, hq1, hq2, hq3⟩
  omega

theorem min_fillpath_props {g : PyGraph} {σ : List Nat} {u w : Nat}
    (huw : u ≠ w) (hnadj : ¬ Adj g u w)
    {p : List Nat} (hh : p.getD 0 0 = u) (hl : p.getD (p.length - 1) 0 = w)
    (hf : FillP g σ w p)
    (hmin : ∀ q : List Nat, q.getD 0 0 = u → q.getD (q.length - 1) 0 = w →
      FillP g σ w q → p.length ≤ q.length) :
    3 ≤ p.length ∧ p.Nodup ∧
      ∀ i j, i < p.length → j < p.length → i + 2 ≤ j →
        ¬ Adj g (p.getD i 0) (p.getD j 0) := by
  obtain ⟨hlen2, hchain, hlater⟩ := hf
  have hsplice : ∀ i j', i < j' → j' ≤ p.length → i < p.length →
      2 ≤ i + 1 + (p.length - j') →
      i + 1 + (p.length - j') < p.length →
      (j' = p.length → p.getD i 0 = w) →
      (j' < p.length → Adj g (p.getD i 0) (p.getD j' 0)) → False := by
    intro i j' hij hj'le hi h2q hshort hend hconn
    set q := p.take (i + 1) ++ p.drop j' with hq
    have hqlen : q.length = i + 1 + (p.length - j') := by
      rw [hq, List.length_append, List.length_take, List.length_drop]
      omega
    have hq0 : q.getD 0 0 = u := by
      rw [hq, getD_append_left (by rw [List.length_take]; omega),
        getD_take (by omega) (by omega)]
      exact hh
    have hqlast : q.getD (q.length - 1) 0 = w := by
      rcases Nat.lt_or_ge j' p.length with hlt | hge
      · have hdroplen : 0 < (p.drop j').length := by
          rw [List.length_drop]
          omega
        have hdropne : p.drop j' ≠ [] := List.length_pos.mp hdroplen
        rw [hq, getD_last_append hdropne]
        rw [List.getD_eq_getElem _ 0 (by omega), List.getElem_drop]
        have hidx : j' + ((p.drop j').length - 1) = p.length - 1 := by
          rw [List.length_drop]
          omega
        simp only [hidx]
        rw [← List.getD_eq_getElem p 0 (by omega)]
        exact hl
      · have hje : j' = p.length := by omega
        subst hje
        have hqq : q = p.take (i + 1) := by
          rw [hq, List.drop_length, List.append_nil]
        rw [hqq]
        have hlt2 : (p.take (i + 1)).length = i + 1 := by
          rw [List.length_take]
          omega
        rw [hlt2, Nat.add_sub_cancel, getD_take (by omega) hi]
        exact hend rfl
    have hqchain : List.Chain' (Adj g) q := by
      rcases Nat.lt_or_ge j' p.length with hlt | hge
      · refine List.Chain'.append (hchain.take (i + 1)) (hchain.drop j') ?_
        intro x hx y hy
        rw [getLast?_take_succ hi, Option.mem_def, Option.some_inj] at hx
        rw [List.head?_drop, List.getElem?_eq_getElem hlt, Option.mem_def,
          Option.some_inj] at hy
        subst hx
        subst hy
        have hca := hconn hlt
        rw [List.getD_eq_getElem _ 0 hi, List.getD_eq_getElem _ 0 hlt] at hca
        exact hca
      · have hje : j' = p.length := by omega
        subst hje
        have hqq : q = p.take (i + 1) := by
          rw [hq, List.drop_length, List.append_nil]
        rw [hqq]
        exact hchain.take (i + 1)
    have hint : ∀ z ∈ q, z ≠ q.getD 0 0 → z ≠ w → Later σ w z := by
      intro z hz hz0 hzw
      rw [hq, List.mem_append] at hz
      have hzp : z ∈ p := by
        rcases hz with hz | hz
        · exact List.mem_of_mem_take hz
        · exact List.mem_of_mem_drop hz
      refine hlater z hzp ?_ hzw
      rw [hh]
      rw [hq0] at hz0
      exact hz0
    have hcontra := hmin q hq0 hqlast ⟨by omega, hqchain, hint⟩
    omega
  have hc1 : 3 ≤ p.length := by
    by_contra hcon
    have hl2 : p.length = 2 := by omega
    have hadj01 := List.chain'_iff_get.mp hchain 0 (by omega)
    apply hnadj
    have h0 : p.get ⟨0, by omega⟩ = u := by
      rw [← hh, List.getD_eq_getElem _ 0 (by omega), List.get_eq_getElem]
    have h1 : p.get ⟨1, by omega⟩ = w := by
      rw [List.get_eq_getElem, ← List.getD_eq_getElem p 0 (by omega : (1:Nat) < p.length)]
      have h12 : (1:Nat) = p.length - 1 := by omega
      rw [h12]
      exact hl
    rw [h0, h1] at hadj01
    exact hadj01
  have hu0 : p.getD 0 0 = u := hh
  refine ⟨hc1, ?_, ?_⟩
  · rw [List.nodup_iff_getElem?_ne_getElem?]
    intro i j hij hjlen
    rw [List.getElem?_eq_getElem (by omega), List.getElem?_eq_getElem hjlen]
    intro hcon
    rw [Option.some_inj] at hcon
    rcases Nat.lt_or_ge (j + 1) p.length with hjlt | hjge
    · refine hsplice i (j + 1) (by omega) (by omega) (by omega) (by omega) (by omega)
        (fun hcon2 => absurd hcon2 (by omega)) (fun hlt2 => ?_)
      rw [List.getD_eq_getElem _ 0 (by omega), List.getD_eq_getElem _ 0 hlt2]
      rw [hcon]
      have hstep := List.chain'_iff_get.mp hchain j (by omega)
      rw [List.get_eq_getElem, List.get_eq_getElem] at hstep
      exact hstep
    · have hje : j = p.length - 1 := by omega
      have hpiw : p[i] = w := by
        rw [hcon]
        have hidx : j = p.length - 1 := by omega
        subst hidx
        have hlc := hl
        rw [List.getD_eq_getElem _ 0 (by omega)] at hlc
        exact hlc
      have hine : 1 ≤ i := by
        by_contra hi0
        have hi0e : i = 0 := by omega
        subst hi0e
        apply huw
        rw [← hh, List.getD_eq_getElem _ 0 (by omega)]
        exact hpiw
      refine hsplice i p.length (by omega) (le_refl _) (by omega) (by omega) (by omega)
        (fun _ => ?_) (fun hlt2 => absurd hlt2 (lt_irrefl _))
      rw [List.getD_eq_getElem _ 0 (by omega)]
      exact hpiw
  · intro i j hi hj hij2 hadj
    exact hsplice i j (by omega) (by omega) hi (by omega) (by omega)
      (fun he => absurd he (by omega)) (fun _ => hadj)

/-- Hard direction of the Tarjan–Yannakakis argument: along a
maximum-cardinality-search order of a chordal graph there is no fill pair.
The proof picks a minimal counterexample (smallest position of the later
endpoint, then shortest path) and either produces a smaller fill pair or a
chordless cycle. -/
theorem mcs_no_fill_pair {g : PyGraph} (hg : WF g) (hch : IsChordal g)
    {σ : List Nat} (hnd : σ.Nodup) (hmemσ : ∀ x ∈ σ, x ∈ g.nodes)
    (hmcs : MCSAt g σ) : ∀ u w, ¬ FillPair g σ u w := by
  suffices H : ∀ pw u w, σ.indexOf w = pw → ¬ FillPair g σ u w from
    fun u w hf => H (σ.indexOf w) u w rfl hf
  intro pw
  induction pw using Nat.strong_induction_on with
  | _ pw IH =>
    rintro u w hpw hfp
    obtain ⟨huσ, hwσ, hposuw, hnadjuw, -⟩ := id hfp
    have huw : u ≠ w := fun he => by rw [he] at hposuw; omega
    obtain ⟨p, hh, hl, hf, hmin⟩ := exists_min_fillpath hfp
    obtain ⟨hc1, hc2, hc3⟩ := min_fillpath_props huw hnadjuw hh hl hf hmin
    obtain ⟨hlen2, hchain, hlater⟩ := hf
    have hplen1 : p.length - 1 < p.length := by omega
    have hp0 : GetElem.getElem p 0 (by omega : 0 < p.length) = u := by
      rw [← hh, List.getD_eq_getElem _ 0 (by omega)]
    have hpml : GetElem.getElem p (p.length - 1) hplen1 = w := by
      rw [← hl, List.getD_eq_getElem _ 0 hplen1]
    -- the first interior vertex
    have h1lt : 1 < p.length := by omega
    set m1 := GetElem.getElem p 1 h1lt with hm1def
    have hm1adj : Adj g u m1 := by
      have hstep := List.chain'_iff_get.mp hchain 0 (by omega)
      rw [List.get_eq_getElem, List.get_eq_getElem] at hstep
      rw [← hp0]
      exact hstep
    have hm1nu : m1 ≠ u := by
      rw [hm1def, ← hp0]
      intro hcon
      have := hc2.getElem_inj_iff.mp hcon
      omega
    have hm1nw : m1 ≠ w := by
      rw [hm1def, ← hpml]
      intro hcon
      have := hc2.getElem_inj_iff.mp hcon
      omega
    have hm1later : Later σ w m1 := by
      refine hlater m1 (List.getElem_mem h1lt) ?_ hm1nw
      rw [hh]
      exact hm1nu
    have hm1nodes : m1 ∈ g.nodes := (adj_mem_nodes hg hm1adj).2
    set k := σ.indexOf w with hkdef
    have hK : k < σ.length := List.indexOf_lt_length.mpr hwσ
    have hσk : σ.getD k 0 = w := by
      rw [List.getD_eq_getElem _ 0 hK]
      exact List.getElem_indexOf hK
    have hm1notin : m1 ∉ σ.take k := by
      intro hmem
      obtain ⟨hm1σ, hm1lt⟩ := (mem_take_iff_indexOf hnd).mp hmem
      rcases hm1later with hout | hlt
      · exact hout hm1σ
      · omega
    have hcnt : cnt g m1 (σ.take k).toFinset ≤ cnt g w (σ.take k).toFinset := by
      have := hmcs k hK m1 hm1nodes hm1notin
      rw [hσk] at this
      exact this
    have huP : u ∈ (σ.take k).toFinset :=
      List.mem_toFinset.mpr ((mem_take_iff_indexOf hnd).mpr ⟨huσ, hposuw⟩)
    have hnwu : ¬ Adj g w u := fun h => hnadjuw h.symm
    obtain ⟨d, hdP, hdw, hdm1⟩ :=
      exists_extra_nbr hcnt huP hm1adj.symm hnwu
    obtain ⟨hdσ, hdlt⟩ := (mem_take_iff_indexOf hnd).mp (List.mem_toFinset.mp hdP)
    have hdnodes : d ∈ g.nodes := hmemσ d hdσ
    have hdnu : d ≠ u := by
      rintro rfl
      exact hnwu hdw
    have hdnw : d ≠ w := by
      rintro rfl
      exact wf_no_self_adj hg d hdw
    have hdnotp : d ∉ p := by
      intro hdp
      have hlaterd : Later σ w d := by
        refine hlater d hdp ?_ hdnw
        rw [hh]
        exact hdnu
      rcases hlaterd with hout | hlt
      · exact hout hdσ
      · omega
    by_cases hAdu : Adj g d u
    · -- a cycle through u, the path interior up to the first d-neighbour, and d
      have hTne : ∃ t, 2 ≤ t ∧ t < p.length ∧ Adj g d (p.getD t 0) := by
        refine ⟨p.length - 1, by omega, by omega, ?_⟩
        rw [hl]
        exact hdw.symm
      obtain ⟨t, ⟨ht2, htlen, htadj⟩, htmin⟩ := nat_min_of_exists hTne
      set A := p.take (t + 1) with hAdef
      have hAlen : A.length = t + 1 := by
        rw [hAdef, List.length_take]
        omega
      set cyc := A ++ [d] with hcyc
      have hcyclen : cyc.length = t + 2 := by
        rw [hcyc, List.length_append, hAlen]
        rfl
      have hcg : ∀ x, x < t + 1 → cyc.getD x 0 = p.getD x 0 := by
        intro x hx
        rw [hcyc, getD_append_left (by omega), hAdef, getD_take hx (by omega)]
      have hcd : cyc.getD (t + 1) 0 = d := by
        rw [hcyc, ← hAlen, getD_append_last]
      have hcycnd : cyc.Nodup := by
        rw [hcyc, List.nodup_append]
        refine ⟨(List.take_sublist _ _).nodup hc2, List.nodup_singleton d, ?_⟩
        intro a ha hamem
        rw [List.mem_singleton] at hamem
        subst hamem
        exact hdnotp (List.mem_of_mem_take ha)
      have hcycchain : List.Chain' (Adj g) cyc := by
        refine List.Chain'.append (hchain.take (t + 1)) (List.chain'_singleton d) ?_
        intro x hx y hy
        rw [hAdef, getLast?_take_succ (by omega : t < p.length), Option.mem_def,
          Option.some_inj] at hx
        rw [List.head?_cons, Option.mem_def, Option.some_inj] at hy
        subst hx
        subst hy
        have := htadj.symm
        rw [List.getD_eq_getElem _ 0 htlen] at this
        exact this
      have hcycle : IsCycle g cyc := by
        refine isCycle_of_chain (by omega) hcycnd hcycchain ?_
        have he1 : cyc.length - 1 = t + 1 := by omega
        rw [he1, hcd]
        have he0 : cyc.getD 0 0 = u := by
          rw [hcg 0 (by omega), hh]
        rw [he0]
        exact hAdu
      obtain ⟨a, haL, b, hbL, hab, hbnc, hanc, hadjab⟩ := hch cyc hcycle
      rw [hcyclen] at haL hbL
      have hkey : ∀ a b, a < b → b < t + 2 →
          b ≠ (a + 1) % cyc.length → a ≠ (b + 1) % cyc.length →
          Adj g (cyc.getD a 0) (cyc.getD b 0) → False := by
        intro a b hab2 hbL2 hbnc2 hanc2 hadjab2
        rw [hcyclen] at hbnc2 hanc2
        rcases Nat.lt_or_ge b (t + 1) with hbt | hbt
        · -- both endpoints on the path
          have hba : b ≠ a + 1 := by
            intro he
            apply hbnc2
            rw [Nat.mod_eq_of_lt (by omega)]
            exact he
          have hadjp : Adj g (p.getD a 0) (p.getD b 0) := by
            rw [← hcg a (by omega), ← hcg b (by omega)]
            exact hadjab2
          exact hc3 a b (by omega) (by omega) (by omega) hadjp
        · -- b is the extra vertex d
          have hbe : b = t + 1 := by omega
          subst hbe
          have hane0 : a ≠ 0 := by
            intro he
            apply hanc2
            rw [he]
            have : (t + 1 + 1) % (t + 2) = 0 := by
              have h2 : t + 1 + 1 = t + 2 := by omega
              rw [h2, Nat.mod_self]
            rw [this]
          have hanet : a ≠ t := by
            intro he
            apply hbnc2
            rw [he, Nat.mod_eq_of_lt (by omega)]
          have hadjpd : Adj g d (p.getD a 0) := by
            rw [← hcg a (by omega)]
            rw [hcd] at hadjab2
            exact hadjab2.symm
          rcases Nat.lt_or_ge a 2 with ha2 | ha2
          · -- a = 1 : contradiction with the missing edge to m1
            have hae : a = 1 := by omega
            subst hae
            apply hdm1
            have := hadjpd.symm
            rw [List.getD_eq_getElem _ 0 (by omega)] at this
            exact this
          · -- 2 ≤ a < t : contradiction with minimality of t
            have := htmin a ⟨ha2, by omega, hadjpd⟩
            omega
      rcases Nat.lt_or_ge a b with hab2 | hab2
      · exact hkey a b hab2 hbL hbnc hanc hadjab
      · have hba : b < a := by omega
        exact hkey b a hba haL hanc hbnc hadjab.symm
    · -- a fill pair with a smaller later endpoint
      have hdune : σ.indexOf d ≠ σ.indexOf u := by
        intro he
        exact hdnu ((List.indexOf_inj hdσ huσ).mp he)
      have hplast : p.getLast? = some w := by
        rw [List.getLast?_eq_getElem?, List.getElem?_eq_getElem hplen1, hpml]
      rcases Nat.lt_or_ge (σ.indexOf u) (σ.indexOf d) with hord | hord
      · -- pair (u, d) via the path p extended by d
        set q := p ++ [d] with hq
        have hq0 : q.getD 0 0 = u := by
          rw [hq, getD_append_left (by omega)]
          exact hh
        have hqlast : q.getD (q.length - 1) 0 = d := by
          have hle : q.length - 1 = p.length := by
            rw [hq, List.length_append]
            rfl
          rw [hle, hq, getD_append_last]
        have hqfill : FillP g σ d q := by
          refine ⟨by rw [hq, List.length_append]; omega, ?_, ?_⟩
          · refine List.Chain'.append hchain (List.chain'_singleton d) ?_
            intro x hx y hy
            rw [hplast, Option.mem_def, Option.some_inj] at hx
            rw [List.head?_cons, Option.mem_def, Option.some_inj] at hy
            subst hx
            subst hy
            exact hdw
          · intro z hz hz0 hzd
            rw [hq, List.mem_append, List.mem_singleton] at hz
            rcases hz with hz | hz
            · by_cases hzw : z = w
              · subst hzw
                exact Or.inr (by omega)
              · refine later_mono (by omega) (hlater z hz ?_ hzw)
                rw [hh]
                rw [hq0] at hz0
                exact hz0
            · exact absurd hz hzd
        have hfp2 : FillPair g σ u d :=
          ⟨huσ, hdσ, hord, fun h => hAdu h.symm, q, hq0, hqlast, hqfill⟩
        exact IH (σ.indexOf d) (by omega) u d rfl hfp2
      · -- pair (d, u) via the reversed path prefixed by d
        have hord2 : σ.indexOf d < σ.indexOf u := by omega
        set q := d :: p.reverse with hq
        have hq0 : q.getD 0 0 = d := by
          rw [hq]
          rfl
        have hqlast : q.getD (q.length - 1) 0 = u := by
          have hle : q.length - 1 = p.length := by
            rw [hq, List.length_cons, List.length_reverse]
            rfl
          rw [hle, hq]
          have hple : p.length = (p.length - 1) + 1 := by omega
          rw [hple, List.getD_cons_succ]
          have hrl : p.length - 1 < p.reverse.length := by
            rw [List.length_reverse]
            omega
          rw [List.getD_eq_getElem _ 0 hrl, List.getElem_reverse]
          have hidx : p.length - 1 - (p.length - 1) = 0 := by omega
          simp only [hidx]
          exact hp0
        have hqfill : FillP g σ u q := by
          refine ⟨by rw [hq, List.length_cons, List.length_reverse]; omega, ?_, ?_⟩
          · rw [hq, List.chain'_cons']
            refine ⟨?_, chain'_adj_reverse hchain⟩
            intro y hy
            rw [List.head?_reverse, hplast, Option.mem_def, Option.some_inj] at hy
            subst hy
            exact hdw.symm
          · intro z hz hz0 hzu
            rw [hq, List.mem_cons, List.mem_reverse] at hz
            rcases hz with hz | hz
            · rw [hq0] at hz0
              exact absurd hz hz0
            · by_cases hzw : z = w
              · subst hzw
                exact Or.inr (by omega)
              · by_cases hzu2 : z = u
                · exact absurd hzu2 hzu
                · refine later_mono (by omega) (hlater z hz ?_ hzw)
                  rw [hh]
                  exact hzu2
        have hfp2 : FillPair g σ d u :=
          ⟨hdσ, huσ, hord2, fun h => hAdu h, q, hq0, hqlast, hqfill⟩
        exact IH (σ.indexOf u) (by omega) d u rfl hfp2

/-- Hard direction, stated on orders: along any maximum-cardinality-search
order of a chordal graph, the earlier neighbours of every vertex are pairwise
adjacent. -/
theorem mcs_clean {g : PyGraph} (hg : WF g) (hch : IsChordal g)
    {σ : List Nat} (hnd : σ.Nodup) (hmemσ : ∀ x ∈ σ, x ∈ g.nodes)
    (hmcs : MCSAt g σ) : CleanAt g σ := by
  intro k hk x hx y hy hxy hax hay
  by_contra hnadj
  have hv : σ.getD k 0 = σ[k] := List.getD_eq_getElem _ 0 hk
  have hvk : σ.indexOf σ[k] = k := List.indexOf_getElem hnd k hk
  obtain ⟨hxσ, hxlt⟩ := (mem_take_iff_indexOf hnd).mp hx
  obtain ⟨hyσ, hylt⟩ := (mem_take_iff_indexOf hnd).mp hy
  have hpair : ∀ a b : Nat, a ∈ σ → b ∈ σ → σ.indexOf a < σ.indexOf b →
      σ.indexOf b < k → ¬ Adj g a b →
      Adj g a (σ.getD k 0) → Adj g b (σ.getD k 0) → False := by
    intro a b haσ hbσ hab hbk hnab haad hbad
    refine mcs_no_fill_pair hg hch hnd hmemσ hmcs a b
      ⟨haσ, hbσ, hab, hnab, [a, σ.getD k 0, b], rfl, rfl, ?_⟩
    refine ⟨by simp, ?_, ?_⟩
    · rw [List.chain'_cons, List.chain'_cons]
      exact ⟨haad, hbad.symm, List.chain'_singleton b⟩
    · intro z hz hz0 hzb
      have hz0e : z ≠ a := by
        intro he
        apply hz0
        rw [he]
        rfl
      rw [List.mem_cons, List.mem_cons, List.mem_singleton] at hz
      have hze : z = σ.getD k 0 := by
        rcases hz with he | he | he
        · exact absurd he hz0e
        · exact he
        · exact absurd he hzb
      subst hze
      right
      rw [hv, hvk]
      exact hbk
  have hxyne : σ.indexOf x ≠ σ.indexOf y := fun he =>
    hxy ((List.indexOf_inj hxσ hyσ).mp he)
  rcases Nat.lt_or_ge (σ.indexOf x) (σ.indexOf y) with h | h
  · exact hpair x y hxσ hyσ h hylt hnadj hax hay
  · exact hpair y x hyσ hxσ (by omega) hxlt (fun hc => hnadj hc.symm) hay hax

theorem dedupB_nodup {α : Type} {beq : α → α → Bool}
    (hbeq : ∀ a b, beq a b = true ↔ a = b) :
    ∀ l : List α, (dedupB beq l).Nodup := by
  intro l
  induction l with
  | nil => exact List.nodup_nil
  | cons y l ih =>
    unfold dedupB
    cases hany : l.any (beq y) with
    | true =>
      rw [cond_true]
      exact ih
    | false =>
      rw [cond_false, List.nodup_cons]
      refine ⟨?_, ih⟩
      intro hmem
      have hyl : y ∈ l := (mem_dedupB hbeq).mp hmem
      have : l.any (beq y) = true := List.any_eq_true.mpr ⟨y, hyl, (hbeq y y).mpr rfl⟩
      rw [hany] at this
      cases this

theorem is_complete_graph_ok_true {g2 : PyGraph} (hw : WF g2) :
    is_complete_graph g2 = Res.ok true ↔ CompleteOn g2 := by
  rw [is_complete_graph_eq hw]
  constructor
  · intro h
    injection h with h2
    exact of_decide_eq_true h2
  · intro h
    rw [decide_eq_true h]

theorem mem_cwbL {g : PyGraph} (hg : WF g) {numbered : List Nat} {v x : Nat} :
    x ∈ (sInsert v numbered).filter (fun y => memB y (nbrs g v)) ↔
      x ∈ numbered ∧ Adj g v x := by
  rw [List.mem_filter, memB_eq, mem_nbrs, mem_sInsert]
  constructor
  · rintro ⟨rfl | hx, hadj⟩
    · exact absurd hadj (wf_no_self_adj hg _)
    · exact ⟨hx, hadj⟩
  · rintro ⟨hx, hadj⟩
    exact ⟨Or.inr hx, hadj⟩

theorem binv_ext {g : PyGraph} (hg : WF g) {st : BSt} (hinv : BInv g st) {v : Nat}
    (hv : v ∈ maxCardinalityOutcomes g st.unnumbered st.numbered) :
    ∃ σ2 : List Nat, σ2.Nodup ∧ (∀ x, x ∈ σ2 ↔ x ∈ sInsert v st.numbered) ∧
      (∀ x ∈ σ2, x ∈ g.nodes) ∧ MCSAt g σ2 ∧ 0 < σ2.length ∧
      σ2.getD (σ2.length - 1) 0 = v ∧
      (∀ x, x ∈ σ2.take (σ2.length - 1) ↔ x ∈ st.numbered) ∧
      ((∀ x ∈ st.numbered, Adj g v x → ∀ y ∈ st.numbered, Adj g v y →
          x ≠ y → Adj g x y) → CleanAt g σ2) := by
  obtain ⟨hun_nd, hun_iff, σ, hσnd, hσiff, hσnodes, hmcs, hclean⟩ := hinv
  obtain ⟨hvun, hvmax⟩ := mem_maxCardinalityOutcomes.mp hv
  obtain ⟨hvnodes, hvnum⟩ := (hun_iff v).mp hvun
  have hvσ : v ∉ σ := fun h => hvnum ((hσiff v).mp h)
  refine ⟨σ ++ [v], ?_, ?_, ?_, ?_, ?_, ?_, ?_, ?_⟩
  · rw [List.nodup_append]
    refine ⟨hσnd, List.nodup_singleton v, ?_⟩
    intro a ha hamem
    rw [List.mem_singleton] at hamem
    subst hamem
    exact hvσ ha
  · intro x
    rw [List.mem_append, List.mem_singleton, mem_sInsert, hσiff]
    tauto
  · intro x hx
    rw [List.mem_append, List.mem_singleton] at hx
    rcases hx with hx | rfl
    · exact hσnodes x hx
    · exact hvnodes
  · intro k hk y hynodes hyt
    rw [List.length_append, List.length_singleton] at hk
    rcases Nat.lt_or_ge k σ.length with hks | hks
    · rw [List.take_append_of_le_length (by omega)] at hyt ⊢
      rw [getD_append_left hks]
      exact hmcs k hks y hynodes hyt
    · have hke : k = σ.length := by omega
      subst hke
      rw [List.take_left'] at hyt ⊢
      · have hynum : y ∉ st.numbered := fun h => hyt ((hσiff y).mpr h)
        have hyun : y ∈ st.unnumbered := (hun_iff y).mpr ⟨hynodes, hynum⟩
        have hineq := hvmax y hyun
        rw [nbCount_eq_cnt hg y st.numbered, nbCount_eq_cnt hg v st.numbered] at hineq
        have hset : σ.toFinset = st.numbered.toFinset := by
          ext a
          rw [List.mem_toFinset, List.mem_toFinset, hσiff]
        rw [← hset] at hineq
        have hgd : (σ ++ [v]).getD σ.length 0 = v := getD_append_last
        rw [hgd]
        exact hineq
      · rfl
      · rfl
  · rw [List.length_append, List.length_singleton]
    omega
  · have hlen : (σ ++ [v]).length - 1 = σ.length := by
      rw [List.length_append, List.length_singleton]
      omega
    rw [hlen]
    exact getD_append_last
  · intro x
    have hlen : (σ ++ [v]).length - 1 = σ.length := by
      rw [List.length_append, List.length_singleton]
      omega
    rw [hlen, List.take_left' rfl, hσiff]
  · intro hlast
    intro k hk x hx y hy hxy hax hay
    rw [List.length_append, List.length_singleton] at hk
    rcases Nat.lt_or_ge k σ.length with hks | hks
    · rw [List.take_append_of_le_length (by omega)] at hx hy
      rw [getD_append_left hks] at hax hay
      exact hclean k hks x hx y hy hxy hax hay
    · have hke : k = σ.length := by omega
      subst hke
      rw [List.take_left' rfl] at hx hy
      have hgd : (σ ++ [v]).getD σ.length 0 = v := getD_append_last
      rw [hgd] at hax hay
      exact hlast x ((hσiff x).mp hx) hax.symm y ((hσiff y).mp hy) hay.symm hxy

theorem binv_chordal_complete {g : PyGraph} (hg : WF g) (hch : IsChordal g)
    {st : BSt} (hinv : BInv g st) {v : Nat}
    (hv : v ∈ maxCardinalityOutcomes g st.unnumbered st.numbered) :
    is_complete_graph (subgraphF g
      ((sInsert v st.numbered).filter fun y => memB y (nbrs g v))) = Res.ok true := by
  obtain ⟨σ2, hnd2, hiff2, hnodes2, hmcs2, hpos2, hlast2, htake2, -⟩ :=
    binv_ext hg hinv hv
  have hclean2 : CleanAt g σ2 := mcs_clean hg hch hnd2 hnodes2 hmcs2
  rw [is_complete_graph_ok_true (wf_subgraphF hg _)]
  intro a ha b hb hab
  rw [mem_nodes_subgraphF] at ha hb
  obtain ⟨hag, hacwb⟩ := ha
  obtain ⟨hbg, hbcwb⟩ := hb
  rw [mem_cwbL hg] at hacwb hbcwb
  have hka : a ∈ σ2.take (σ2.length - 1) := (htake2 a).mpr hacwb.1
  have hkb : b ∈ σ2.take (σ2.length - 1) := (htake2 b).mpr hbcwb.1
  have hadjab : Adj g a b := by
    refine hclean2 (σ2.length - 1) (by omega) a hka b hkb hab ?_ ?_
    · rw [hlast2]
      exact hacwb.2.symm
    · rw [hlast2]
      exact hbcwb.2.symm
  refine adj_subgraphF.mpr ⟨hadjab, ?_, ?_⟩
  · rw [mem_cwbL hg]
    exact hacwb
  · rw [mem_cwbL hg]
    exact hbcwb

theorem binv_branch_more {g : PyGraph} (hg : WF g) {st : BSt} (hinv : BInv g st)
    {v : Nat} (hv : v ∈ maxCardinalityOutcomes g st.unnumbered st.numbered)
    (hcomp : is_complete_graph (subgraphF g
      ((sInsert v st.numbered).filter fun y => memB y (nbrs g v))) = Res.ok true)
    (tw2 : Option Nat) :
    BInv g ⟨st.unnumbered.erase v, sInsert v st.numbered, tw2⟩ := by
  obtain ⟨σ2, hnd2, hiff2, hnodes2, hmcs2, hpos2, hlast2, htake2, hcleanext⟩ :=
    binv_ext hg hinv hv
  obtain ⟨hun_nd, hun_iff, -⟩ := hinv
  have hCon : CompleteOn (subgraphF g
      ((sInsert v st.numbered).filter fun y => memB y (nbrs g v))) :=
    (is_complete_graph_ok_true (wf_subgraphF hg _)).mp hcomp
  refine ⟨hun_nd.erase v, ?_, σ2, hnd2, hiff2, hnodes2, hmcs2, ?_⟩
  · intro x
    dsimp only
    rw [hun_nd.mem_erase_iff, hun_iff, mem_sInsert]
    constructor
    · rintro ⟨hne, hxg, hxn⟩
      refine ⟨hxg, ?_⟩
      rintro (rfl | hx)
      · exact hne rfl
      · exact hxn hx
    · rintro ⟨hxg, hxn⟩
      exact ⟨fun he => hxn (Or.inl he), hxg, fun hx => hxn (Or.inr hx)⟩
  · refine hcleanext ?_
    intro x hxn hxa y hyn hya hxy
    have hxg : x ∈ g.nodes := (adj_mem_nodes hg hxa).2
    have hyg : y ∈ g.nodes := (adj_mem_nodes hg hya).2
    have hxc : x ∈ (subgraphF g
        ((sInsert v st.numbered).filter fun y => memB y (nbrs g v))).nodes := by
      rw [mem_nodes_subgraphF, mem_cwbL hg]
      exact ⟨hxg, hxn, hxa⟩
    have hyc : y ∈ (subgraphF g
        ((sInsert v st.numbered).filter fun y => memB y (nbrs g v))).nodes := by
      rw [mem_nodes_subgraphF, mem_cwbL hg]
      exact ⟨hyg, hyn, hya⟩
    exact (adj_subgraphF.mp (hCon x hxc y hyc hxy)).1

theorem binv_init {g : PyGraph} {s : Option Nat} {st : BSt}
    (hst : BNode.more st ∈ breakerInit g s) : BInv g st := by
  have hmk : ∀ s0, s0 ∈ g.nodes →
      BInv g ⟨(dedupB Nat.beq g.nodes).erase s0, [s0], none⟩ := by
    intro s0 hs0
    have hdnd : (dedupB Nat.beq g.nodes).Nodup := dedupB_nodup natBeqA g.nodes
    refine ⟨hdnd.erase s0, ?_, [s0], List.nodup_singleton s0,
      fun x => Iff.rfl, ?_, ?_, ?_⟩
    · intro x
      dsimp only
      rw [hdnd.mem_erase_iff, mem_dedupB natBeqA, List.mem_singleton]
      tauto
    · intro x hx
      rw [List.mem_singleton] at hx
      subst hx
      exact hs0
    · intro k hk y hynodes hyt
      have hk0 : k = 0 := by
        rw [List.length_singleton] at hk
        omega
      subst hk0
      rw [List.take_zero]
      simp [cnt]
    · intro k hk x hx
      have hk0 : k = 0 := by
        rw [List.length_singleton] at hk
        omega
      subst hk0
      rw [List.take_zero] at hx
      cases hx
  match s with
  | some s0 =>
    unfold breakerInit at hst
    dsimp only at hst
    by_cases h : s0 ∈ g.nodes
    · rw [if_pos h, List.mem_singleton] at hst
      cases hst
      exact hmk s0 h
    · rw [if_neg h, List.mem_singleton] at hst
      cases hst
  | none =>
    unfold breakerInit at hst
    dsimp only at hst
    by_cases h : g.nodes = []
    · rw [if_pos h, List.mem_singleton] at hst
      cases hst
    · rw [if_neg h, List.mem_map] at hst
      obtain ⟨s0, hs0, heq⟩ := hst
      cases heq
      exact hmk s0 ((mem_dedupB natBeqA).mp hs0)

theorem breakerInit_more_some {g : PyGraph} {s0 : Nat} (h : s0 ∈ g.nodes) :
    ∀ n ∈ breakerInit g (some s0), ∃ st, n = BNode.more st := by
  intro n hn
  unfold breakerInit at hn
  dsimp only at hn
  rw [if_pos h, List.mem_singleton] at hn
  exact ⟨_, hn⟩

theorem breakerInit_more_none {g : PyGraph} (h : g.nodes ≠ []) :
    ∀ n ∈ breakerInit g none, ∃ st, n = BNode.more st := by
  intro n hn
  unfold breakerInit at hn
  dsimp only at hn
  rw [if_neg h, List.mem_map] at hn
  obtain ⟨s0, hs0, heq⟩ := hn
  exact ⟨_, heq.symm⟩

theorem eq_singleton_of_all {α : Type} {l : List α} {x : α} (hnd : l.Nodup)
    (hne : l ≠ []) (hall : ∀ r ∈ l, r = x) : l = [x] := by
  match l with
  | [] => exact absurd rfl hne
  | a :: t =>
    have ha : a = x := hall a (List.mem_cons_self _ _)
    subst ha
    match t with
    | [] => rfl
    | b :: t2 =>
      have hb : b = a := hall b (List.mem_cons_of_mem _ (List.mem_cons_self _ _))
      subst hb
      rw [List.nodup_cons] at hnd
      exact absurd (List.mem_cons_self _ _) hnd.1

theorem breaker_outcomes_chordal {g : PyGraph} (hg : WF g) (hch : IsChordal g)
    {s : Option Nat}
    (hvalid : ∀ n ∈ breakerInit g s, ∃ st, n = BNode.more st) :
    ∀ r ∈ find_chordality_breaker g s none, r = Res.ok none := by
  intro r hr
  rw [mem_find_chordality_breaker] at hr
  have hP := breaker_invariant g s none
    (fun n => (∃ st, n = BNode.more st ∧ BInv g st) ∨ n = BNode.done (Res.ok none))
    ?hinit ?hstep (g.nodes.length + 1) (BNode.done r) hr
  case hinit =>
    intro n hn
    obtain ⟨st, rfl⟩ := hvalid n hn
    exact Or.inl ⟨st, rfl, binv_init hn⟩
  case hstep =>
    intro st hPst n hn
    have hinv : BInv g st := by
      rcases hPst with ⟨st2, heq, hinv⟩ | heq
      · injection heq with h2
        rw [h2]
        exact hinv
      · exact absurd heq (fun h => BNode.noConfusion h)
    rcases breakerStep_cases hn with ⟨hemp, rfl⟩ | ⟨v, hvun, hvmax, hcases⟩
    · exact Or.inr rfl
    · have hv : v ∈ maxCardinalityOutcomes g st.unnumbered st.numbered :=
        mem_maxCardinalityOutcomes.mpr ⟨hvun, hvmax⟩
      have hcomp := binv_chordal_complete hg hch hinv hv
      rcases hcases with ⟨hic, hsub⟩ | ⟨hic, p, hp, rfl⟩ | ⟨e, hic, rfl⟩
      · rcases hsub with ⟨hb, rfl⟩ | ⟨hb, rfl⟩
        · exact Or.inl ⟨_, rfl, binv_branch_more hg hinv hv hic _⟩
        · unfold boundLt at hb
          cases hb
      · rw [hcomp] at hic
        injection hic with h2
        cases h2
      · rw [hcomp] at hic
        cases hic
  rcases hP with ⟨st, heq, -⟩ | heq
  · exact absurd heq (fun h => BNode.noConfusion h)
  · exact BNode.done.inj heq

theorem breaker_outcomes_nonchordal {g : PyGraph} (hg : WF g)
    (hch : ¬ IsChordal g) {s : Option Nat}
    (hvalid : ∀ n ∈ breakerInit g s, ∃ st, n = BNode.more st) :
    ∀ r ∈ find_chordality_breaker g s none, ∃ tr, r = Res.ok (some tr) := by
  intro r hr
  rw [mem_find_chordality_breaker] at hr
  have hP := breaker_invariant g s none
    (fun n => (∃ st, n = BNode.more st ∧ BInv g st) ∨
      ∃ tr, n = BNode.done (Res.ok (some tr)))
    ?hinit ?hstep (g.nodes.length + 1) (BNode.done r) hr
  case hinit =>
    intro n hn
    obtain ⟨st, rfl⟩ := hvalid n hn
    exact Or.inl ⟨st, rfl, binv_init hn⟩
  case hstep =>
    intro st hPst n hn
    have hinv : BInv g st := by
      rcases hPst with ⟨st2, heq, hinv⟩ | ⟨tr, heq⟩
      · injection heq with h2
        rw [h2]
        exact hinv
      · exact absurd heq (fun h => BNode.noConfusion h)
    rcases breakerStep_cases hn with ⟨hemp, rfl⟩ | ⟨v, hvun, hvmax, hcases⟩
    · exfalso
      obtain ⟨hun_nd, hun_iff, σ, hσnd, hσiff, hσnodes, hmcs, hclean⟩ := hinv
      apply hch
      refine clean_order_chordal hg hσnd ?_ hclean
      intro x hx
      by_cases hxn : x ∈ st.numbered
      · exact (hσiff x).mpr hxn
      · have := (hun_iff x).mpr ⟨hx, hxn⟩
        rw [hemp] at this
        cases this
    · have hv : v ∈ maxCardinalityOutcomes g st.unnumbered st.numbered :=
        mem_maxCardinalityOutcomes.mpr ⟨hvun, hvmax⟩
      rcases hcases with ⟨hic, hsub⟩ | ⟨hic, p, hp, rfl⟩ | ⟨e, hic, rfl⟩
      · rcases hsub with ⟨hb, rfl⟩ | ⟨hb, rfl⟩
        · exact Or.inl ⟨_, rfl, binv_branch_more hg hinv hv hic _⟩
        · unfold boundLt at hb
          cases hb
      · exact Or.inr ⟨_, rfl⟩
      · rw [is_complete_graph_eq (wf_subgraphF hg _)] at hic
        cases hic
  rcases hP with ⟨st, heq, -⟩ | ⟨tr, heq⟩
  · exact absurd heq (fun h => BNode.noConfusion h)
  · exact ⟨tr, BNode.done.inj heq⟩

theorem find_chordality_breaker_nodup (g : PyGraph) (s bound : Option Nat) :
    (find_chordality_breaker g s bound).Nodup := by
  unfold find_chordality_breaker
  exact dedupB_nodup (beqRes_iff beqTriple_iff) _

theorem is_chordal_nodup (g : PyGraph) : (is_chordal g).Nodup := by
  unfold is_chordal
  by_cases h1 : g.directed = true
  · rw [if_pos h1]
    exact List.nodup_singleton _
  · rw [if_neg h1]
    by_cases h2 : g.multigraph = true
    · rw [if_pos h2]
      exact List.nodup_singleton _
    · rw [if_neg h2]
      exact dedupB_nodup (beqRes_iff beqBool_iff) _

theorem is_chordal_eq_true {g : PyGraph} (hg : WF g) (hdir : g.directed = false)
    (hmul : g.multigraph = false) (hne : g.nodes ≠ []) (hch : IsChordal g) :
    is_chordal g = [Res.ok true] := by
  refine eq_singleton_of_all (is_chordal_nodup g) ?_ ?_
  · unfold is_chordal
    rw [hdir, if_neg (by simp), hmul, if_neg (by simp)]
    apply dedupB_ne_nil (beqRes_iff beqBool_iff)
    rw [Ne, List.map_eq_nil_iff]
    exact find_chordality_breaker_ne_nil hg none none
  · intro r hr
    unfold is_chordal at hr
    rw [hdir, if_neg (by simp), hmul, if_neg (by simp)] at hr
    rw [mem_dedupB (beqRes_iff beqBool_iff), List.mem_map] at hr
    obtain ⟨r0, hr0, rfl⟩ := hr
    have := breaker_outcomes_chordal hg hch (breakerInit_more_none hne) r0 hr0
    subst this
    rfl

theorem is_chordal_eq_false {g : PyGraph} (hg : WF g) (hdir : g.directed = false)
    (hmul : g.multigraph = false) (hne : g.nodes ≠ []) (hch : ¬ IsChordal g) :
    is_chordal g = [Res.ok false] := by
  refine eq_singleton_of_all (is_chordal_nodup g) ?_ ?_
  · unfold is_chordal
    rw [hdir, if_neg (by simp), hmul, if_neg (by simp)]
    apply dedupB_ne_nil (beqRes_iff beqBool_iff)
    rw [Ne, List.map_eq_nil_iff]
    exact find_chordality_breaker_ne_nil hg none none
  · intro r hr
    unfold is_chordal at hr
    rw [hdir, if_neg (by simp), hmul, if_neg (by simp)] at hr
    rw [mem_dedupB (beqRes_iff beqBool_iff), List.mem_map] at hr
    obtain ⟨r0, hr0, rfl⟩ := hr
    obtain ⟨tr, htr⟩ :=
      breaker_outcomes_nonchordal hg hch (breakerInit_more_none hne) r0 hr0
    subst htr
    rfl

theorem mem_cliqueStepAll {g : PyGraph} {l : List CNode} {n : CNode} :
    n ∈ cliqueStepAll g l ↔ ∃ m ∈ l,
      n ∈ (match m with
        | CNode.more st => cliqueStep g st
        | CNode.done r => [CNode.done r]) := by
  unfold cliqueStepAll
  rw [mem_dedupB beqCNode_iff, List.mem_flatMap]

theorem clique_invariant (g : PyGraph) (init : List CNode) (P : CNode → Prop)
    (hinit : ∀ n ∈ init, P n)
    (hstep : ∀ st, P (.more st) → ∀ n ∈ cliqueStep g st, P n) :
    ∀ k, ∀ n ∈ (cliqueStepAll g)^[k] init, P n := by
  intro k
  induction k with
  | zero => exact hinit
  | succ k ih =>
    intro n hn
    rw [Function.iterate_succ_apply', mem_cliqueStepAll] at hn
    obtain ⟨m, hm, hn⟩ := hn
    match m with
    | CNode.more st => exact hstep st (ih _ hm) n hn
    | CNode.done r =>
      rw [List.mem_singleton] at hn
      subst hn
      exact ih _ hm

theorem cliqueStep_cases {g : PyGraph} {st : CSt} {n : CNode}
    (hn : n ∈ cliqueStep g st) :
    (st.unnumbered = [] ∧ n = .done (.ok (insertClique st.cwb st.cliques))) ∨
    ∃ v, v ∈ st.unnumbered ∧
      (∀ y ∈ st.unnumbered, nbCount g y st.numbered ≤ nbCount g v st.numbered) ∧
      ((is_complete_graph (subgraphF g st.cwb) = .ok true ∧
         n = .more ⟨st.unnumbered.erase v, sInsert v st.numbered,
           sInsert v ((sInsert v st.numbered).filter fun y => memB y (nbrs g v)),
           if st.cwb.all (fun y => memB y (sInsert v ((sInsert v st.numbered).filter
               fun y => memB y (nbrs g v))))
             then st.cliques else insertClique st.cwb st.cliques⟩) ∨
       (is_complete_graph (subgraphF g st.cwb) = .ok false ∧
         n = .done (.error .nonChordal)) ∨
       (∃ e, is_complete_graph (subgraphF g st.cwb) = .error e ∧
         n = .done (.error e))) := by
  unfold cliqueStep at hn
  by_cases hemp : st.unnumbered = []
  · rw [if_pos hemp, List.mem_singleton] at hn
    exact Or.inl ⟨hemp, hn⟩
  · rw [if_neg hemp, List.mem_flatMap] at hn
    obtain ⟨v, hv, hn⟩ := hn
    obtain ⟨hv1, hv2⟩ := mem_maxCardinalityOutcomes.mp hv
    refine Or.inr ⟨v, hv1, hv2, ?_⟩
    unfold cliqueBranch at hn
    dsimp only at hn
    cases hic : is_complete_graph (subgraphF g st.cwb) with
    | ok b =>
      rw [hic] at hn
      cases b with
      | true =>
        dsimp only at hn
        rw [List.mem_singleton] at hn
        exact Or.inl ⟨rfl, hn⟩
      | false =>
        dsimp only at hn
        rw [List.mem_singleton] at hn
        exact Or.inr (Or.inl ⟨rfl, hn⟩)
    | error e =>
      rw [hic] at hn
      dsimp only at hn
      rw [List.mem_singleton] at hn
      exact Or.inr (Or.inr ⟨e, rfl, hn⟩)

theorem insertCliqueAux_ne_nil (c : List Nat) (cs : List (List Nat)) :
    insertCliqueAux c cs ≠ [] := by
  intro hcon
  have hlen := congrArg List.length hcon
  rw [(insertCliqueAux_perm c cs).length_eq, List.length_cons] at hlen
  simp at hlen

theorem insertClique_ne_nil (c : List Nat) (cs : List (List Nat)) :
    insertClique c cs ≠ [] := by
  unfold insertClique
  by_cases h : c ∈ cs
  · rw [if_pos h]
    intro hcon
    rw [hcon] at h
    exact absurd h (List.not_mem_nil _)
  · rw [if_neg h]
    exact insertCliqueAux_ne_nil c cs

theorem cinv_step {g : PyGraph} (hg : WF g) (hch : IsChordal g) {st : CSt}
    (hinv : CInv g st) : ∀ n ∈ cliqueStep g st,
    (∀ st2, n = CNode.more st2 → CInv g st2) ∧
    (∀ cs, n = CNode.done (Res.ok cs) →
      cs ≠ [] ∧ ∀ c ∈ cs, IsCliqueList g c ∧ c ≠ []) := by
  intro n hn
  obtain ⟨hun_nd, hun_iff, hcwbcl, hcwbne, hcliques, σ, hσnd, hσiff, hσnodes, hmcs⟩ := hinv
  have hcompT : is_complete_graph (subgraphF g st.cwb) = Res.ok true := by
    rw [is_complete_graph_ok_true (wf_subgraphF hg _)]
    intro a ha b hb hab
    rw [mem_nodes_subgraphF] at ha hb
    exact adj_subgraphF.mpr ⟨hcwbcl a ha.2 b hb.2 hab, ha.2, hb.2⟩
  rcases cliqueStep_cases hn with ⟨hemp, rfl⟩ | ⟨v, hvun, hvmax, hcases⟩
  · refine ⟨fun st2 h => CNode.noConfusion h, fun cs h => ?_⟩
    have hcs : cs = insertClique st.cwb st.cliques :=
      Res.ok.inj (CNode.done.inj h.symm)
    subst hcs
    refine ⟨insertClique_ne_nil _ _, ?_⟩
    intro c hc
    rw [mem_insertClique] at hc
    rcases hc with rfl | hc
    · exact ⟨hcwbcl, hcwbne⟩
    · exact hcliques c hc
  · have hv : v ∈ maxCardinalityOutcomes g st.unnumbered st.numbered :=
      mem_maxCardinalityOutcomes.mpr ⟨hvun, hvmax⟩
    have hbinv : BInv g ⟨st.unnumbered, st.numbered, none⟩ :=
      ⟨hun_nd, hun_iff, σ, hσnd, hσiff, hσnodes, hmcs,
        mcs_clean hg hch hσnd hσnodes hmcs⟩
    obtain ⟨σ2, hnd2, hiff2, hnodes2, hmcs2, hpos2, hlast2, htake2, -⟩ :=
      binv_ext hg hbinv hv
    have hnewclique : IsCliqueList g
        (sInsert v ((sInsert v st.numbered).filter fun y => memB y (nbrs g v))) := by
      have hclean2 : CleanAt g σ2 := mcs_clean hg hch hnd2 hnodes2 hmcs2
      intro a ha b hb hab
      rw [mem_sInsert, mem_cwbL hg] at ha hb
      rcases ha with rfl | ⟨han, haa⟩
      · rcases hb with rfl | ⟨hbn, hba⟩
        · exact absurd rfl hab
        · exact hba
      · rcases hb with rfl | ⟨hbn, hba⟩
        · exact haa.symm
        · refine hclean2 (σ2.length - 1) (by omega) a ((htake2 a).mpr han)
            b ((htake2 b).mpr hbn) hab ?_ ?_
          · rw [hlast2]
            exact haa.symm
          · rw [hlast2]
            exact hba.symm
    rcases hcases with ⟨hic, rfl⟩ | ⟨hic, rfl⟩ | ⟨e, hic, rfl⟩
    · refine ⟨fun st2 h => ?_, fun cs h => CNode.noConfusion h⟩
      have hst2 := CNode.more.inj h
      subst hst2
      refine ⟨hun_nd.erase v, ?_, hnewclique, ?_, ?_, σ2, hnd2, hiff2, hnodes2, hmcs2⟩
      · intro x
        dsimp only
        rw [hun_nd.mem_erase_iff, hun_iff, mem_sInsert]
        constructor
        · rintro ⟨hne, hxg, hxn⟩
          refine ⟨hxg, ?_⟩
          rintro (rfl | hx)
          · exact hne rfl
          · exact hxn hx
        · rintro ⟨hxg, hxn⟩
          exact ⟨fun he => hxn (Or.inl he), hxg, fun hx => hxn (Or.inr hx)⟩
      · dsimp only
        intro hcon
        have hvm : v ∈ ([] : List Nat) := by
          rw [← hcon, mem_sInsert]
          exact Or.inl rfl
        exact absurd hvm (List.not_mem_nil _)
      · dsimp only
        intro c hc
        split at hc
        · exact hcliques c hc
        · rw [mem_insertClique] at hc
          rcases hc with rfl | hc
          · exact ⟨hcwbcl, hcwbne⟩
          · exact hcliques c hc
    · rw [hcompT] at hic
      have hb := Res.ok.inj hic
      cases hb
    · rw [hcompT] at hic
      cases hic

theorem cccs_outcome {c : PyGraph} (hw : WF c) (hch : IsChordal c)
    (hne : c.nodes ≠ []) :
    ∀ r ∈ connected_chordal_graph_cliques c, ∃ cs, r = Res.ok cs ∧ cs ≠ [] ∧
      ∀ cl ∈ cs, IsCliqueList c cl ∧ cl ≠ [] := by
  intro r hr
  unfold connected_chordal_graph_cliques at hr
  by_cases h1 : c.nodes.length = 1
  · rw [if_pos h1, List.mem_singleton] at hr
    subst hr
    refine ⟨_, rfl, List.cons_ne_nil _ _, ?_⟩
    intro cl hcl
    rw [List.mem_singleton] at hcl
    subst hcl
    refine ⟨?_, dedupB_ne_nil natBeqA hne⟩
    intro a ha b hb hab
    exfalso
    apply hab
    rw [mem_dedupB natBeqA] at ha hb
    obtain ⟨x, t, hxt⟩ := List.exists_cons_of_ne_nil hne
    have ht : t = [] := by
      have hlt := congrArg List.length hxt
      rw [h1, List.length_cons] at hlt
      exact List.length_eq_zero.mp (by omega)
    subst ht
    rw [hxt, List.mem_singleton] at ha hb
    rw [ha, hb]
  · rw [if_neg h1] at hr
    by_cases h2 : c.nodes = []
    · exact absurd h2 hne
    · rw [if_neg h2] at hr
      rw [mem_dedupB (beqRes_iff beqLLN_iff), List.mem_filterMap] at hr
      obtain ⟨n, hn, hnr⟩ := hr
      have hP := clique_invariant c
        ((dedupB Nat.beq c.nodes).map fun v =>
          CNode.more ⟨(dedupB Nat.beq c.nodes).erase v, [v], [v], []⟩)
        (fun n => (∃ st, n = CNode.more st ∧ CInv c st) ∨
          (∃ cs, n = CNode.done (Res.ok cs) ∧ cs ≠ [] ∧
            ∀ cl ∈ cs, IsCliqueList c cl ∧ cl ≠ []))
        ?hinit ?hstep (c.nodes.length + 1) n hn
      case hinit =>
        intro n2 hn2
        rw [List.mem_map] at hn2
        obtain ⟨v, hv, heq⟩ := hn2
        have hvnodes : v ∈ c.nodes := (mem_dedupB natBeqA).mp hv
        have hdnd : (dedupB Nat.beq c.nodes).Nodup := dedupB_nodup natBeqA c.nodes
        refine Or.inl ⟨_, heq.symm, hdnd.erase v, ?_, ?_, ?_, ?_, [v],
          List.nodup_singleton v, fun x => Iff.rfl, ?_, ?_⟩
        · intro x
          rw [hdnd.mem_erase_iff, mem_dedupB natBeqA, List.mem_singleton]
          tauto
        · intro a ha b hb hab
          rw [List.mem_singleton] at ha hb
          exact absurd (ha.trans hb.symm) hab
        · intro hcon
          cases hcon
        · intro cl hcl
          cases hcl
        · intro x hx
          rw [List.mem_singleton] at hx
          subst hx
          exact hvnodes
        · intro k hk y hynodes hyt
          have hk0 : k = 0 := by
            rw [List.length_singleton] at hk
            omega
          subst hk0
          rw [List.take_zero]
          simp [cnt]
      case hstep =>
        intro st hPst n2 hn2
        have hinv : CInv c st := by
          rcases hPst with ⟨st2, heq, hinv⟩ | ⟨cs, heq, -⟩
          · have h3 := CNode.more.inj heq
            rw [← h3] at hinv
            exact hinv
          · exact absurd heq (fun h => CNode.noConfusion h)
        obtain ⟨hmore, hdone⟩ := cinv_step hw hch hinv n2 hn2
        match n2 with
        | CNode.more st2 => exact Or.inl ⟨st2, rfl, hmore st2 rfl⟩
        | CNode.done (Res.ok cs) =>
          obtain ⟨hcsne, hcs⟩ := hdone cs rfl
          exact Or.inr ⟨cs, rfl, hcsne, hcs⟩
        | CNode.done (Res.error e) =>
          exfalso
          rcases cliqueStep_cases hn2 with ⟨hemp, heq⟩ | ⟨v, hvun, hvmax, hcases⟩
          · exact Res.noConfusion (CNode.done.inj heq)
          · obtain ⟨-, -, hcwbcl, -, -, -⟩ := hinv
            have hcompT : is_complete_graph (subgraphF c st.cwb) = Res.ok true := by
              rw [is_complete_graph_ok_true (wf_subgraphF hw _)]
              intro a ha b hb hab
              rw [mem_nodes_subgraphF] at ha hb
              exact adj_subgraphF.mpr ⟨hcwbcl a ha.2 b hb.2 hab, ha.2, hb.2⟩
            rcases hcases with ⟨hic, heq⟩ | ⟨hic, heq⟩ | ⟨e2, hic, heq⟩
            · exact CNode.noConfusion heq
            · rw [hcompT] at hic
              exact Bool.noConfusion (Res.ok.inj hic)
            · rw [hcompT] at hic
              exact Res.noConfusion hic
      rcases hP with ⟨st, heq, -⟩ | ⟨cs, heq, hcsne, hcs⟩
      · subst heq
        cases hnr
      · subst heq
        have hre : r = Res.ok cs := by
          cases hnr
          rfl
        exact ⟨cs, hre, hcsne, hcs⟩

theorem mem_foldl_sInsert {l2 : List Nat} :
    ∀ {l : List Nat} {x : Nat},
      x ∈ l2.foldl (fun acc y => sInsert y acc) l ↔ x ∈ l2 ∨ x ∈ l := by
  induction l2 with
  | nil =>
    intro l x
    simp
  | cons y rest ih =>
    intro l x
    rw [List.foldl_cons, ih, mem_sInsert, List.mem_cons]
    tauto

theorem mem_compExpand_self {g : PyGraph} {s : List Nat} {x : Nat} (h : x ∈ s) :
    x ∈ compExpand g s := by
  unfold compExpand
  rw [mem_foldl_sInsert]
  exact Or.inr h

theorem mem_componentOf_self (g : PyGraph) (v : Nat) : v ∈ componentOf g v := by
  unfold componentOf
  induction g.nodes.length with
  | zero => exact List.mem_singleton_self v
  | succ k ih =>
    rw [Function.iterate_succ_apply']
    exact mem_compExpand_self ih

theorem comps_shape {g : PyGraph} :
    ∀ c ∈ connected_component_subgraphs g,
      (∃ s, c = subgraphF g s) ∧ c.nodes ≠ [] := by
  intro c hc
  unfold connected_component_subgraphs at hc
  rw [List.mem_map] at hc
  obtain ⟨s, hs, rfl⟩ := hc
  refine ⟨⟨s, rfl⟩, ?_⟩
  rw [mem_dedupB beqLN_iff, List.mem_map] at hs
  obtain ⟨v, hv, rfl⟩ := hs
  have hvm : v ∈ (subgraphF g (componentOf g v)).nodes :=
    mem_nodes_subgraphF.mpr ⟨hv, mem_componentOf_self g v⟩
  exact List.ne_nil_of_mem hvm

theorem comps_ne_nil {g : PyGraph} (h : g.nodes ≠ []) :
    connected_component_subgraphs g ≠ [] := by
  unfold connected_component_subgraphs
  rw [Ne, List.map_eq_nil_iff]
  apply dedupB_ne_nil beqLN_iff
  rw [Ne, List.map_eq_nil_iff]
  exact h

theorem chordal_graph_cliques_eq {g : PyGraph} (h : is_chordal g = [Res.ok true]) :
    chordal_graph_cliques g = dedupB (beqRes beqLLN)
      ((connected_component_subgraphs g).foldl (cliqueFoldStep g) [Res.ok []]) := by
  unfold chordal_graph_cliques
  rw [h]
  simp only [List.flatMap_cons, List.flatMap_nil, List.append_nil]
  rfl

theorem mem_cliqueFoldStep {g : PyGraph} {acc : List (Res (List (List Nat)))}
    {c : PyGraph} {r : Res (List (List Nat))} :
    r ∈ cliqueFoldStep g acc c ↔ ∃ ra ∈ acc,
      r ∈ (match ra with
        | Res.error e => [Res.error e]
        | Res.ok cs =>
          (connected_chordal_graph_cliques c).map fun rc =>
            match rc with
            | Res.error e => Res.error e
            | Res.ok cs2 =>
              Res.ok (List.foldl (fun a cl => insertClique cl a) cs cs2)) := by
  unfold cliqueFoldStep
  rw [mem_dedupB (beqRes_iff beqLLN_iff), List.mem_flatMap]
  exact Iff.rfl

theorem mem_foldl_insertClique {cs2 : List (List Nat)} :
    ∀ {acc : List (List Nat)} {cl : List Nat},
      cl ∈ cs2.foldl (fun a c => insertClique c a) acc ↔ cl ∈ cs2 ∨ cl ∈ acc := by
  induction cs2 with
  | nil =>
    intro acc cl
    simp
  | cons c rest ih =>
    intro acc cl
    rw [List.foldl_cons, ih, mem_insertClique, List.mem_cons]
    tauto

theorem foldl_insertClique_ne_nil {cs2 : List (List Nat)} {acc : List (List Nat)}
    (h : cs2 ≠ [] ∨ acc ≠ []) :
    cs2.foldl (fun a c => insertClique c a) acc ≠ [] := by
  have hex : ∃ cl, cl ∈ cs2.foldl (fun a c => insertClique c a) acc := by
    rcases h with h | h
    · obtain ⟨cl, hcl⟩ := List.exists_mem_of_ne_nil _ h
      exact ⟨cl, mem_foldl_insertClique.mpr (Or.inl hcl)⟩
    · obtain ⟨cl, hcl⟩ := List.exists_mem_of_ne_nil _ h
      exact ⟨cl, mem_foldl_insertClique.mpr (Or.inr hcl)⟩
  obtain ⟨cl, hcl⟩ := hex
  exact List.ne_nil_of_mem hcl

theorem cliques_fold_outcome {g : PyGraph} (hg : WF g) (hch : IsChordal g) :
    ∀ comps : List PyGraph,
      (∀ c ∈ comps, (∃ s, c = subgraphF g s) ∧ c.nodes ≠ []) →
      ∀ acc : List (Res (List (List Nat))),
        (∀ r ∈ acc, ∃ cs, r = Res.ok cs ∧
          ∀ cl ∈ cs, IsCliqueList g cl ∧ cl ≠ []) →
        ∀ r ∈ comps.foldl (cliqueFoldStep g) acc, ∃ cs, r = Res.ok cs ∧
          (comps ≠ [] → cs ≠ []) ∧ ∀ cl ∈ cs, IsCliqueList g cl ∧ cl ≠ [] := by
  intro comps
  induction comps with
  | nil =>
    intro hcomps acc hacc r hr
    rw [List.foldl_nil] at hr
    obtain ⟨cs, rfl, hcs⟩ := hacc r hr
    exact ⟨cs, rfl, fun h => absurd rfl h, hcs⟩
  | cons c rest ih =>
    intro hcomps acc hacc r hr
    rw [List.foldl_cons] at hr
    obtain ⟨⟨s, rfl⟩, hcne⟩ := hcomps c (List.mem_cons_self _ _)
    have hwc : WF (subgraphF g s) := wf_subgraphF hg s
    have hchc : IsChordal (subgraphF g s) := isChordal_subgraphF hch s
    have hstep : ∀ r2 ∈ cliqueFoldStep g acc (subgraphF g s),
        ∃ cs, r2 = Res.ok cs ∧ cs ≠ [] ∧
          ∀ cl ∈ cs, IsCliqueList g cl ∧ cl ≠ [] := by
      intro r2 hr2
      rw [mem_cliqueFoldStep] at hr2
      obtain ⟨ra, hra, hr2⟩ := hr2
      obtain ⟨cs0, rfl, hcs0⟩ := hacc ra hra
      rw [List.mem_map] at hr2
      obtain ⟨rc, hrc, rfl⟩ := hr2
      obtain ⟨cs2, rfl, hcs2ne, hcs2⟩ := cccs_outcome hwc hchc hcne rc hrc
      refine ⟨List.foldl (fun a cl => insertClique cl a) cs0 cs2, rfl,
        foldl_insertClique_ne_nil (Or.inl hcs2ne), ?_⟩
      intro cl hcl
      rw [mem_foldl_insertClique] at hcl
      rcases hcl with hcl | hcl
      · obtain ⟨hclq, hclne⟩ := hcs2 cl hcl
        refine ⟨?_, hclne⟩
        intro a ha b hb hab
        exact (adj_subgraphF.mp (hclq a ha b hb hab)).1
      · exact hcs0 cl hcl
    by_cases hrest : rest = []
    · subst hrest
      rw [List.foldl_nil] at hr
      obtain ⟨cs, rfl, hcsne, hcs⟩ := hstep r hr
      exact ⟨cs, rfl, fun _ => hcsne, hcs⟩
    · have hrec := ih (fun c2 hc2 => hcomps c2 (List.mem_cons_of_mem _ hc2))
        (cliqueFoldStep g acc (subgraphF g s))
        (fun r2 hr2 => by
          obtain ⟨cs, hcse, hcsne, hcs⟩ := hstep r2 hr2
          exact ⟨cs, hcse, hcs⟩)
        r hr
      obtain ⟨cs, rfl, -, hcs⟩ := hrec
      refine ⟨cs, rfl, fun _ => ?_, hcs⟩
      -- nonemptiness propagates through the remaining components as well
      -- every ok-outcome after folding a component over a nonempty-ok acc is nonempty
      have hpres : ∀ comps2 : List PyGraph,
          (∀ c2 ∈ comps2, (∃ s2, c2 = subgraphF g s2) ∧ c2.nodes ≠ []) →
          ∀ acc2 : List (Res (List (List Nat))),
          (∀ r2 ∈ acc2, ∀ cs2, r2 = Res.ok cs2 → cs2 ≠ []) →
          ∀ r2 ∈ comps2.foldl (cliqueFoldStep g) acc2, ∀ cs2, r2 = Res.ok cs2 →
            cs2 ≠ [] := by
        intro comps2
        induction comps2 with
        | nil =>
          intro hc2 acc2 hacc2 r2 hr2
          rw [List.foldl_nil] at hr2
          exact hacc2 r2 hr2
        | cons c2 rest2 ih2 =>
          intro hc2 acc2 hacc2 r2 hr2
          rw [List.foldl_cons] at hr2
          refine ih2 (fun c3 hc3 => hc2 c3 (List.mem_cons_of_mem _ hc3)) _ ?_ r2 hr2
          intro r3 hr3 cs3 hcse
          rw [mem_cliqueFoldStep] at hr3
          obtain ⟨ra, hra, hr3⟩ := hr3
          match ra with
          | Res.error e =>
            rw [List.mem_singleton] at hr3
            subst hr3
            cases hcse
          | Res.ok cs0 =>
            rw [List.mem_map] at hr3
            obtain ⟨rc, hrc, heq⟩ := hr3
            match rc with
            | Res.error e =>
              subst heq
              cases hcse
            | Res.ok cs2b =>
              subst heq
              have hcs3 := Res.ok.inj hcse
              subst hcs3
              exact foldl_insertClique_ne_nil
                (Or.inr (hacc2 _ hra cs0 rfl))
      refine hpres rest (fun c2 hc2 => hcomps c2 (List.mem_cons_of_mem _ hc2))
        (cliqueFoldStep g acc (subgraphF g s)) ?_ (Res.ok cs) hr cs rfl
      intro r2 hr2 cs2 hcse
      obtain ⟨cs3, hcse3, hcsne3, -⟩ := hstep r2 hr2
      rw [hcse3] at hcse
      have := Res.ok.inj hcse
      rw [← this]
      exact hcsne3

theorem chordal_graph_cliques_outcome {g : PyGraph} (hg : WF g)
    (hic : is_chordal g = [Res.ok true]) (hch : IsChordal g) (hne : g.nodes ≠ []) :
    ∀ r ∈ chordal_graph_cliques g, ∃ cs, r = Res.ok cs ∧ cs ≠ [] ∧
      ∀ cl ∈ cs, IsCliqueList g cl ∧ cl ≠ [] := by
  intro r hr
  rw [chordal_graph_cliques_eq hic, mem_dedupB (beqRes_iff beqLLN_iff)] at hr
  have := cliques_fold_outcome hg hch (connected_component_subgraphs g)
    comps_shape [Res.ok []] ?hinit r hr
  case hinit =>
    intro r2 hr2
    rw [List.mem_singleton] at hr2
    subst hr2
    refine ⟨[], rfl, ?_⟩
    intro cl hcl
    cases hcl
  obtain ⟨cs, rfl, hcsne, hcs⟩ := this
  exact ⟨cs, rfl, hcsne (comps_ne_nil hne), hcs⟩

theorem isChordal_of_small {g : PyGraph} (hg : WF g) (h3 : g.nodes.length ≤ 3) :
    IsChordal g := by
  intro c hc
  obtain ⟨hlen, hnodup, hadj⟩ := hc
  exfalso
  have hsub : c ⊆ g.nodes := by
    intro x hx
    rw [List.mem_iff_getElem] at hx
    obtain ⟨i, hi, hxe⟩ := hx
    have hx0 : c.getD i 0 = x := by
      rw [List.getD_eq_getElem c 0 hi]
      exact hxe
    have := hadj i hi
    rw [hx0] at this
    rcases this with h | h
    · exact (hg.2.2 _ h).2.1
    · exact (hg.2.2 _ h).2.2
  have := (hnodup.subperm hsub).length_le
  omega

theorem foldl_max_props :
    ∀ (l : List (List Nat)) (a : Int),
      a ≤ l.foldl (fun m c => max m (c.length : Int)) a ∧
      (∀ c ∈ l, (c.length : Int) ≤ l.foldl (fun m c => max m (c.length : Int)) a) ∧
      (l.foldl (fun m c => max m (c.length : Int)) a = a ∨
        ∃ c ∈ l, l.foldl (fun m c => max m (c.length : Int)) a = (c.length : Int)) := by
  intro l
  induction l with
  | nil =>
    intro a
    refine ⟨le_refl a, ?_, Or.inl rfl⟩
    intro c hc
    cases hc
  | cons c0 rest ih =>
    intro a
    obtain ⟨h1, h2, h3⟩ := ih (max a (c0.length : Int))
    rw [List.foldl_cons]
    refine ⟨le_trans (le_max_left _ _) h1, ?_, ?_⟩
    · intro c hc
      rw [List.mem_cons] at hc
      rcases hc with rfl | hc
      · exact le_trans (le_max_right _ _) h1
      · exact h2 c hc
    · rcases h3 with h3 | ⟨c, hc, h3⟩
      · rcases max_choice a (c0.length : Int) with hm | hm
        · exact Or.inl (h3.trans hm)
        · exact Or.inr ⟨c0, List.mem_cons_self _ _, h3.trans hm⟩
      · exact Or.inr ⟨c, List.mem_cons_of_mem _ hc, h3⟩

theorem chordal_graph_treewidth_eq {g : PyGraph}
    (h : is_chordal g = [Res.ok true]) :
    chordal_graph_treewidth g = dedupB (beqRes beqInt)
      ((chordal_graph_cliques g).map fun rc =>
        match rc with
        | Res.error e => Res.error e
        | Res.ok cs =>
          Res.ok (List.foldl (fun m c => max m (c.length : Int)) (-1) cs - 1)) := by
  unfold chordal_graph_treewidth
  rw [h]
  simp only [List.flatMap_cons, List.flatMap_nil, List.append_nil]

theorem mem_chordal_graph_treewidth {g : PyGraph}
    (h : is_chordal g = [Res.ok true]) {r : Res Int} :
    r ∈ chordal_graph_treewidth g ↔ ∃ rc ∈ chordal_graph_cliques g,
      r = match rc with
        | Res.error e => Res.error e
        | Res.ok cs =>
          Res.ok (List.foldl (fun m c => max m (c.length : Int)) (-1) cs - 1) := by
  rw [chordal_graph_treewidth_eq h, mem_dedupB (beqRes_iff beqInt_iff), List.mem_map]
  constructor
  · intro ⟨rc, hrc, he⟩
    exact ⟨rc, hrc, he.symm⟩
  · intro ⟨rc, hrc, he⟩
    exact ⟨rc, hrc, he.symm⟩

theorem cliques_max_achieved {g : PyGraph} (hg : WF g)
    (hic : is_chordal g = [Res.ok true]) (hch : IsChordal g) (hne : g.nodes ≠ [])
    {cs : List (List Nat)} (hcs : Res.ok cs ∈ chordal_graph_cliques g) :
    ∃ c ∈ cs, (∀ c2 ∈ cs, c2.length ≤ c.length) ∧
      List.foldl (fun m c => max m (c.length : Int)) (-1) cs = (c.length : Int) := by
  obtain ⟨cs2, hcse, hcsne, hall⟩ :=
    chordal_graph_cliques_outcome hg hic hch hne _ hcs
  have hcse2 := Res.ok.inj hcse
  subst hcse2
  obtain ⟨-, h2, h3⟩ := foldl_max_props cs (-1)
  rcases h3 with h3 | ⟨c, hc, h3⟩
  · exfalso
    obtain ⟨c0, hc0⟩ := List.exists_mem_of_ne_nil _ hcsne
    have hle := h2 c0 hc0
    rw [h3] at hle
    have : c0 ≠ [] := (hall c0 hc0).2
    have : 0 < c0.length := List.length_pos.mpr this
    omega
  · refine ⟨c, hc, ?_, h3⟩
    intro c2 hc2
    have := h2 c2 hc2
    rw [h3] at this
    exact_mod_cast this

/-- C3: for every chordal graph (simple, undirected, non-empty, on which the
chordality gate passes), every outcome of `chordal_graph_treewidth` equals the
maximum cardinality over the cliques of a corresponding
`chordal_graph_cliques` outcome, minus one; and conversely every
`chordal_graph_cliques` outcome gives rise to the treewidth outcome computed as
its maximum clique cardinality minus one. -/
theorem treewidth_eq_max_clique_card_sub_one {g : PyGraph}
    (hg : WF g) (hd : g.directed = false) (hm : g.multigraph = false)
    (hne : g.nodes ≠ []) (hch : IsChordal g) :
    (∀ r ∈ chordal_graph_treewidth g, ∃ cs c,
        Res.ok cs ∈ chordal_graph_cliques g ∧ c ∈ cs ∧
        (∀ c2 ∈ cs, c2.length ≤ c.length) ∧
        r = Res.ok ((c.length : Int) - 1)) ∧
    (∀ cs, Res.ok cs ∈ chordal_graph_cliques g → ∃ c ∈ cs,
        (∀ c2 ∈ cs, c2.length ≤ c.length) ∧
        Res.ok ((c.length : Int) - 1) ∈ chordal_graph_treewidth g) := by
  have hic : is_chordal g = [Res.ok true] := is_chordal_eq_true hg hd hm hne hch
  constructor
  · intro r hr
    rw [mem_chordal_graph_treewidth hic] at hr
    obtain ⟨rc, hrc, he⟩ := hr
    obtain ⟨cs, rfl, -, -⟩ := chordal_graph_cliques_outcome hg hic hch hne rc hrc
    obtain ⟨c, hc, hmax, hfold⟩ := cliques_max_achieved hg hic hch hne hrc
    refine ⟨cs, c, hrc, hc, hmax, ?_⟩
    rw [he]
    show Res.ok (List.foldl (fun m c => max m (c.length : Int)) (-1) cs - 1) = _
    rw [hfold]
  · intro cs hcs
    obtain ⟨c, hc, hmax, hfold⟩ := cliques_max_achieved hg hic hch hne hcs
    refine ⟨c, hc, hmax, ?_⟩
    rw [mem_chordal_graph_treewidth hic]
    refine ⟨Res.ok cs, hcs, ?_⟩
    show _ = Res.ok (List.foldl (fun m c => max m (c.length : Int)) (-1) cs - 1)
    rw [hfold]

theorem treewidth_eq_max_clique_card_sub_one_witness :
    Res.ok [[0,1,2]] ∈ chordal_graph_cliques triangleG ∧
    ((∀ r ∈ chordal_graph_treewidth triangleG, ∃ cs c,
        Res.ok cs ∈ chordal_graph_cliques triangleG ∧ c ∈ cs ∧
        (∀ c2 ∈ cs, c2.length ≤ c.length) ∧
        r = Res.ok ((c.length : Int) - 1)) ∧
    (∀ cs, Res.ok cs ∈ chordal_graph_cliques triangleG → ∃ c ∈ cs,
        (∀ c2 ∈ cs, c2.length ≤ c.length) ∧
        Res.ok ((c.length : Int) - 1) ∈ chordal_graph_treewidth triangleG)) :=
  ⟨by decide,
    treewidth_eq_max_clique_card_sub_one (by unfold WF; decide) rfl rfl (by decide)
      (isChordal_of_small (by unfold WF; decide) (by decide))⟩

theorem is_chordal_directed {g : PyGraph} (h : g.directed = true) :
    is_chordal g = [Res.error Err.directedInput] := by
  unfold is_chordal
  rw [h]
  rfl

theorem is_chordal_multigraph {g : PyGraph} (hd : g.directed = false)
    (h : g.multigraph = true) :
    is_chordal g = [Res.error Err.multigraphInput] := by
  unfold is_chordal
  rw [hd, h]
  rfl

theorem induced_nodes_of_gate {g : PyGraph} (s t : Nat) (bound : Option Nat)
    {e : Err} (h : is_chordal g = [Res.error e]) :
    induced_nodes g s t bound = [Res.error e] := by
  unfold induced_nodes
  rw [h]
  rfl

theorem chordal_graph_cliques_of_gate {g : PyGraph} {e : Err}
    (h : is_chordal g = [Res.error e]) :
    chordal_graph_cliques g = [Res.error e] := by
  unfold chordal_graph_cliques
  rw [h]
  rfl

theorem chordal_graph_treewidth_of_gate {g : PyGraph} {e : Err}
    (h : is_chordal g = [Res.error e]) :
    chordal_graph_treewidth g = [Res.error e] := by
  unfold chordal_graph_treewidth
  rw [h]
  rfl

theorem induced_nodes_nonchordal {g : PyGraph} (s t : Nat) (bound : Option Nat)
    (h : is_chordal g = [Res.ok false]) :
    induced_nodes g s t bound = [Res.error Err.nonChordal] := by
  unfold induced_nodes
  rw [h]
  rfl

theorem chordal_graph_cliques_nonchordal {g : PyGraph}
    (h : is_chordal g = [Res.ok false]) :
    chordal_graph_cliques g = [Res.error Err.nonChordal] := by
  unfold chordal_graph_cliques
  rw [h]
  rfl

theorem chordal_graph_treewidth_nonchordal {g : PyGraph}
    (h : is_chordal g = [Res.ok false]) :
    chordal_graph_treewidth g = [Res.error Err.nonChordal] := by
  unfold chordal_graph_treewidth
  rw [h]
  rfl

/-- C2: a simple undirected non-chordal graph makes `induced_nodes`,
`chordal_graph_cliques` and `chordal_graph_treewidth` each return exactly the
non-chordal error, as the sole outcome of the upfront chordality gate; and a
directed or multigraph input makes every entry point (the chordality test
itself included) return exactly the corresponding input-rejection error. -/
theorem upfront_gate_spec {g : PyGraph} (s t : Nat) (bound : Option Nat) :
    (WF g → g.directed = false → g.multigraph = false → g.nodes ≠ [] →
      ¬ IsChordal g →
      induced_nodes g s t bound = [Res.error Err.nonChordal] ∧
      chordal_graph_cliques g = [Res.error Err.nonChordal] ∧
      chordal_graph_treewidth g = [Res.error Err.nonChordal]) ∧
    (g.directed = true →
      is_chordal g = [Res.error Err.directedInput] ∧
      induced_nodes g s t bound = [Res.error Err.directedInput] ∧
      chordal_graph_cliques g = [Res.error Err.directedInput] ∧
      chordal_graph_treewidth g = [Res.error Err.directedInput]) ∧
    (g.directed = false → g.multigraph = true →
      is_chordal g = [Res.error Err.multigraphInput] ∧
      induced_nodes g s t bound = [Res.error Err.multigraphInput] ∧
      chordal_graph_cliques g = [Res.error Err.multigraphInput] ∧
      chordal_graph_treewidth g = [Res.error Err.multigraphInput]) := by
  refine ⟨?_, ?_, ?_⟩
  · intro hg hd hm hne hch
    have hic := is_chordal_eq_false hg hd hm hne hch
    exact ⟨induced_nodes_nonchordal s t bound hic,
      chordal_graph_cliques_nonchordal hic,
      chordal_graph_treewidth_nonchordal hic⟩
  · intro hd
    have hic := is_chordal_directed hd
    exact ⟨hic, induced_nodes_of_gate s t bound hic,
      chordal_graph_cliques_of_gate hic, chordal_graph_treewidth_of_gate hic⟩
  · intro hd hm
    have hic := is_chordal_multigraph hd hm
    exact ⟨hic, induced_nodes_of_gate s t bound hic,
      chordal_graph_cliques_of_gate hic, chordal_graph_treewidth_of_gate hic⟩

theorem upfront_gate_spec_witness :
    induced_nodes cyc4 0 2 none = [Res.error Err.nonChordal] ∧
    chordal_graph_treewidth cyc4 = [Res.error Err.nonChordal] ∧
    is_chordal dirG = [Res.error Err.directedInput] ∧
    chordal_graph_cliques dirG = [Res.error Err.directedInput] ∧
    is_chordal multiG = [Res.error Err.multigraphInput] ∧
    induced_nodes multiG 0 0 none = [Res.error Err.multigraphInput] := by
  have hnc : ¬ IsChordal cyc4 := fun hch =>
    absurd (hch [0,1,2,3] (by unfold IsCycle; decide)) (by unfold HasChord; decide)
  have h1 := (upfront_gate_spec (g := cyc4) 0 2 none).1
    (by unfold WF; decide) rfl rfl (by decide) hnc
  have h2 := (upfront_gate_spec (g := dirG) 0 0 none).2.1 rfl
  have h3 := (upfront_gate_spec (g := multiG) 0 0 none).2.2 rfl rfl
  exact ⟨h1.1, h1.2.2, h2.1, h2.2.2.1, h3.1, h3.2.1⟩

theorem stepAll_done_fix (g : PyGraph) (bound : Option Nat)
    (r : Res (Option (Nat × Nat × Nat))) :
    stepAll g bound [BNode.done r] = [BNode.done r] := rfl

theorem iterate_stepAll_done (g : PyGraph) (bound : Option Nat)
    (r : Res (Option (Nat × Nat × Nat))) (k : Nat) :
    (stepAll g bound)^[k] [BNode.done r] = [BNode.done r] := by
  induction k with
  | zero => rfl
  | succ n ih => rw [Function.iterate_succ_apply, stepAll_done_fix, ih]

theorem find_chordality_breaker_empty {g : PyGraph} (h : g.nodes = [])
    (bound : Option Nat) :
    find_chordality_breaker g none bound = [Res.error Err.indexError] := by
  unfold find_chordality_breaker breakerNodes
  have hinit : breakerInit g none = [BNode.done (Res.error Err.indexError)] := by
    unfold breakerInit
    rw [if_pos h]
  rw [hinit, iterate_stepAll_done]
  rfl

theorem is_chordal_empty {g : PyGraph} (h : g.nodes = [])
    (hd : g.directed = false) (hm : g.multigraph = false) :
    is_chordal g = [Res.error Err.indexError] := by
  unfold is_chordal
  rw [hd, if_neg (by simp), hm, if_neg (by simp),
    find_chordality_breaker_empty h none]
  rfl

/-- C10: on the empty graph, the chordality test and every entry point
gated by it end in the start-selection error `indexError`, distinct from the
documented input-rejection, non-chordal and bound-exceeded conditions; on
every graph with at least one node the start selection produces only live
traversal states. -/
theorem empty_graph_start_selection {g : PyGraph} :
    (g.nodes = [] → g.directed = false → g.multigraph = false →
      is_chordal g = [Res.error Err.indexError] ∧
      (∀ s t bound, induced_nodes g s t bound = [Res.error Err.indexError]) ∧
      chordal_graph_cliques g = [Res.error Err.indexError] ∧
      chordal_graph_treewidth g = [Res.error Err.indexError] ∧
      Err.indexError ≠ Err.directedInput ∧
      Err.indexError ≠ Err.multigraphInput ∧
      Err.indexError ≠ Err.nonChordal ∧
      Err.indexError ≠ Err.treewidthBoundExceeded) ∧
    (g.nodes ≠ [] → ∀ n ∈ breakerInit g none, ∃ st, n = BNode.more st) := by
  constructor
  · intro h hd hm
    have hic := is_chordal_empty h hd hm
    exact ⟨hic, fun s t bound => induced_nodes_of_gate s t bound hic,
      chordal_graph_cliques_of_gate hic, chordal_graph_treewidth_of_gate hic,
      by decide, by decide, by decide, by decide⟩
  · intro h
    exact breakerInit_more_none h

theorem empty_graph_start_selection_witness :
    is_chordal emptyG = [Res.error Err.indexError] ∧
    chordal_graph_treewidth emptyG = [Res.error Err.indexError] ∧
    (∀ n ∈ breakerInit triangleG none, ∃ st, n = BNode.more st) :=
  ⟨((empty_graph_start_selection (g := emptyG)).1 rfl rfl rfl).1,
   ((empty_graph_start_selection (g := emptyG)).1 rfl rfl rfl).2.2.2.1,
   (empty_graph_start_selection (g := triangleG)).2 (by decide)⟩

/-- C1: for every simple undirected graph with at least one node, `is_chordal`
returns exactly `true` iff every cycle of length at least four has a chord and
exactly `false` otherwise; equivalently, over every admissible start node and
every tie-break, one traversal of `find_chordality_breaker` returns the empty
witness exactly on chordal input. -/
theorem is_chordal_iff_every_long_cycle_has_chord {g : PyGraph} (hg : WF g)
    (hd : g.directed = false) (hm : g.multigraph = false) (hne : g.nodes ≠ []) :
    (is_chordal g = [Res.ok true] ↔ IsChordal g) ∧
    (is_chordal g = [Res.ok false] ↔ ¬ IsChordal g) ∧
    (∀ s : Option Nat, (∀ n ∈ breakerInit g s, ∃ st, n = BNode.more st) →
      ((∀ r ∈ find_chordality_breaker g s none, r = Res.ok none) ↔
        IsChordal g)) := by
  by_cases hch : IsChordal g
  · have hic := is_chordal_eq_true hg hd hm hne hch
    refine ⟨⟨fun _ => hch, fun _ => hic⟩, ?_, ?_⟩
    · constructor
      · intro h
        rw [hic] at h
        simp at h
      · intro h
        exact absurd hch h
    · intro s hvalid
      exact ⟨fun _ => hch, fun _ => breaker_outcomes_chordal hg hch hvalid⟩
  · have hic := is_chordal_eq_false hg hd hm hne hch
    refine ⟨?_, ⟨fun _ => hch, fun _ => hic⟩, ?_⟩
    · constructor
      · intro h
        rw [hic] at h
        simp at h
      · intro h
        exact absurd h hch
    · intro s hvalid
      constructor
      · intro hall
        exfalso
        obtain ⟨r, hr⟩ := List.exists_mem_of_ne_nil _
          (find_chordality_breaker_ne_nil hg s none)
        obtain ⟨tr, rfl⟩ := breaker_outcomes_nonchordal hg hch hvalid r hr
        have := hall _ hr
        simp at this
      · intro h
        exact absurd h hch

theorem is_chordal_iff_every_long_cycle_has_chord_witness :
    (is_chordal path4 = [Res.ok true] ↔ IsChordal path4) ∧
    (is_chordal cyc4 = [Res.ok false] ↔ ¬ IsChordal cyc4) :=
  ⟨(is_chordal_iff_every_long_cycle_has_chord (g := path4)
      (by unfold WF; decide) rfl rfl (by decide)).1,
   (is_chordal_iff_every_long_cycle_has_chord (g := cyc4)
      (by unfold WF; decide) rfl rfl (by decide)).2.1⟩

/-- C8: for every graph, every non-empty choice list and every
`wanna_connect` list, `_max_cardinality_node` returns some member of the
choices whose neighbour count inside `wanna_connect` is maximal among the
choices — in particular it always returns an element of the choices, even
when every candidate has zero neighbours in `wanna_connect`. -/
theorem max_cardinality_node_returns_maximiser (g : PyGraph)
    (choices wanna : List Nat) (hne : choices ≠ []) :
    ∃ x, max_cardinality_node g choices wanna = some x ∧ x ∈ choices ∧
      ∀ y ∈ choices, nbCount g y wanna ≤ nbCount g x wanna :=
  max_cardinality_node_spec g wanna choices hne

theorem max_cardinality_node_returns_maximiser_witness :
    ([5, 6] : List Nat) ≠ [] ∧
    (∃ x, max_cardinality_node path10 [5, 6] [] = some x ∧ x ∈ [5, 6] ∧
      ∀ y ∈ [5, 6], nbCount path10 y [] ≤ nbCount path10 x []) :=
  ⟨by decide, max_cardinality_node_returns_maximiser path10 [5, 6] [] (by decide)⟩

theorem adj_of_minmax_mem {h : PyGraph} {s t : Nat}
    (hm : (min s t, max s t) ∈ h.edges) : Adj h s t := by
  rcases Nat.le_total s t with hle | hle
  · rw [Nat.min_eq_left hle, Nat.max_eq_right hle] at hm
    exact Or.inl hm
  · rw [Nat.min_eq_right hle, Nat.max_eq_left hle] at hm
    exact Or.inr hm

theorem adj_mono_of_edges_subset {g h : PyGraph}
    (hsub : ∀ e ∈ g.edges, e ∈ h.edges) {a b : Nat} (ha : Adj g a b) :
    Adj h a b := by
  rcases ha with ha | ha
  · exact Or.inl (hsub _ ha)
  · exact Or.inr (hsub _ ha)

theorem mem_edges_addFan {s : Nat} {e : Nat × Nat} :
    ∀ {ns : List Nat} {h : PyGraph}, e ∈ h.edges →
      e ∈ (ns.foldl (fun h2 n => if n ≠ s then addEdge h2 s n else h2) h).edges := by
  intro ns
  induction ns with
  | nil =>
    intro h he
    exact he
  | cons m rest ih =>
    intro h he
    rw [List.foldl_cons]
    apply ih
    by_cases hm : m ≠ s
    · rw [if_pos hm]
      exact mem_edges_addEdge.mpr (Or.inl he)
    · rw [if_neg hm]
      exact he

theorem adj_addFan_mono {s a b : Nat} :
    ∀ {ns : List Nat} {h : PyGraph}, Adj h a b →
      Adj (ns.foldl (fun h2 n => if n ≠ s then addEdge h2 s n else h2) h) a b := by
  intro ns
  induction ns with
  | nil =>
    intro h ha
    exact ha
  | cons m rest ih =>
    intro h ha
    rw [List.foldl_cons]
    apply ih
    by_cases hm : m ≠ s
    · rw [if_pos hm]
      exact adj_addEdge.mpr (Or.inl ha)
    · rw [if_neg hm]
      exact ha

theorem adj_addFan_new {s n : Nat} :
    ∀ {ns : List Nat} {h : PyGraph}, n ∈ ns → n ≠ s →
      Adj (ns.foldl (fun h2 n2 => if n2 ≠ s then addEdge h2 s n2 else h2) h) s n := by
  intro ns
  induction ns with
  | nil =>
    intro h hn
    cases hn
  | cons m rest ih =>
    intro h hn hns
    rw [List.mem_cons] at hn
    rw [List.foldl_cons]
    rcases hn with rfl | hn
    · rw [if_pos hns]
      exact adj_addFan_mono (adj_addEdge.mpr (Or.inr (Or.inl ⟨rfl, rfl⟩)))
    · exact ih hn hns

theorem iinv_init (g : PyGraph) (s t : Nat) :
    IInv g s t ⟨[], addEdge (copyGraph g) s t⟩ := by
  refine ⟨?_, ?_, ?_⟩
  · intro e he
    exact mem_edges_addEdge.mpr (Or.inl he)
  · exact mem_edges_addEdge.mpr (Or.inr rfl)
  · intro x hx
    cases hx

theorem iinv_step {g : PyGraph} {s t : Nat} {bound : Option Nat} {st : ISt}
    (h : IInv g s t st) :
    ∀ n ∈ inducedStep g s t bound st, INodeInv g s t n := by
  obtain ⟨h1, h2, h3⟩ := h
  intro n hn
  unfold inducedStep at hn
  rw [List.mem_flatMap] at hn
  obtain ⟨r, hr, hn⟩ := hn
  match r with
  | Res.error e =>
    rw [List.mem_singleton] at hn
    subst hn
    trivial
  | Res.ok none =>
    unfold inducedPost at hn
    by_cases hI : st.I = []
    · rw [if_pos hI, List.mem_singleton] at hn
      subst hn
      exact ⟨h1, h2, h3⟩
    · rw [if_neg hI] at hn
      by_cases hc : ((nbrs g s).filter fun u =>
          Nat.beq (((sInsert t st.I).filter fun y => memB y (nbrs g u)).length) 2) = []
      · rw [if_pos hc, List.mem_singleton] at hn
        subst hn
        refine ⟨h1, h2, ?_⟩
        intro x hx hxs
        rw [mem_sInsert] at hx
        rcases hx with rfl | hx
        · exact adj_of_minmax_mem h2
        · exact h3 x hx hxs
      · rw [if_neg hc, List.mem_map] at hn
        obtain ⟨u, hu, hn⟩ := hn
        subst hn
        refine ⟨h1, h2, ?_⟩
        intro x hx hxs
        rw [mem_sInsert] at hx
        rcases hx with rfl | hx
        · rw [List.mem_filter] at hu
          exact adj_mono_of_edges_subset h1 (mem_nbrs.mp hu.1)
        · rw [mem_sInsert] at hx
          rcases hx with rfl | hx
          · exact adj_of_minmax_mem h2
          · exact h3 x hx hxs
  | Res.ok (some (u, v, w)) =>
    rw [List.mem_singleton] at hn
    subst hn
    refine ⟨?_, ?_, ?_⟩
    · intro e he
      exact mem_edges_addFan (h1 e he)
    · exact mem_edges_addFan h2
    · intro x hx hxs
      rw [mem_sInsert] at hx
      rcases hx with rfl | hx
      · exact adj_addFan_new (by simp) hxs
      · rw [mem_sInsert] at hx
        rcases hx with rfl | hx
        · exact adj_addFan_new (by simp) hxs
        · rw [mem_sInsert] at hx
          rcases hx with rfl | hx
          · exact adj_addFan_new (by simp) hxs
          · exact adj_addFan_mono (h3 x hx hxs)

theorem inducedStepAll_inv {g : PyGraph} {s t : Nat} {bound : Option Nat}
    {l : List INode} (h : ∀ n ∈ l, INodeInv g s t n) :
    ∀ n ∈ inducedStepAll g s t bound l, INodeInv g s t n := by
  intro n hn
  unfold inducedStepAll at hn
  rw [mem_dedupB beqINode_iff, List.mem_flatMap] at hn
  obtain ⟨n0, hn0, hn⟩ := hn
  match n0 with
  | INode.more st => exact iinv_step (h _ hn0) n hn
  | INode.done r =>
    rw [List.mem_singleton] at hn
    subst hn
    exact h _ hn0

theorem inducedNodesIter_inv {g : PyGraph} {s t : Nat} {bound : Option Nat} :
    ∀ n ∈ inducedNodesIter g s t bound, INodeInv g s t n := by
  unfold inducedNodesIter
  generalize (g.nodes.length + 3) ^ 2 = k
  induction k with
  | zero =>
    intro n hn
    rw [Function.iterate_zero_apply, List.mem_singleton] at hn
    subst hn
    exact iinv_init g s t
  | succ m ih =>
    intro n hn
    rw [Function.iterate_succ_apply'] at hn
    exact inducedStepAll_inv ih n hn

theorem mem_induced_nodes {g : PyGraph} {s t : Nat} {bound : Option Nat}
    (hic : is_chordal g = [Res.ok true]) {r : Res (List Nat × PyGraph)} :
    r ∈ induced_nodes g s t bound ↔
      INode.done r ∈ inducedNodesIter g s t bound := by
  unfold induced_nodes
  rw [hic]
  simp only [List.flatMap_cons, List.flatMap_nil, List.append_nil]
  rw [mem_dedupB (beqRes_iff beqIG_iff), List.mem_filterMap]
  constructor
  · intro ⟨n, hn, he⟩
    match n with
    | INode.done r2 =>
      rw [Option.some_inj] at he
      subst he
      exact hn
    | INode.more st => cases he
  · intro hn
    exact ⟨INode.done r, hn, rfl⟩

theorem induced_nodes_outcome {g : PyGraph} {s t : Nat} {bound : Option Nat}
    (hic : is_chordal g = [Res.ok true]) {I : List Nat} {H : PyGraph}
    (hr : Res.ok (I, H) ∈ induced_nodes g s t bound) :
    (∀ e ∈ g.edges, e ∈ H.edges) ∧
    (min s t, max s t) ∈ H.edges ∧
    (∀ x ∈ I, x ≠ s → Adj H s x) := by
  rw [mem_induced_nodes hic] at hr
  exact inducedNodesIter_inv _ hr

/-- C9: on a simple undirected non-empty graph the chordality test is
deterministic across tie-breaks — all branches return one and the same
boolean, so repeated calls agree — and every successful `induced_nodes`
outcome records its edge additions only in the returned private working copy:
that copy holds every edge of the input plus the `(s, t)` edge, and it is a
different graph from the input whenever `(s, t)` was not already an edge. -/
theorem is_chordal_deterministic_and_induced_nodes_private_copy {g : PyGraph}
    (hg : WF g) (hd : g.directed = false) (hm : g.multigraph = false)
    (hne : g.nodes ≠ []) :
    (∃ b : Bool, is_chordal g = [Res.ok b]) ∧
    (∀ s t bound I H, Res.ok (I, H) ∈ induced_nodes g s t bound →
      (∀ e ∈ g.edges, e ∈ H.edges) ∧
      (min s t, max s t) ∈ H.edges ∧
      ((min s t, max s t) ∉ g.edges → H ≠ g)) := by
  constructor
  · by_cases hch : IsChordal g
    · exact ⟨true, is_chordal_eq_true hg hd hm hne hch⟩
    · exact ⟨false, is_chordal_eq_false hg hd hm hne hch⟩
  · intro s t bound I H hr
    by_cases hch : IsChordal g
    · have hic := is_chordal_eq_true hg hd hm hne hch
      obtain ⟨h1, h2, -⟩ := induced_nodes_outcome hic hr
      refine ⟨h1, h2, ?_⟩
      intro hng hHg
      rw [hHg] at h2
      exact hng h2
    · have hic := is_chordal_eq_false hg hd hm hne hch
      rw [induced_nodes_nonchordal s t bound hic, List.mem_singleton] at hr
      cases hr

theorem is_chordal_deterministic_and_induced_nodes_private_copy_witness :
    (∃ b : Bool, is_chordal path4 = [Res.ok b]) ∧
    (∀ s t bound I H, Res.ok (I, H) ∈ induced_nodes path4 s t bound →
      (∀ e ∈ path4.edges, e ∈ H.edges) ∧
      (min s t, max s t) ∈ H.edges ∧
      ((min s t, max s t) ∉ path4.edges → H ≠ path4)) :=
  is_chordal_deterministic_and_induced_nodes_private_copy
    (by unfold WF; decide) rfl rfl (by decide)

theorem breakerBranch_bound_exceeded {g : PyGraph} {bound : Option Nat}
    {st : BSt} {v : Nat}
    (hcomp : is_complete_graph (subgraphF g
      ((sInsert v st.numbered).filter fun y => memB y (nbrs g v))) = Res.ok true)
    (hb : boundLt bound (max (st.tw.getD 0)
      ((sInsert v st.numbered).filter fun y => memB y (nbrs g v)).length) = true) :
    breakerBranch g bound st v = [BNode.done (Res.error Err.treewidthBoundExceeded)] := by
  unfold breakerBranch
  dsimp only
  rw [hcomp]
  dsimp only
  rw [hb, if_pos rfl]

theorem breakerBranch_incomplete {g : PyGraph} {bound : Option Nat}
    {st : BSt} {v : Nat}
    (hcomp : is_complete_graph (subgraphF g
      ((sInsert v st.numbered).filter fun y => memB y (nbrs g v))) = Res.ok false) :
    breakerBranch g bound st v = (find_missing_edge (subgraphF g
        ((sInsert v st.numbered).filter fun y => memB y (nbrs g v)))).map fun p =>
      BNode.done (Res.ok (some (p.1, v, p.2))) := by
  unfold breakerBranch
  dsimp only
  rw [hcomp]

/-- C5: once the numbered-neighbour set of the freshly numbered node is
complete and the updated treewidth exceeds a supplied bound, the loop body
returns exactly the bound-exceeded error; that error is a distinct condition
from the non-chordal one, and every error produced inside the
`induced_nodes` iteration propagates unmodified into the outcomes of
`induced_nodes`; when the numbered-neighbour set is instead incomplete, the
body returns witness triples built from a missing edge, independently of the
bound and with no bound check applied. -/
theorem treewidth_bound_check_spec (g : PyGraph) (bound : Option Nat)
    (st : BSt) (v : Nat) :
    (is_complete_graph (subgraphF g
        ((sInsert v st.numbered).filter fun y => memB y (nbrs g v))) = Res.ok true →
      boundLt bound (max (st.tw.getD 0)
        ((sInsert v st.numbered).filter fun y => memB y (nbrs g v)).length) = true →
      breakerBranch g bound st v
        = [BNode.done (Res.error Err.treewidthBoundExceeded)]) ∧
    (Err.treewidthBoundExceeded ≠ Err.nonChordal) ∧
    (∀ g2 : PyGraph, ∀ s t : Nat, ∀ bound2 : Option Nat,
      is_chordal g2 = [Res.ok true] → ∀ e : Err,
      INode.done (Res.error e) ∈ inducedNodesIter g2 s t bound2 →
      Res.error e ∈ induced_nodes g2 s t bound2) ∧
    (is_complete_graph (subgraphF g
        ((sInsert v st.numbered).filter fun y => memB y (nbrs g v))) = Res.ok false →
      breakerBranch g bound st v = breakerBranch g none st v ∧
      ∀ n ∈ breakerBranch g bound st v,
        ∃ u w, n = BNode.done (Res.ok (some (u, v, w)))) := by
  refine ⟨breakerBranch_bound_exceeded, by decide, ?_, ?_⟩
  · intro g2 s t bound2 hic e he
    exact (mem_induced_nodes hic).mpr he
  · intro hcomp
    constructor
    · rw [breakerBranch_incomplete hcomp, breakerBranch_incomplete hcomp]
    · intro n hn
      rw [breakerBranch_incomplete hcomp, List.mem_map] at hn
      obtain ⟨p, hp, rfl⟩ := hn
      exact ⟨p.1, p.2, rfl⟩

set_option maxRecDepth 16384 in
set_option maxHeartbeats 64000000 in
theorem treewidth_bound_check_spec_witness :
    breakerBranch k4 (some 2) ⟨[3], [0, 1, 2], some 2⟩ 3
      = [BNode.done (Res.error Err.treewidthBoundExceeded)] ∧
    Res.error Err.treewidthBoundExceeded ∈ induced_nodes k4 0 3 (some 2) ∧
    (∀ n ∈ breakerBranch cyc4 (some 0) ⟨[3], [0, 1, 2], some 1⟩ 3,
      ∃ u w, n = BNode.done (Res.ok (some (u, 3, w)))) := by
  refine ⟨?_, ?_, ?_⟩
  · exact (treewidth_bound_check_spec k4 (some 2) ⟨[3], [0, 1, 2], some 2⟩ 3).1
      (by decide) (by decide)
  · exact (treewidth_bound_check_spec k4 (some 2) ⟨[], [], none⟩ 0).2.2.1
      k4 0 3 (some 2) (by decide) Err.treewidthBoundExceeded (by decide)
  · exact ((treewidth_bound_check_spec cyc4 (some 0)
      ⟨[3], [0, 1, 2], some 1⟩ 3).2.2.2 (by decide)).2

set_option maxRecDepth 16384 in
set_option maxHeartbeats 400000000 in
/-- C7 (amended): on the path graph over nodes 0..9, `chordal_graph_cliques`
returns exactly the nine edges' two-node sets — one outcome, independent of
tie-breaks — and `chordal_graph_treewidth` returns 1. -/
theorem path10_cliques_and_treewidth :
    chordal_graph_cliques path10 =
      [Res.ok [[0,1],[1,2],[2,3],[3,4],[4,5],[5,6],[6,7],[7,8],[8,9]]] ∧
    chordal_graph_treewidth path10 = [Res.ok 1] := by
  constructor
  · decide
  · decide

set_option maxRecDepth 16384 in
set_option maxHeartbeats 400000000 in
/-- C7 counterexample: the path graph on nodes 0..9 has nine edges, not ten,
and accordingly every outcome of `chordal_graph_cliques` holds nine two-node
cliques, not ten. -/
theorem path10_has_nine_cliques_not_ten :
    path10.edges.length = 9 ∧
    (chordal_graph_cliques path10).all (fun r =>
      match r with
      | Res.ok cs => Nat.beq cs.length 9
      | Res.error _ => false) = true ∧
    ¬ (chordal_graph_cliques path10).all (fun r =>
      match r with
      | Res.ok cs => Nat.beq cs.length 10
      | Res.error _ => false) = true := by
  refine ⟨rfl, ?_, ?_⟩
  · decide
  · decide

theorem mem_of_anyBeq {α : Type} (beq : α → α → Bool)
    (hbeq : ∀ a b, beq a b = true ↔ a = b) {l : List α} {x : α}
    (h : l.any (beq x) = true) : x ∈ l := by
  obtain ⟨y, hy, hxy⟩ := List.any_eq_true.mp h
  rw [(hbeq x y).mp hxy]
  exact hy

theorem mem_inducedStepAll_of_more {g : PyGraph} {s t : Nat} {bound : Option Nat}
    {l : List INode} {st : ISt} {x : INode}
    (hst : INode.more st ∈ l) (hx : x ∈ inducedStep g s t bound st) :
    x ∈ inducedStepAll g s t bound l := by
  unfold inducedStepAll
  rw [mem_dedupB beqINode_iff, List.mem_flatMap]
  exact ⟨INode.more st, hst, hx⟩

theorem mem_inducedStepAll_of_done {g : PyGraph} {s t : Nat} {bound : Option Nat}
    {l : List INode} {r : Res (List Nat × PyGraph)}
    (h : INode.done r ∈ l) : INode.done r ∈ inducedStepAll g s t bound l := by
  unfold inducedStepAll
  rw [mem_dedupB beqINode_iff, List.mem_flatMap]
  exact ⟨INode.done r, h, List.mem_singleton_self _⟩

theorem inducedIter_step {g : PyGraph} {s t : Nat} {bound : Option Nat}
    {l : List INode} {st : ISt} {x : INode} {i : Nat}
    (hst : INode.more st ∈ (inducedStepAll g s t bound)^[i] l)
    (hx : x ∈ inducedStep g s t bound st) :
    x ∈ (inducedStepAll g s t bound)^[i + 1] l := by
  rw [Function.iterate_succ_apply']
  exact mem_inducedStepAll_of_more hst hx

theorem inducedIter_done_mono {g : PyGraph} {s t : Nat} {bound : Option Nat}
    {l : List INode} {r : Res (List Nat × PyGraph)} {i k : Nat} (hik : i ≤ k)
    (h : INode.done r ∈ (inducedStepAll g s t bound)^[i] l) :
    INode.done r ∈ (inducedStepAll g s t bound)^[k] l := by
  obtain ⟨d, rfl⟩ := Nat.exists_eq_add_of_le hik
  clear hik
  induction d with
  | zero => exact h
  | succ n ih =>
    show INode.done r ∈ (inducedStepAll g s t bound)^[(i + n) + 1] l
    rw [Function.iterate_succ_apply']
    exact mem_inducedStepAll_of_done ih

set_option maxRecDepth 16384 in
set_option maxHeartbeats 400000000 in
theorem is_chordal_path10 : is_chordal path10 = [Res.ok true] := by decide

set_option maxRecDepth 16384 in
set_option maxHeartbeats 1000000000 in
theorem path10_main_outcome_mem :
    INode.done (Res.ok ([1,2,3,4,5,6,7,8,9], starH)) ∈
      inducedNodesIter path10 1 9 (some 2) := by
  unfold inducedNodesIter
  have h0 : INode.more ⟨[], addEdge (copyGraph path10) 1 9⟩ ∈
      (inducedStepAll path10 1 9 (some 2))^[0]
        [INode.more ⟨[], addEdge (copyGraph path10) 1 9⟩] := by
    rw [Function.iterate_zero_apply]
    exact List.mem_singleton_self _
  have h1 := inducedIter_step h0 (mem_of_anyBeq beqINode beqINode_iff
    (x := INode.more ⟨[1,8,9], mkGraph ns10 ([(0,1),(1,2),(1,8),(1,9)] ++ pTail)⟩)
    (by decide))
  have h2 := inducedIter_step h1 (mem_of_anyBeq beqINode beqINode_iff
    (x := INode.more ⟨[1,7,8,9],
      mkGraph ns10 ([(0,1),(1,2),(1,7),(1,8),(1,9)] ++ pTail)⟩)
    (by decide))
  have h3 := inducedIter_step h2 (mem_of_anyBeq beqINode beqINode_iff
    (x := INode.more ⟨[1,6,7,8,9],
      mkGraph ns10 ([(0,1),(1,2),(1,6),(1,7),(1,8),(1,9)] ++ pTail)⟩)
    (by decide))
  have h4 := inducedIter_step h3 (mem_of_anyBeq beqINode beqINode_iff
    (x := INode.more ⟨[1,5,6,7,8,9],
      mkGraph ns10 ([(0,1),(1,2),(1,5),(1,6),(1,7),(1,8),(1,9)] ++ pTail)⟩)
    (by decide))
  have h5 := inducedIter_step h4 (mem_of_anyBeq beqINode beqINode_iff
    (x := INode.more ⟨[1,4,5,6,7,8,9],
      mkGraph ns10 ([(0,1),(1,2),(1,4),(1,5),(1,6),(1,7),(1,8),(1,9)] ++ pTail)⟩)
    (by decide))
  have h6 := inducedIter_step h5 (mem_of_anyBeq beqINode beqINode_iff
    (x := INode.more ⟨[1,3,4,5,6,7,8,9],
      mkGraph ns10 ([(0,1),(1,2),(1,3),(1,4),(1,5),(1,6),(1,7),(1,8),(1,9)] ++ pTail)⟩)
    (by decide))
  have h7 := inducedIter_step h6 (mem_of_anyBeq beqINode beqINode_iff
    (x := INode.done (Res.ok ([1,2,3,4,5,6,7,8,9], starH)))
    (by decide))
  exact inducedIter_done_mono (by decide) h7

set_option maxRecDepth 16384 in
set_option maxHeartbeats 1000000000 in
theorem path10_alt_outcome_mem :
    INode.done (Res.ok ([3,4,5,6,7,8,9], starH)) ∈
      inducedNodesIter path10 1 9 (some 2) := by
  unfold inducedNodesIter
  have h0 : INode.more ⟨[], addEdge (copyGraph path10) 1 9⟩ ∈
      (inducedStepAll path10 1 9 (some 2))^[0]
        [INode.more ⟨[], addEdge (copyGraph path10) 1 9⟩] := by
    rw [Function.iterate_zero_apply]
    exact List.mem_singleton_self _
  have h1 := inducedIter_step h0 (mem_of_anyBeq beqINode beqINode_iff
    (x := INode.more ⟨[7,8,9],
      mkGraph ns10 ([(0,1),(1,2),(1,7),(1,8),(1,9)] ++ pTail)⟩)
    (by decide))
  have h2 := inducedIter_step h1 (mem_of_anyBeq beqINode beqINode_iff
    (x := INode.more ⟨[5,6,7,8,9],
      mkGraph ns10 ([(0,1),(1,2),(1,5),(1,6),(1,7),(1,8),(1,9)] ++ pTail)⟩)
    (by decide))
  have h3 := inducedIter_step h2 (mem_of_anyBeq beqINode beqINode_iff
    (x := INode.more ⟨[3,4,5,6,7,8,9],
      mkGraph ns10 ([(0,1),(1,2),(1,3),(1,4),(1,5),(1,6),(1,7),(1,8),(1,9)] ++ pTail)⟩)
    (by decide))
  have h4 := inducedIter_step h3 (mem_of_anyBeq beqINode beqINode_iff
    (x := INode.done (Res.ok ([3,4,5,6,7,8,9], starH)))
    (by decide))
  exact inducedIter_done_mono (by decide) h4

/-- C6 (amended): for every chordal simple undirected non-empty graph and all
`s`, `t`, every successful `induced_nodes` outcome `(I, H)` has `H` containing
every edge of `G`, the `(s, t)` edge, and an edge from `s` to every node of
`I` other than `s` itself; and on the 10-node path graph with `s = 1`,
`t = 9`, bound 2, the set `{1,...,9}` is a possible value of `I` (one of the
tie-break-dependent outcomes). -/
theorem induced_nodes_edge_superset_spec :
    (∀ g : PyGraph, ∀ s t : Nat, ∀ bound : Option Nat, WF g →
      g.directed = false → g.multigraph = false → g.nodes ≠ [] → IsChordal g →
      ∀ I H, Res.ok (I, H) ∈ induced_nodes g s t bound →
        (∀ e ∈ g.edges, e ∈ H.edges) ∧ (min s t, max s t) ∈ H.edges ∧
        (∀ x ∈ I, x ≠ s → Adj H s x)) ∧
    Res.ok ([1,2,3,4,5,6,7,8,9], starH) ∈ induced_nodes path10 1 9 (some 2) := by
  constructor
  · intro g s t bound hg hd hm hne hch I H hr
    exact induced_nodes_outcome (is_chordal_eq_true hg hd hm hne hch) hr
  · exact (mem_induced_nodes is_chordal_path10).mpr path10_main_outcome_mem

theorem induced_nodes_edge_superset_spec_witness :
    (∀ I H, Res.ok (I, H) ∈ induced_nodes triangleG 0 2 none →
      (∀ e ∈ triangleG.edges, e ∈ H.edges) ∧ (min 0 2, max 0 2) ∈ H.edges ∧
      (∀ x ∈ I, x ≠ 0 → Adj H 0 x)) ∧
    Res.ok ([1,2,3,4,5,6,7,8,9], starH) ∈ induced_nodes path10 1 9 (some 2) :=
  ⟨induced_nodes_edge_superset_spec.1 triangleG 0 2 none
      (by unfold WF; decide) rfl rfl (by decide)
      (isChordal_of_small (by unfold WF; decide) (by decide)),
   induced_nodes_edge_superset_spec.2⟩

set_option maxRecDepth 16384 in
set_option maxHeartbeats 1000000000 in
/-- C6 counterexample: on the 4-node path with `s = 0`, `t = 3`, one possible
outcome has `0 ∈ I` while `H` has no edge from `s = 0` to `0` (no self-loop),
so `H` does not contain an edge from `s` to *every* node of `I`; and on the
10-node path with `s = 1`, `t = 9`, bound 2, the outcome `I = {3,...,9}` —
which does not contain 1 — is also possible, so the returned `I` does not
always equal `{1,...,9}`. -/
theorem induced_nodes_counterexamples :
    Res.ok ([0,1,2,3], hp4) ∈ induced_nodes path4 0 3 none ∧
    (0 ∈ ([0,1,2,3] : List Nat)) ∧ ¬ Adj hp4 0 0 ∧
    Res.ok ([3,4,5,6,7,8,9], starH) ∈ induced_nodes path10 1 9 (some 2) ∧
    (1 ∉ ([3,4,5,6,7,8,9] : List Nat)) := by
  refine ⟨?_, by decide, by decide, ?_, by decide⟩
  · exact mem_of_anyBeq (beqRes beqIG) (beqRes_iff beqIG_iff) (by decide)
  · exact (mem_induced_nodes is_chordal_path10).mpr path10_alt_outcome_mem

theorem adj_comm {g : PyGraph} {a b : Nat} : Adj g a b ↔ Adj g b a :=
  ⟨Adj.symm, Adj.symm⟩

/-- The Berry–Pogorelčnik dichotomy step: along a maximum-cardinality search
of a chordal graph, if the current `clique_wanna_be` (the last numbered node
together with its earlier numbered neighbours) is fully adjacent to some
unnumbered node `x`, then it is also fully adjacent to the node `v` the
search picks next.  Purely by counting plus the cleanliness of MCS orders. -/
theorem bp_dichotomy {g : PyGraph} (hg : WF g) (hch : IsChordal g)
    {numbered unnumbered cwb : List Nat} (hun_nd : unnumbered.Nodup)
    (hun_iff : ∀ z, z ∈ unnumbered ↔ z ∈ g.nodes ∧ z ∉ numbered)
    {σ : List Nat} {vl : Nat}
    (hσnd : σ.Nodup) (hσiff : ∀ z, z ∈ σ ↔ z ∈ numbered)
    (hσnodes : ∀ z ∈ σ, z ∈ g.nodes) (hmcs : MCSAt g σ)
    (hσpos : 0 < σ.length) (hvl : σ.getD (σ.length - 1) 0 = vl)
    (hshape : ∀ c, c ∈ cwb ↔ (c = vl ∨ (c ∈ numbered ∧ c ≠ vl ∧ Adj g c vl)))
    {v : Nat} (hv : v ∈ maxCardinalityOutcomes g unnumbered numbered)
    {x : Nat} (hx : x ∈ unnumbered) (hax : ∀ q ∈ cwb, Adj g q x) :
    ∀ q ∈ cwb, Adj g q v := by
  obtain ⟨hvun, hvmax⟩ := mem_maxCardinalityOutcomes.mp hv
  obtain ⟨hvnodes, hvnum⟩ := (hun_iff v).mp hvun
  obtain ⟨hxnodes, hxnum⟩ := (hun_iff x).mp hx
  have hlt : σ.length - 1 < σ.length := by omega
  -- σ decomposes as its front part plus its last entry
  have hd1 : σ.drop (σ.length - 1) = [vl] := by
    rw [List.drop_eq_getElem_cons hlt]
    have he : σ.length - 1 + 1 = σ.length := by omega
    rw [he, List.drop_length, ← List.getD_eq_getElem σ 0 hlt, hvl]
  have htd : σ.take (σ.length - 1) ++ [vl] = σ := by
    rw [← hd1]
    exact List.take_append_drop _ _
  have hmemσ2 : ∀ z, z ∈ σ ↔ z ∈ σ.take (σ.length - 1) ∨ z = vl := by
    intro z
    conv_lhs => rw [← htd]
    rw [List.mem_append, List.mem_singleton]
  have hvlσ : vl ∈ σ := (hmemσ2 vl).mpr (Or.inr rfl)
  have hvlnum : vl ∈ numbered := (hσiff vl).mp hvlσ
  have hvlnotin : vl ∉ σ.take (σ.length - 1) := by
    intro hmem
    have hnd2 := hσnd
    rw [← htd, List.nodup_append] at hnd2
    exact hnd2.2.2 hmem (List.mem_singleton_self vl)
  have hvσ : v ∉ σ := fun h => hvnum ((hσiff v).mp h)
  -- finset versions of the numbered sets
  have hPins : numbered.toFinset = insert vl (σ.take (σ.length - 1)).toFinset := by
    ext z
    rw [List.mem_toFinset, Finset.mem_insert, List.mem_toFinset, ← hσiff z, hmemσ2 z]
    tauto
  have hPpvl : vl ∉ (σ.take (σ.length - 1)).toFinset := fun h =>
    hvlnotin (List.mem_toFinset.mp h)
  have hcwbP : ∀ q ∈ cwb, q ∈ numbered := by
    intro q hq
    rcases (hshape q).mp hq with rfl | ⟨hqn, -, -⟩
    · exact hvlnum
    · exact hqn
  -- the clique-wanna-be as a finset over the earlier numbered nodes
  have hWeq : cwb.toFinset =
      insert vl ((σ.take (σ.length - 1)).toFinset.filter fun z => Adj g vl z) := by
    ext z
    rw [List.mem_toFinset, Finset.mem_insert, Finset.mem_filter, List.mem_toFinset,
      hshape z]
    constructor
    · rintro (rfl | ⟨hzn, hzvl, hza⟩)
      · exact Or.inl rfl
      · refine Or.inr ⟨?_, hza.symm⟩
        have hzσ : z ∈ σ := (hσiff z).mpr hzn
        rw [hmemσ2 z] at hzσ
        rcases hzσ with h | rfl
        · exact h
        · exact absurd rfl hzvl
    · rintro (rfl | ⟨hzt, hza⟩)
      · exact Or.inl rfl
      · refine Or.inr ⟨?_, fun he => hPpvl (he ▸ List.mem_toFinset.mpr hzt), hza.symm⟩
        exact (hσiff z).mp (List.mem_of_mem_take hzt)
  have hWcard : cwb.toFinset.card = cnt g vl (σ.take (σ.length - 1)).toFinset + 1 := by
    rw [hWeq, Finset.card_insert_of_not_mem (fun h => hPpvl (Finset.mem_of_mem_filter _ h))]
    rfl
  -- counting: the MCS inequalities
  have h3 : cnt g v (σ.take (σ.length - 1)).toFinset ≤
      cnt g vl (σ.take (σ.length - 1)).toFinset := by
    have := hmcs (σ.length - 1) hlt v hvnodes
      (fun h => hvσ (List.mem_of_mem_take h))
    rw [hvl] at this
    exact this
  have h1 : cnt g x numbered.toFinset ≤ cnt g v numbered.toFinset := by
    rw [← nbCount_eq_cnt hg, ← nbCount_eq_cnt hg]
    exact hvmax x hx
  have h2 : cwb.toFinset.card ≤ cnt g x numbered.toFinset := by
    apply Finset.card_le_card
    intro z hz
    rw [Finset.mem_filter, List.mem_toFinset]
    have hzc := List.mem_toFinset.mp hz
    exact ⟨hcwbP z hzc, (hax z hzc).symm⟩
  have hWpos : 0 < cwb.toFinset.card := by
    rw [hWcard]
    omega
  -- the next node is adjacent to the last numbered node
  have hAdjvvl : Adj g v vl := by
    by_contra hnadj
    have hsplit : cnt g v numbered.toFinset =
        cnt g v (σ.take (σ.length - 1)).toFinset := by
      unfold cnt
      rw [hPins, Finset.filter_insert, if_neg hnadj]
    omega
  -- hence equality throughout the counting chain
  have h5 : cnt g v numbered.toFinset = cwb.toFinset.card := by
    have hsplit : cnt g v numbered.toFinset =
        cnt g v (σ.take (σ.length - 1)).toFinset + 1 := by
      unfold cnt
      rw [hPins, Finset.filter_insert, if_pos hAdjvvl,
        Finset.card_insert_of_not_mem (fun h => hPpvl (Finset.mem_of_mem_filter _ h))]
    omega
  -- main goal: every clique-wanna-be node is adjacent to v
  by_contra hncon
  push_neg at hncon
  obtain ⟨y, hy, hny⟩ := hncon
  have hyW : y ∈ cwb.toFinset := List.mem_toFinset.mpr hy
  have hynA : y ∉ numbered.toFinset.filter fun z => Adj g v z := by
    rw [Finset.mem_filter]
    rintro ⟨-, hya⟩
    exact hny hya.symm
  have hz : ∃ z ∈ numbered.toFinset.filter (fun z => Adj g v z),
      z ∉ cwb.toFinset := by
    by_contra hcon
    push_neg at hcon
    have hsub : (numbered.toFinset.filter fun z => Adj g v z) ⊆
        cwb.toFinset.erase y := by
      intro z hzm
      rw [Finset.mem_erase]
      exact ⟨fun he => hynA (he ▸ hzm), hcon z hzm⟩
    have hcard := Finset.card_le_card hsub
    rw [Finset.card_erase_of_mem hyW] at hcard
    have : cnt g v numbered.toFinset = (numbered.toFinset.filter
        fun z => Adj g v z).card := rfl
    omega
  obtain ⟨z, hzm, hznW⟩ := hz
  rw [Finset.mem_filter, List.mem_toFinset] at hzm
  obtain ⟨hznum, hzadj⟩ := hzm
  have hzvl : z ≠ vl := fun he => hznW (he ▸ List.mem_toFinset.mpr
    ((hshape vl).mpr (Or.inl rfl)))
  have hznadj : ¬ Adj g z vl := by
    intro hcon
    exact hznW (List.mem_toFinset.mpr ((hshape z).mpr (Or.inr ⟨hznum, hzvl, hcon⟩)))
  -- extend the order by v and use cleanliness there
  have hbinv : BInv g ⟨unnumbered, numbered, none⟩ :=
    ⟨hun_nd, hun_iff, σ, hσnd, hσiff, hσnodes, hmcs,
      mcs_clean hg hch hσnd hσnodes hmcs⟩
  obtain ⟨σ2, hnd2, hiff2, hnodes2, hmcs2, hpos2, hlast2, htake2, -⟩ :=
    binv_ext hg hbinv hv
  have hclean2 := mcs_clean hg hch hnd2 hnodes2 hmcs2
  have hzt : z ∈ σ2.take (σ2.length - 1) := (htake2 z).mpr hznum
  have hvlt : vl ∈ σ2.take (σ2.length - 1) := (htake2 vl).mpr hvlnum
  have := hclean2 (σ2.length - 1) (by omega) z hzt vl hvlt hzvl
    (by rw [hlast2]; exact hzadj.symm)
    (by rw [hlast2]; exact hAdjvvl.symm)
  exact hznadj this

theorem cinvA_step {g : PyGraph} (hg : WF g) (hch : IsChordal g) {st : CSt}
    (hinv : CInvA g st) : ∀ n ∈ cliqueStep g st,
    (∀ st2, n = CNode.more st2 → CInvA g st2) ∧
    (∀ cs, n = CNode.done (Res.ok cs) →
      (∀ c1 ∈ cs, ∀ c2 ∈ cs, ¬ StrictSubL c1 c2) ∧
      ∀ cl ∈ cs, IsCliqueList g cl ∧ cl ≠ [] ∧ (∀ q ∈ cl, q ∈ g.nodes) ∧
        (∀ x ∈ g.nodes, x ∉ cl → ¬ ∀ q ∈ cl, Adj g q x)) := by
  intro n hn
  obtain ⟨hun_nd, hun_iff, hcwbcl, hQs, σ, vl, hσnd, hσiff, hσnodes, hmcs,
    hσpos, hvl, hshape⟩ := hinv
  have hnumnodes : ∀ z ∈ st.numbered, z ∈ g.nodes := fun z hz =>
    hσnodes z ((hσiff z).mpr hz)
  have hvlσ : vl ∈ σ := by
    rw [← hvl, List.getD_eq_getElem σ 0 (by omega)]
    exact List.getElem_mem _
  have hvlnum : vl ∈ st.numbered := (hσiff vl).mp hvlσ
  have hvlcwb : vl ∈ st.cwb := (hshape vl).mpr (Or.inl rfl)
  have hcwbnum : ∀ q ∈ st.cwb, q ∈ st.numbered := by
    intro q hq
    rcases (hshape q).mp hq with rfl | ⟨hqn, -, -⟩
    · exact hvlnum
    · exact hqn
  have hcwbne : st.cwb ≠ [] := List.ne_nil_of_mem hvlcwb
  have hnum_ext : ∀ x, x ∈ st.numbered → x ∉ st.cwb →
      ¬ ∀ q ∈ st.cwb, Adj g q x := by
    intro x hxn hxc hall
    have hadj := hall vl hvlcwb
    have hxvl : x ≠ vl := fun he => wf_no_self_adj hg vl (he ▸ hadj)
    exact hxc ((hshape x).mpr (Or.inr ⟨hxn, hxvl, hadj.symm⟩))
  have hcompT : is_complete_graph (subgraphF g st.cwb) = Res.ok true := by
    rw [is_complete_graph_ok_true (wf_subgraphF hg _)]
    intro a ha b hb hab
    rw [mem_nodes_subgraphF] at ha hb
    exact adj_subgraphF.mpr ⟨hcwbcl a ha.2 b hb.2 hab, ha.2, hb.2⟩
  rcases cliqueStep_cases hn with ⟨hemp, rfl⟩ | ⟨v, hvun, hvmax, hcases⟩
  · -- the loop has finished: the current clique-wanna-be is flushed
    refine ⟨fun st2 h => CNode.noConfusion h, fun cs h => ?_⟩
    have hcs : cs = insertClique st.cwb st.cliques :=
      Res.ok.inj (CNode.done.inj h.symm)
    subst hcs
    have hcwbmax : ∀ x ∈ g.nodes, x ∉ st.cwb → ¬ ∀ q ∈ st.cwb, Adj g q x := by
      intro x hxg hxc
      have hxnum : x ∈ st.numbered := by
        by_contra hxn
        have hxu : x ∈ st.unnumbered := (hun_iff x).mpr ⟨hxg, hxn⟩
        rw [hemp] at hxu
        cases hxu
      exact hnum_ext x hxnum hxc
    constructor
    · intro c1 hc1 c2 hc2 hss
      obtain ⟨hsub, b, hb2, hbn1⟩ := hss
      rcases mem_insertClique.mp hc1 with rfl | hc1m
      · rcases mem_insertClique.mp hc2 with rfl | hc2m
        · exact hbn1 hb2
        · obtain ⟨-, hQnum, hQcl, -, -⟩ := hQs c2 hc2m
          refine hcwbmax b (hnumnodes b (hQnum b hb2)) hbn1 ?_
          intro q hq
          exact hQcl q (hsub q hq) b hb2 (fun he => hbn1 (he ▸ hq))
      · obtain ⟨-, -, -, hQmax, hQnc⟩ := hQs c1 hc1m
        rcases mem_insertClique.mp hc2 with rfl | hc2m
        · exact hQnc hsub
        · obtain ⟨-, hQ2num, hQ2cl, -, -⟩ := hQs c2 hc2m
          refine hQmax b (hnumnodes b (hQ2num b hb2)) hbn1 ?_
          intro q hq
          exact hQ2cl q (hsub q hq) b hb2 (fun he => hbn1 (he ▸ hq))
    · intro cl hcl
      rcases mem_insertClique.mp hcl with rfl | hclm
      · exact ⟨hcwbcl, hcwbne, fun q hq => hnumnodes q (hcwbnum q hq), hcwbmax⟩
      · obtain ⟨hQne, hQnum, hQcl, hQmax, -⟩ := hQs cl hclm
        exact ⟨hQcl, hQne, fun q hq => hnumnodes q (hQnum q hq), hQmax⟩
  · -- a node v is selected and the traversal continues
    have hv2 : v ∈ maxCardinalityOutcomes g st.unnumbered st.numbered :=
      mem_maxCardinalityOutcomes.mpr ⟨hvun, hvmax⟩
    obtain ⟨hvnodes, hvnum⟩ := (hun_iff v).mp hvun
    have hbinv : BInv g ⟨st.unnumbered, st.numbered, none⟩ :=
      ⟨hun_nd, hun_iff, σ, hσnd, hσiff, hσnodes, hmcs,
        mcs_clean hg hch hσnd hσnodes hmcs⟩
    obtain ⟨σ2, hnd2, hiff2, hnodes2, hmcs2, hpos2, hlast2, htake2, -⟩ :=
      binv_ext hg hbinv hv2
    have hnewclique : IsCliqueList g
        (sInsert v ((sInsert v st.numbered).filter fun y => memB y (nbrs g v))) := by
      have hclean2 : CleanAt g σ2 := mcs_clean hg hch hnd2 hnodes2 hmcs2
      intro a ha b hb hab
      rw [mem_sInsert, mem_cwbL hg] at ha hb
      rcases ha with rfl | ⟨han, haa⟩
      · rcases hb with rfl | ⟨hbn, hba⟩
        · exact absurd rfl hab
        · exact hba
      · rcases hb with rfl | ⟨hbn, hba⟩
        · exact haa.symm
        · refine hclean2 (σ2.length - 1) (by omega) a ((htake2 a).mpr han)
            b ((htake2 b).mpr hbn) hab ?_ ?_
          · rw [hlast2]
            exact haa.symm
          · rw [hlast2]
            exact hba.symm
    have hnshape : ∀ c2, c2 ∈ sInsert v ((sInsert v st.numbered).filter
        fun y => memB y (nbrs g v)) ↔
        (c2 = v ∨ (c2 ∈ sInsert v st.numbered ∧ c2 ≠ v ∧ Adj g c2 v)) := by
      intro c2
      rw [mem_sInsert, mem_cwbL hg, mem_sInsert]
      constructor
      · rintro (rfl | ⟨hc2n, hc2a⟩)
        · exact Or.inl rfl
        · have hc2v : c2 ≠ v := fun he => hvnum (he ▸ hc2n)
          exact Or.inr ⟨Or.inr hc2n, hc2v, hc2a.symm⟩
      · rintro (rfl | ⟨rfl | hc2n, hc2v, hc2a⟩)
        · exact Or.inl rfl
        · exact absurd rfl hc2v
        · exact Or.inr ⟨hc2n, hc2a.symm⟩
    have holdQ : ∀ Q ∈ st.cliques,
        Q ≠ [] ∧ (∀ q ∈ Q, q ∈ sInsert v st.numbered) ∧ IsCliqueList g Q ∧
        (∀ x ∈ g.nodes, x ∉ Q → ¬ ∀ q ∈ Q, Adj g q x) ∧
        ¬ (∀ q ∈ Q, q ∈ sInsert v ((sInsert v st.numbered).filter
            fun y => memB y (nbrs g v))) := by
      intro Q hQ
      obtain ⟨hQne, hQnum, hQcl, hQmax, hQnc⟩ := hQs Q hQ
      refine ⟨hQne, fun q hq => mem_sInsert.mpr (Or.inr (hQnum q hq)), hQcl,
        hQmax, ?_⟩
      intro hcon
      refine hQmax v hvnodes (fun hvQ => hvnum (hQnum v hvQ)) ?_
      intro q hq
      rcases (hnshape q).mp (hcon q hq) with rfl | ⟨-, -, hqa⟩
      · exact absurd (hQnum q hq) hvnum
      · exact hqa
    rcases hcases with ⟨hic, rfl⟩ | ⟨hic, rfl⟩ | ⟨e, hic, rfl⟩
    · refine ⟨fun st2 h => ?_, fun cs h => CNode.noConfusion h⟩
      have hst2 := CNode.more.inj h
      subst hst2
      by_cases hguard : st.cwb.all (fun y => memB y (sInsert v
          ((sInsert v st.numbered).filter fun y => memB y (nbrs g v)))) = true
      · -- the old clique-wanna-be survives inside the new one: no flush
        rw [if_pos hguard]
        refine ⟨hun_nd.erase v, ?_, hnewclique, holdQ, σ2, v, hnd2, hiff2,
          hnodes2, hmcs2, by omega, hlast2, hnshape⟩
        intro z
        rw [hun_nd.mem_erase_iff, hun_iff, mem_sInsert]
        constructor
        · rintro ⟨hne, hzg, hzn⟩
          refine ⟨hzg, ?_⟩
          rintro (rfl | hz)
          · exact hne rfl
          · exact hzn hz
        · rintro ⟨hzg, hzn⟩
          exact ⟨fun he => hzn (Or.inl he), hzg, fun hz => hzn (Or.inr hz)⟩
      · -- flush: the old clique-wanna-be is recorded
        rw [if_neg hguard]
        have hflush : ¬ ∀ q ∈ st.cwb, q ∈ sInsert v
            ((sInsert v st.numbered).filter fun y => memB y (nbrs g v)) := by
          intro hcon
          exact hguard (List.all_eq_true.mpr fun y hy => memB_eq.mpr (hcon y hy))
        have hcwbmaxF : ∀ x ∈ g.nodes, x ∉ st.cwb →
            ¬ ∀ q ∈ st.cwb, Adj g q x := by
          intro x hxg hxc hall
          by_cases hxnum : x ∈ st.numbered
          · exact hnum_ext x hxnum hxc hall
          · have hxun : x ∈ st.unnumbered := (hun_iff x).mpr ⟨hxg, hxnum⟩
            have hba := bp_dichotomy hg hch hun_nd hun_iff hσnd hσiff hσnodes
              hmcs hσpos hvl hshape hv2 hxun hall
            refine hflush ?_
            intro q hq
            refine (hnshape q).mpr (Or.inr ⟨mem_sInsert.mpr
              (Or.inr (hcwbnum q hq)),
              fun he => hvnum (he ▸ hcwbnum q hq), hba q hq⟩)
        refine ⟨hun_nd.erase v, ?_, hnewclique, ?_, σ2, v, hnd2, hiff2,
          hnodes2, hmcs2, by omega, hlast2, hnshape⟩
        · intro z
          rw [hun_nd.mem_erase_iff, hun_iff, mem_sInsert]
          constructor
          · rintro ⟨hne, hzg, hzn⟩
            refine ⟨hzg, ?_⟩
            rintro (rfl | hz)
            · exact hne rfl
            · exact hzn hz
          · rintro ⟨hzg, hzn⟩
            exact ⟨fun he => hzn (Or.inl he), hzg, fun hz => hzn (Or.inr hz)⟩
        · intro Q hQ
          rcases mem_insertClique.mp hQ with rfl | hQm
          · exact ⟨hcwbne, fun q hq => mem_sInsert.mpr (Or.inr (hcwbnum q hq)),
              hcwbcl, hcwbmaxF, hflush⟩
          · exact holdQ Q hQm
    · rw [hcompT] at hic
      exact absurd (Res.ok.inj hic) (by simp)
    · rw [hcompT] at hic
      exact Res.noConfusion hic

theorem cccsA_outcome {c : PyGraph} (hw : WF c) (hch : IsChordal c)
    (hne : c.nodes ≠ []) :
    ∀ r ∈ connected_chordal_graph_cliques c, ∃ cs, r = Res.ok cs ∧
      (∀ c1 ∈ cs, ∀ c2 ∈ cs, ¬ StrictSubL c1 c2) ∧
      ∀ cl ∈ cs, IsCliqueList c cl ∧ cl ≠ [] ∧ (∀ q ∈ cl, q ∈ c.nodes) ∧
        (∀ x ∈ c.nodes, x ∉ cl → ¬ ∀ q ∈ cl, Adj c q x) := by
  intro r hr
  unfold connected_chordal_graph_cliques at hr
  by_cases h1 : c.nodes.length = 1
  · rw [if_pos h1, List.mem_singleton] at hr
    subst hr
    obtain ⟨x0, t, hxt⟩ := List.exists_cons_of_ne_nil hne
    have ht : t = [] := by
      have hlt := congrArg List.length hxt
      rw [h1, List.length_cons] at hlt
      exact List.length_eq_zero.mp (by omega)
    subst ht
    have hsing : ∀ z ∈ dedupB Nat.beq c.nodes, z = x0 := by
      intro z hz
      rw [mem_dedupB natBeqA, hxt, List.mem_singleton] at hz
      exact hz
    refine ⟨_, rfl, ?_, ?_⟩
    · intro c1 hc1 c2 hc2 hss
      rw [List.mem_singleton] at hc1 hc2
      subst hc1
      subst hc2
      obtain ⟨-, b, hb, hbn⟩ := hss
      exact hbn hb
    · intro cl hcl
      rw [List.mem_singleton] at hcl
      subst hcl
      refine ⟨?_, dedupB_ne_nil natBeqA hne, ?_, ?_⟩
      · intro a ha b hb hab
        exact absurd ((hsing a ha).trans (hsing b hb).symm) hab
      · intro q hq
        exact (mem_dedupB natBeqA).mp hq
      · intro x hx hxc hall
        apply hxc
        rw [mem_dedupB natBeqA, hxt, List.mem_singleton]
        rw [hxt, List.mem_singleton] at hx
        exact hx
  · rw [if_neg h1] at hr
    by_cases h2 : c.nodes = []
    · exact absurd h2 hne
    · rw [if_neg h2] at hr
      rw [mem_dedupB (beqRes_iff beqLLN_iff), List.mem_filterMap] at hr
      obtain ⟨n, hn, hnr⟩ := hr
      have hP := clique_invariant c
        ((dedupB Nat.beq c.nodes).map fun v =>
          CNode.more ⟨(dedupB Nat.beq c.nodes).erase v, [v], [v], []⟩)
        (fun n => (∃ st, n = CNode.more st ∧ CInvA c st) ∨
          (∃ cs, n = CNode.done (Res.ok cs) ∧
            (∀ c1 ∈ cs, ∀ c2 ∈ cs, ¬ StrictSubL c1 c2) ∧
            ∀ cl ∈ cs, IsCliqueList c cl ∧ cl ≠ [] ∧ (∀ q ∈ cl, q ∈ c.nodes) ∧
              (∀ x ∈ c.nodes, x ∉ cl → ¬ ∀ q ∈ cl, Adj c q x)))
        ?hinit ?hstep (c.nodes.length + 1) n hn
      case hinit =>
        intro n2 hn2
        rw [List.mem_map] at hn2
        obtain ⟨v, hv, heq⟩ := hn2
        have hvnodes : v ∈ c.nodes := (mem_dedupB natBeqA).mp hv
        have hdnd : (dedupB Nat.beq c.nodes).Nodup := dedupB_nodup natBeqA c.nodes
        refine Or.inl ⟨_, heq.symm, hdnd.erase v, ?_, ?_, ?_, [v], v,
          List.nodup_singleton v, fun z => Iff.rfl, ?_, ?_, by simp, rfl, ?_⟩
        · intro z
          rw [hdnd.mem_erase_iff, mem_dedupB natBeqA, List.mem_singleton]
          tauto
        · intro a ha b hb hab
          rw [List.mem_singleton] at ha hb
          exact absurd (ha.trans hb.symm) hab
        · intro cl hcl
          cases hcl
        · intro z hz
          rw [List.mem_singleton] at hz
          subst hz
          exact hvnodes
        · intro k hk y hynodes hyt
          have hk0 : k = 0 := by
            rw [List.length_singleton] at hk
            omega
          subst hk0
          rw [List.take_zero]
          simp [cnt]
        · intro c2
          rw [List.mem_singleton]
          constructor
          · intro h
            exact Or.inl h
          · rintro (rfl | ⟨hc2m, hc2v, -⟩)
            · rfl
            · exact absurd hc2m hc2v
      case hstep =>
        intro st hPst n2 hn2
        have hinv : CInvA c st := by
          rcases hPst with ⟨st2, heq, hinv⟩ | ⟨cs, heq, -⟩
          · have h3 := CNode.more.inj heq
            rw [← h3] at hinv
            exact hinv
          · exact absurd heq (fun h => CNode.noConfusion h)
        obtain ⟨hmore, hdone⟩ := cinvA_step hw hch hinv n2 hn2
        match n2 with
        | CNode.more st2 => exact Or.inl ⟨st2, rfl, hmore st2 rfl⟩
        | CNode.done (Res.ok cs) =>
          obtain ⟨hanti, hcs⟩ := hdone cs rfl
          exact Or.inr ⟨cs, rfl, hanti, hcs⟩
        | CNode.done (Res.error e) =>
          exfalso
          rcases cliqueStep_cases hn2 with ⟨hemp, heq⟩ | ⟨v, hvun, hvmax, hcases⟩
          · exact Res.noConfusion (CNode.done.inj heq)
          · obtain ⟨-, -, hcwbcl, -, -⟩ := hinv
            have hcompT : is_complete_graph (subgraphF c st.cwb) = Res.ok true := by
              rw [is_complete_graph_ok_true (wf_subgraphF hw _)]
              intro a ha b hb hab
              rw [mem_nodes_subgraphF] at ha hb
              exact adj_subgraphF.mpr ⟨hcwbcl a ha.2 b hb.2 hab, ha.2, hb.2⟩
            rcases hcases with ⟨hic, heq⟩ | ⟨hic, heq⟩ | ⟨e2, hic, heq⟩
            · exact CNode.noConfusion heq
            · rw [hcompT] at hic
              exact Bool.noConfusion (Res.ok.inj hic)
            · rw [hcompT] at hic
              exact Res.noConfusion hic
      rcases hP with ⟨st, heq, -⟩ | ⟨cs, heq, hanti, hcs⟩
      · subst heq
        cases hnr
      · subst heq
        have hre : r = Res.ok cs := by
          cases hnr
          rfl
        exact ⟨cs, hre, hanti, hcs⟩

theorem mem_compExpand {g : PyGraph} {s : List Nat} {x : Nat} :
    x ∈ compExpand g s ↔ x ∈ s ∨ ∃ y ∈ s, x ∈ nbrs g y := by
  unfold compExpand
  rw [mem_foldl_sInsert, List.mem_flatMap]
  exact or_comm

theorem compExpand_congr {g : PyGraph} {s1 s2 : List Nat}
    (h : ∀ z, z ∈ s1 ↔ z ∈ s2) :
    ∀ z, z ∈ compExpand g s1 ↔ z ∈ compExpand g s2 := by
  intro z
  rw [mem_compExpand, mem_compExpand]
  constructor
  · rintro (hz | ⟨y, hy, hz⟩)
    · exact Or.inl ((h z).mp hz)
    · exact Or.inr ⟨y, (h y).mp hy, hz⟩
  · rintro (hz | ⟨y, hy, hz⟩)
    · exact Or.inl ((h z).mpr hz)
    · exact Or.inr ⟨y, (h y).mpr hy, hz⟩

theorem foldl_sInsert_nodup {l2 : List Nat} :
    ∀ {l : List Nat}, l.Nodup → (l2.foldl (fun acc y => sInsert y acc) l).Nodup := by
  induction l2 with
  | nil =>
    intro l h
    exact h
  | cons y rest ih =>
    intro l h
    rw [List.foldl_cons]
    exact ih (sInsert_nodup h)

theorem compExpand_nodup {g : PyGraph} {s : List Nat} (h : s.Nodup) :
    (compExpand g s).Nodup := foldl_sInsert_nodup h

theorem compExpand_nodes {g : PyGraph} (hg : WF g) {s : List Nat}
    (h : ∀ z ∈ s, z ∈ g.nodes) : ∀ z ∈ compExpand g s, z ∈ g.nodes := by
  intro z hz
  rcases mem_compExpand.mp hz with hz | ⟨y, hy, hz⟩
  · exact h z hz
  · exact (adj_mem_nodes hg (mem_nbrs.mp hz)).2

theorem componentOf_nodup {g : PyGraph} (v : Nat) : (componentOf g v).Nodup := by
  unfold componentOf
  induction g.nodes.length with
  | zero => exact List.nodup_singleton v
  | succ k ih =>
    rw [Function.iterate_succ_apply']
    exact compExpand_nodup ih

theorem componentOf_nodes {g : PyGraph} (hg : WF g) {v : Nat} (hv : v ∈ g.nodes) :
    ∀ z ∈ componentOf g v, z ∈ g.nodes := by
  unfold componentOf
  induction g.nodes.length with
  | zero =>
    intro z hz
    rw [Function.iterate_zero_apply, List.mem_singleton] at hz
    subst hz
    exact hv
  | succ k ih =>
    rw [Function.iterate_succ_apply']
    exact compExpand_nodes hg ih

theorem iterate_compExpand_congr {g : PyGraph} {s1 s2 : List Nat}
    (h : ∀ z, z ∈ s1 ↔ z ∈ s2) (k : Nat) :
    ∀ z, z ∈ (compExpand g)^[k] s1 ↔ z ∈ (compExpand g)^[k] s2 := by
  induction k generalizing s1 s2 with
  | zero => exact h
  | succ m ih =>
    rw [Function.iterate_succ_apply, Function.iterate_succ_apply]
    exact ih (compExpand_congr h)

theorem componentOf_stable {g : PyGraph} (hg : WF g) {v : Nat} (hv : v ∈ g.nodes) :
    ∀ z, z ∈ compExpand g (componentOf g v) ↔ z ∈ componentOf g v := by
  -- once some iteration stops growing, every later one has the same members
  have hgrow : ∀ i, ∀ z ∈ (compExpand g)^[i] [v], z ∈ (compExpand g)^[i + 1] [v] := by
    intro i z hz
    rw [Function.iterate_succ_apply']
    exact mem_compExpand.mpr (Or.inl hz)
  have hnodup : ∀ i, ((compExpand g)^[i] [v]).Nodup := by
    intro i
    induction i with
    | zero => exact List.nodup_singleton v
    | succ m ih =>
      rw [Function.iterate_succ_apply']
      exact compExpand_nodup ih
  have hnodes : ∀ i, ∀ z ∈ (compExpand g)^[i] [v], z ∈ g.nodes := by
    intro i
    induction i with
    | zero =>
      intro z hz
      rw [Function.iterate_zero_apply, List.mem_singleton] at hz
      subst hz
      exact hv
    | succ m ih =>
      rw [Function.iterate_succ_apply']
      exact compExpand_nodes hg ih
  have hlenle : ∀ i, ((compExpand g)^[i] [v]).length ≤ g.nodes.length := by
    intro i
    exact ((hnodup i).subperm (hnodes i)).length_le
  -- a stage that still grows gains at least one node
  have hstrict : ∀ i, (∃ z ∈ (compExpand g)^[i + 1] [v],
      z ∉ (compExpand g)^[i] [v]) →
      ((compExpand g)^[i] [v]).length + 1 ≤ ((compExpand g)^[i + 1] [v]).length := by
    intro i hex
    obtain ⟨z, hz1, hz0⟩ := hex
    have hsub : List.Subperm (z :: (compExpand g)^[i] [v])
        ((compExpand g)^[i + 1] [v]) := by
      refine (List.nodup_cons.mpr ⟨hz0, hnodup i⟩).subperm ?_
      intro a ha
      rw [List.mem_cons] at ha
      rcases ha with rfl | ha
      · exact hz1
      · exact hgrow i a ha
    have := hsub.length_le
    rw [List.length_cons] at this
    omega
  -- hence some stage below n is already stable
  have hstab : ∃ i, i ≤ g.nodes.length ∧
      ∀ z, z ∈ (compExpand g)^[i + 1] [v] ↔ z ∈ (compExpand g)^[i] [v] := by
    by_contra hcon
    push_neg at hcon
    have hge : ∀ i, i ≤ g.nodes.length →
        i + 1 ≤ ((compExpand g)^[i] [v]).length := by
      intro i
      induction i with
      | zero =>
        intro h0
        rw [Function.iterate_zero_apply, List.length_singleton]
      | succ m ih =>
        intro hm
        obtain ⟨z, hz⟩ := hcon m (by omega)
        have hzz : z ∈ (compExpand g)^[m + 1] [v] ∧
            z ∉ (compExpand g)^[m] [v] := by
          by_cases hz1 : z ∈ (compExpand g)^[m + 1] [v]
          · refine ⟨hz1, fun hz0 => ?_⟩
            rw [eq_true hz1, eq_true hz0] at hz
            simp at hz
          · exfalso
            have hz0 : z ∉ (compExpand g)^[m] [v] := fun hz0 =>
              hz1 (hgrow m z hz0)
            rw [eq_false hz1, eq_false hz0] at hz
            simp at hz
        have := hstrict m ⟨z, hzz.1, hzz.2⟩
        have := ih (by omega)
        omega
    have h1 := hge g.nodes.length (le_refl _)
    have h2 := hlenle g.nodes.length
    omega
  obtain ⟨i, hile, hieq⟩ := hstab
  -- stability propagates from stage i to every later stage
  have hprop : ∀ j, ∀ z, z ∈ (compExpand g)^[i + j] [v] ↔
      z ∈ (compExpand g)^[i] [v] := by
    intro j
    induction j with
    | zero => exact fun z => Iff.rfl
    | succ m ih =>
      intro z
      have he : i + (m + 1) = (i + m) + 1 := by omega
      rw [he, Function.iterate_succ_apply']
      have hstep : ∀ w, w ∈ compExpand g ((compExpand g)^[i + m] [v]) ↔
          w ∈ compExpand g ((compExpand g)^[i] [v]) :=
        compExpand_congr ih
      rw [hstep z]
      have : compExpand g ((compExpand g)^[i] [v]) =
          (compExpand g)^[i + 1] [v] := by
        rw [Function.iterate_succ_apply']
      rw [this]
      exact hieq z
  intro z
  unfold componentOf
  have hn1 : ∀ w, w ∈ (compExpand g)^[g.nodes.length] [v] ↔
      w ∈ (compExpand g)^[i] [v] := by
    intro w
    have he : g.nodes.length = i + (g.nodes.length - i) := by omega
    rw [he]
    exact hprop (g.nodes.length - i) w
  rw [compExpand_congr hn1 z, hn1 z]
  have : compExpand g ((compExpand g)^[i] [v]) = (compExpand g)^[i + 1] [v] := by
    rw [Function.iterate_succ_apply']
  rw [this]
  exact hieq z

/-- The reachable set computed by `componentOf` is closed under adjacency. -/
theorem componentOf_closed {g : PyGraph} (hg : WF g) {v : Nat} (hv : v ∈ g.nodes)
    {x y : Nat} (hy : y ∈ componentOf g v) (hadj : Adj g y x) :
    x ∈ componentOf g v := by
  rw [← componentOf_stable hg hv x]
  exact mem_compExpand.mpr (Or.inr ⟨y, hy, mem_nbrs.mpr hadj⟩)

theorem comps_shape_component {g : PyGraph} :
    ∀ c ∈ connected_component_subgraphs g,
      (∃ v, v ∈ g.nodes ∧ c = subgraphF g (componentOf g v)) ∧ c.nodes ≠ [] := by
  intro c hc
  unfold connected_component_subgraphs at hc
  rw [List.mem_map] at hc
  obtain ⟨s, hs, rfl⟩ := hc
  rw [mem_dedupB beqLN_iff, List.mem_map] at hs
  obtain ⟨v, hv, rfl⟩ := hs
  have hvn : v ∈ g.nodes := hv
  have hvm : v ∈ (subgraphF g (componentOf g v)).nodes :=
    mem_nodes_subgraphF.mpr ⟨hvn, mem_componentOf_self g v⟩
  exact ⟨⟨v, hvn, rfl⟩, List.ne_nil_of_mem hvm⟩

theorem maximal_lift {g : PyGraph} (hg : WF g) {v : Nat} (hv : v ∈ g.nodes)
    {cl : List Nat} (hne : cl ≠ [])
    (hsub : ∀ q ∈ cl, q ∈ (subgraphF g (componentOf g v)).nodes)
    (hmax : ∀ x ∈ (subgraphF g (componentOf g v)).nodes, x ∉ cl →
      ¬ ∀ q ∈ cl, Adj (subgraphF g (componentOf g v)) q x) :
    ∀ x ∈ g.nodes, x ∉ cl → ¬ ∀ q ∈ cl, Adj g q x := by
  intro x hx hxc hall
  obtain ⟨q0, hq0⟩ := List.exists_mem_of_ne_nil cl hne
  have hq0s : q0 ∈ componentOf g v := (mem_nodes_subgraphF.mp (hsub q0 hq0)).2
  have hxs : x ∈ componentOf g v := componentOf_closed hg hv hq0s (hall q0 hq0)
  refine hmax x (mem_nodes_subgraphF.mpr ⟨hx, hxs⟩) hxc ?_
  intro q hq
  exact adj_subgraphF.mpr ⟨hall q hq, (mem_nodes_subgraphF.mp (hsub q hq)).2, hxs⟩

theorem cliquesA_fold_outcome {g : PyGraph} (hg : WF g) (hch : IsChordal g) :
    ∀ comps : List PyGraph,
      (∀ c ∈ comps,
        (∃ v, v ∈ g.nodes ∧ c = subgraphF g (componentOf g v)) ∧ c.nodes ≠ []) →
      ∀ acc : List (Res (List (List Nat))),
        (∀ r ∈ acc, ∃ cs, r = Res.ok cs ∧
          ∀ cl ∈ cs, IsCliqueList g cl ∧ cl ≠ [] ∧ (∀ q ∈ cl, q ∈ g.nodes) ∧
            (∀ x ∈ g.nodes, x ∉ cl → ¬ ∀ q ∈ cl, Adj g q x)) →
        ∀ r ∈ comps.foldl (cliqueFoldStep g) acc, ∃ cs, r = Res.ok cs ∧
          ∀ cl ∈ cs, IsCliqueList g cl ∧ cl ≠ [] ∧ (∀ q ∈ cl, q ∈ g.nodes) ∧
            (∀ x ∈ g.nodes, x ∉ cl → ¬ ∀ q ∈ cl, Adj g q x) := by
  intro comps
  induction comps with
  | nil =>
    intro hcomps acc hacc r hr
    rw [List.foldl_nil] at hr
    exact hacc r hr
  | cons c rest ih =>
    intro hcomps acc hacc r hr
    rw [List.foldl_cons] at hr
    obtain ⟨⟨v, hvn, rfl⟩, hcne⟩ := hcomps c (List.mem_cons_self _ _)
    refine ih (fun c2 hc2 => hcomps c2 (List.mem_cons_of_mem _ hc2)) _ ?_ r hr
    intro r2 hr2
    rw [mem_cliqueFoldStep] at hr2
    obtain ⟨ra, hra, hr2⟩ := hr2
    obtain ⟨cs0, rfl, hcs0⟩ := hacc ra hra
    rw [List.mem_map] at hr2
    obtain ⟨rc, hrc, rfl⟩ := hr2
    have hwc : WF (subgraphF g (componentOf g v)) := wf_subgraphF hg _
    have hchc : IsChordal (subgraphF g (componentOf g v)) :=
      isChordal_subgraphF hch _
    obtain ⟨cs2, rfl, -, hcs2⟩ := cccsA_outcome hwc hchc hcne rc hrc
    refine ⟨_, rfl, ?_⟩
    intro cl hcl
    rw [mem_foldl_insertClique] at hcl
    rcases hcl with hcl | hcl
    · obtain ⟨hclq, hclne, hclsub, hclmax⟩ := hcs2 cl hcl
      refine ⟨?_, hclne, ?_, maximal_lift hg hvn hclne hclsub hclmax⟩
      · intro a ha b hb hab
        exact (adj_subgraphF.mp (hclq a ha b hb hab)).1
      · intro q hq
        exact (mem_nodes_subgraphF.mp (hclsub q hq)).1
    · exact hcs0 cl hcl

theorem chordal_graph_cliques_maximal {g : PyGraph} (hg : WF g)
    (hic : is_chordal g = [Res.ok true]) (hch : IsChordal g) :
    ∀ r ∈ chordal_graph_cliques g, ∃ cs, r = Res.ok cs ∧
      ∀ cl ∈ cs, IsCliqueList g cl ∧ cl ≠ [] ∧ (∀ q ∈ cl, q ∈ g.nodes) ∧
        (∀ x ∈ g.nodes, x ∉ cl → ¬ ∀ q ∈ cl, Adj g q x) := by
  intro r hr
  rw [chordal_graph_cliques_eq hic, mem_dedupB (beqRes_iff beqLLN_iff)] at hr
  refine cliquesA_fold_outcome hg hch (connected_component_subgraphs g)
    comps_shape_component [Res.ok []] ?_ r hr
  intro r2 hr2
  rw [List.mem_singleton] at hr2
  subst hr2
  refine ⟨[], rfl, ?_⟩
  intro cl hcl
  cases hcl

/-- C4: for every chordal graph (simple, undirected, non-empty), every node
list in every outcome of `chordal_graph_cliques` induces a complete subgraph
of the input, and no returned node set is a strict subset of another returned
node set: the returned collection is an antichain under inclusion.  (In fact
every returned set is a maximal clique.) -/
theorem cliques_complete_and_antichain {g : PyGraph} (hg : WF g)
    (hd : g.directed = false) (hm : g.multigraph = false) (hne : g.nodes ≠ [])
    (hch : IsChordal g) :
    ∀ cs, Res.ok cs ∈ chordal_graph_cliques g →
      (∀ cl ∈ cs, IsCliqueList g cl) ∧
      (∀ c1 ∈ cs, ∀ c2 ∈ cs, ¬ StrictSubL c1 c2) := by
  have hic := is_chordal_eq_true hg hd hm hne hch
  intro cs hcs
  obtain ⟨cs2, he, hfacts⟩ := chordal_graph_cliques_maximal hg hic hch _ hcs
  have hcse : cs2 = cs := (Res.ok.inj he).symm
  subst hcse
  refine ⟨fun cl hcl => (hfacts cl hcl).1, ?_⟩
  intro c1 hc1 c2 hc2 hss
  obtain ⟨hsub, b, hb2, hbn⟩ := hss
  obtain ⟨-, -, -, hmax1⟩ := hfacts c1 hc1
  obtain ⟨hcl2, -, hnodes2, -⟩ := hfacts c2 hc2
  refine hmax1 b (hnodes2 b hb2) hbn ?_
  intro q hq
  exact hcl2 q (hsub q hq) b hb2 (fun he2 => hbn (he2 ▸ hq))

theorem cliques_complete_and_antichain_witness :
    Res.ok [[0,1,2]] ∈ chordal_graph_cliques triangleG ∧
    (∀ cs, Res.ok cs ∈ chordal_graph_cliques triangleG →
      (∀ cl ∈ cs, IsCliqueList triangleG cl) ∧
      (∀ c1 ∈ cs, ∀ c2 ∈ cs, ¬ StrictSubL c1 c2)) :=
  ⟨by decide, cliques_complete_and_antichain (by unfold WF; decide) rfl rfl
    (by decide) (isChordal_of_small (by unfold WF; decide) (by decide))⟩

end NetworkxChordal
